import Mathlib

/-!
# Verification of the sparse radix tree and skip list

Shallow embedding of the two core data structures of this repository:

* the sparse radix tree (`lib/sradix-tree.c` and its revised variant), and
* the skip list (`kernel/skip_lists.c`, `include/linux/skip_lists.h`).

The revised radix-tree variant (the one with `sradix_node_full`, `root->min`
maintenance and `sradix_tree_delete_from_leaf`) is embedded as the primary
program; the older `lib/sradix-tree.c` variant of `sradix_tree_enter` /
`sradix_tree_extend` is embedded separately with an explicit allocator-failure
stream, because its error path differs.

Modelling conventions:

* Machine integers are `Nat`.  Index values are C `unsigned long`; all the
  arithmetic performed on them by the embedded operations stays well below
  `2 ^ 64` on the states the theorems quantify over, except for the one
  overflow-prone statement `root->min = 1 << (root->height * root->shift)`
  whose 32-bit signed semantics is modelled explicitly by `cIntShl1`.
* The C code walks the tree through child and parent pointers; the embedding
  represents the tree inductively and drives every loop by the same `height` /
  `shift` counters the C code uses, so each loop becomes recursion on that
  counter.  Upward `parent`-pointer walks (fulls propagation, delete ascent)
  are returned to the caller level by level, which applies exactly the update
  the C loop would have applied in place.
* `BUG_ON` / type-confused situations (which cannot arise on well-formed
  trees) are mapped to harmless no-op results; the well-formedness invariant
  `WFR` proved below shows they are never reached.
* The caller-supplied allocator is assumed to return zeroed nodes (the code
  never initialises `fulls` or the stores array); allocation failure is
  modelled only for the `lib/` variant, where the corresponding claim lives.
* The `assign` / `rm` / `free` callbacks are modelled as logs returned by the
  operations.
-/

/-- A sparse radix tree node (`struct sradix_tree_node`).  A node of
`height == 1` is a leaf whose stores hold opaque items; a node of greater
height holds child pointers.  The `count` and `fulls` fields are stored, not
recomputed, exactly as in C. -/
inductive SN (α : Type) : Type where
  | leaf (count fulls : Nat) (items : List (Option α))
  | node (height count fulls : Nat) (kids : List (Option (SN α)))

/-- The stored `height` field: the code initialises a leaf's height to 1. -/
def SN.heightF {α : Type} : SN α → Nat
  | .leaf _ _ _ => 1
  | .node h _ _ _ => h

/-- The stored `count` field. -/
def SN.countF {α : Type} : SN α → Nat
  | .leaf c _ _ => c
  | .node _ c _ _ => c

/-- The stored `fulls` field. -/
def SN.fullsF {α : Type} : SN α → Nat
  | .leaf _ f _ => f
  | .node _ _ f _ => f

/-- `struct sradix_tree_root`.  `stores_size = 1UL << shift` and
`mask = stores_size - 1` are set at init time.  `min` is "the first hole
index" hint. -/
structure SRoot (α : Type) : Type where
  height : Nat
  rnode : Option (SN α)
  shift : Nat
  stores_size : Nat
  mask : Nat
  min : Nat

/-- `init_sradix_tree_root` (sradix-tree.h): empty tree with the radix
parameters fixed.  The surrounding struct is zero-allocated, hence `min = 0`. -/
def init_sradix_tree_root (α : Type) (s : Nat) : SRoot α :=
  { height := 0, rnode := none, shift := s, stores_size := 1 <<< s
    mask := (1 <<< s) - 1, min := 0 }

/-- A freshly allocated (zeroed) node given the height the code assigns to it:
`height == 1` produces a leaf. -/
def freshSN (α : Type) (ss h : Nat) : SN α :=
  if h = 1 then .leaf 0 0 (List.replicate ss none)
  else .node h 0 0 (List.replicate ss none)

/-- `sradix_node_full`: `node->fulls == stores_size ||
(node->height == 1 && node->count == stores_size)`. -/
def sradix_node_full {α : Type} (ss : Nat) : SN α → Bool
  | .leaf c f _ => f == ss || c == ss
  | .node h c f _ => f == ss || (h == 1 && c == ss)

/-- The height-figuring loop of `sradix_tree_extend`:
`while (index) { index >>= shift; height++ }`, as a count of iterations.
The fuel is 64 because `index` is an `unsigned long` and `shift >= 1`. -/
def growSteps (s : Nat) : Nat → Nat → Nat
  | 0, _ => 0
  | fuel + 1, x => if x = 0 then 0 else 1 + growSteps s fuel (x >>> s)

/-- The `while (height > root->height)` wrapping loop of `sradix_tree_extend`
(revised variant): wrap the current root in a new root node with
`stores[0] = rnode`, `count = 1`, and `fulls = 1` iff the old root is full. -/
def wrapLoop {α : Type} : Nat → SRoot α → SRoot α
  | 0, r => r
  | n + 1, r =>
    match r.rnode with
    | none => r
    | some old =>
      let nf := if sradix_node_full r.stores_size old then 1 else 0
      let kids := (List.replicate r.stores_size (none : Option (SN α))).set 0 (some old)
      wrapLoop n { r with rnode := some (SN.node (r.height + 1) 1 nf kids),
                          height := r.height + 1 }

/-- `sradix_tree_extend` (revised variant): make `index` addressable.  The
allocator is assumed to succeed here; the failing-allocator behaviour is the
subject of the separately embedded `lib/` variant. -/
def sradix_tree_extend {α : Type} (r : SRoot α) (index : Nat) : SRoot α :=
  let r1 : SRoot α :=
    match r.rnode with
    | none => { r with rnode := some (freshSN α r.stores_size 1), height := 1 }
    | some _ => r
  let tgt := r1.height + growSteps r1.shift 64 (index >>> (r1.shift * r1.height))
  wrapLoop (tgt - r1.height) r1

/-- The descending loop of `sradix_tree_lookup`, driven by the `height` /
`shift` counters exactly as in C. -/
def lookupGo {α : Type} (s mask : Nat) : Nat → SN α → Nat → Option α
  | 0, _, _ => none
  | 1, t, index =>
    match t with
    | .leaf _ _ items => items.getD (index &&& mask) none
    | .node _ _ _ _ => none
  | h + 2, t, index =>
    match t with
    | .node _ _ _ kids =>
      match kids.getD ((index >>> (s * (h + 1))) &&& mask) none with
      | none => none
      | some c => lookupGo s mask (h + 1) c index
    | .leaf _ _ _ => none

/-- `sradix_tree_lookup`: reject an out-of-range index, then walk one digit per
level. -/
def sradix_tree_lookup {α : Type} (r : SRoot α) (index : Nat) : Option α :=
  match r.rnode with
  | none => none
  | some t =>
    if index >>> (r.shift * r.height) ≠ 0 then none
    else lookupGo r.shift r.mask r.height t index

/-- The slot scan of `sradix_tree_enter`:
`for (; offset < stores_size; offset++) { store = &node->stores[offset];
tmp = *store; if (!tmp || !sradix_node_full(root, tmp)) break; }`.
Returns the final `offset` together with the last examined slot (`tmp`); when
the loop runs off the end, `offset = stores_size` and `tmp` is the slot at
`stores_size - 1`, exactly as the C locals end up. -/
def scanGo {α : Type} (ss : Nat) (kids : List (Option (SN α))) :
    Nat → Nat → Nat × Option (SN α)
  | 0, off => (off, kids.getD (off - 1) none)
  | gas + 1, off =>
    match kids.getD off none with
    | none => (off, none)
    | some c =>
      if sradix_node_full ss c then scanGo ss kids gas (off + 1) else (off, some c)

/-- The leaf filling loop of `sradix_tree_enter`:
`for (i = 0, j = 0; j < stores_size - count && i < stores_size - offset &&
j < num; i++) if (!store[i]) { store[i] = item[j]; assign(node, index+i, ...);
j++; }`.  Returns the updated stores, the final `i` and `j`, and the `assign`
log.  `gas` bounds the `i` iterations (`stores_size` always suffices). -/
def fillGo {α : Type} (ss count0 offset index : Nat) :
    Nat → List (Option α) → List α → Nat → Nat →
    List (Option α) × Nat × Nat × List (Nat × α)
  | 0, st, _, i, j => (st, i, j, [])
  | gas + 1, st, pend, i, j =>
    if j < ss - count0 ∧ i < ss - offset ∧ pend.length ≠ 0 then
      match st.getD (offset + i) none with
      | none =>
        match pend with
        | [] => (st, i, j, [])
        | x :: rest =>
          let out := fillGo ss count0 offset index gas (st.set (offset + i) (some x))
            rest (i + 1) (j + 1)
          (out.1, out.2.1, out.2.2.1, (index + i, x) :: out.2.2.2)
      | some _ => fillGo ss count0 offset index gas st pend (i + 1) j
    else (st, i, j, [])

/-- Result of running the body of one `redo` pass of `sradix_tree_enter` on a
subtree: the updated subtree, the value `index + i` the pass stores into
`root->min`, the `assign` log, the unconsumed items, and the point where the
fulls-propagation loop stopped (`some p` = the node at relative digit path `p`;
`none` = this whole subtree is full, so the propagation continues above it). -/
structure EnterOut (α : Type) : Type where
  tree : SN α
  minOut : Nat
  log : List (Nat × α)
  rest : List α
  stop : Option (List Nat)

/-- The descent (`while (shift > 0)`), leaf fill, and fulls propagation of one
`redo` pass of `sradix_tree_enter` (revised variant), on the subtree the pass
starts from.  `hgt` is the C local `height` (the stored height of the start
node); `shift = (hgt - 1) * s`.  Unreachable type-confused situations return
the subtree unchanged. -/
def enterAt {α : Type} (s ss mask : Nat) :
    Nat → SN α → Nat → List α → EnterOut α
  | 0, t, index, pend => ⟨t, index, [], pend, some []⟩
  | 1, t, index, pend =>
    match t with
    | .leaf c f items0 =>
      let offset := index &&& mask
      let out := fillGo ss c offset index ss items0 pend 0 0
      let t' : SN α := .leaf (c + out.2.2.1) f out.1
      ⟨t', index + out.2.1, out.2.2.2, pend.drop out.2.2.1,
        if sradix_node_full ss t' then none else some []⟩
    | .node _ _ _ _ => ⟨t, index, [], pend, some []⟩
  | hgt + 2, t, index, pend =>
    match t with
    | .leaf _ _ _ => ⟨t, index, [], pend, some []⟩
    | .node nh c f kids =>
      let shift := (hgt + 1) * s
      let off0 := (index >>> shift) &&& mask
      let sc := scanGo ss kids (ss - off0) off0
      let off := sc.1
      let index1 :=
        if off ≠ off0 then
          ((index + ((off - off0) <<< shift)) >>> shift) <<< shift
        else index
      let offW := if off < ss then off else ss - 1
      match sc.2 with
      | none =>
        let child := freshSN α ss ((hgt + 1) * s / s)
        let out := enterAt s ss mask (hgt + 1) child index1 pend
        let fulls' := f + (if out.stop.isNone then 1 else 0)
        let t' : SN α := .node nh (c + 1) fulls' (kids.set offW (some out.tree))
        ⟨t', out.minOut, out.log, out.rest,
          match out.stop with
          | some p => some (offW :: p)
          | none => if sradix_node_full ss t' then none else some []⟩
      | some child =>
        let out := enterAt s ss mask (hgt + 1) child index1 pend
        let fulls' := f + (if out.stop.isNone then 1 else 0)
        let t' : SN α := .node nh c fulls' (kids.set offW (some out.tree))
        ⟨t', out.minOut, out.log, out.rest,
          match out.stop with
          | some p => some (offW :: p)
          | none => if sradix_node_full ss t' then none else some []⟩

/-- Follow a digit path to a subtree (the stale `node` pointer kept across
`redo` passes names a node; we name it by its digit path from the root). -/
def subtreeAt {α : Type} : SN α → List Nat → SN α
  | t, [] => t
  | t, d :: p =>
    match t with
    | .node _ _ _ kids =>
      match kids.getD d none with
      | some c => subtreeAt c p
      | none => t
    | .leaf _ _ _ => t

/-- Rebuild the tree after a pass ran on the subtree at `path`, continuing the
fulls-propagation loop above the pass's start node: whenever the inner result
is full (`stop = none`), the ancestor's `fulls` is incremented and its own
fullness decides whether the climb goes on. -/
def rebuildAt {α : Type} (ss : Nat) :
    SN α → List Nat → SN α → Option (List Nat) → SN α × Option (List Nat)
  | _, [], t', stop => (t', stop)
  | t, d :: p, t', stop =>
    match t with
    | .node h c f kids =>
      match kids.getD d none with
      | some ch =>
        let sub := rebuildAt ss ch p t' stop
        let kids' := kids.set d (some sub.1)
        match sub.2 with
        | some q => (SN.node h c f kids', some (d :: q))
        | none =>
          let t2 : SN α := SN.node h c (f + 1) kids'
          (t2, if sradix_node_full ss t2 then none else some [])
      | none => (t, some [])
    | .leaf _ _ _ => (t, some [])

/-- The value the C statement `root->min = 1 << (root->height * root->shift);`
stores.  The literal `1` is a 32-bit signed `int`; on x86-64 (gcc/clang) the
shift count is masked to 5 bits, and the signed result is sign-extended when
converted to the `unsigned long` field `min`.  For `k ≤ 30` this is `2 ^ k`. -/
def cIntShl1 (k : Nat) : Nat :=
  let k32 := k % 32
  if k32 ≤ 30 then 2 ^ k32 else 2 ^ 64 - 2 ^ 31

/-- Result of one `redo` pass of `sradix_tree_enter` at the root level. -/
structure PassOut (α : Type) : Type where
  root : SRoot α
  log : List (Nat × α)
  rest : List α
  stop : Option (List Nat)

/-- One `redo` iteration of `sradix_tree_enter` (revised variant).  `nodePath`
models the local `node`: `none` is NULL, `some p` points at the node at digit
path `p`.  The pass extends the tree when `node == NULL`, `index` is out of
range, or the root is full; otherwise it descends from the stale node. -/
def enterPass {α : Type} (r : SRoot α) (nodePath : Option (List Nat))
    (pend : List α) : PassOut α :=
  let index := r.min
  let needExtend : Bool :=
    nodePath.isNone || (index >>> (r.shift * r.height) != 0) ||
      (match r.rnode with
       | none => true
       | some t => sradix_node_full r.stores_size t)
  let r1 := if needExtend then sradix_tree_extend r index else r
  let path := if needExtend then [] else nodePath.getD []
  match r1.rnode with
  | none => ⟨r1, [], pend, some []⟩
  | some t0 =>
    let a := subtreeAt t0 path
    let out := enterAt r1.shift r1.stores_size r1.mask a.heightF a index pend
    let reb := rebuildAt r1.stores_size t0 path out.tree out.stop
    let r2 := { r1 with rnode := some reb.1, min := out.minOut }
    let r3 :=
      if reb.2.isNone then
        { r2 with min := cIntShl1 (r2.height * r2.shift) }
      else r2
    ⟨r3, out.log, out.rest, reb.2⟩

/-- The `redo` loop of `sradix_tree_enter`.  The fuel never runs out on
well-formed trees (each pass with a nonempty batch places at least one item). -/
def enterLoop {α : Type} : Nat → SRoot α → Option (List Nat) → List α →
    SRoot α × List (Nat × α)
  | 0, r, _, _ => (r, [])
  | fuel + 1, r, np, pend =>
    let p := enterPass r np pend
    if p.rest.isEmpty then (p.root, p.log)
    else
      let rec2 := enterLoop fuel p.root p.stop p.rest
      (rec2.1, p.log ++ rec2.2)

/-- `sradix_tree_enter` (revised variant): bulk insertion of a batch of items
at the first free indices.  Returns the final root and the `assign` callback
log (absolute index, item). -/
def sradix_tree_enter {α : Type} (r : SRoot α) (items : List α) :
    SRoot α × List (Nat × α) :=
  let np : Option (List Nat) := match r.rnode with | none => none | some _ => some []
  enterLoop (items.length + 1) r np items

/-- The delete ascent/cleanup of `sradix_tree_delete_from_leaf`, level by
level.  Returns `none` when this node's count reached zero (the node is
freed), or `some` updated node; the list is the `root->free` log in free order
(deepest first); the flag asks the parent to decrement `fulls` (the
was-a-full-leaf correction) and keep climbing while it itself was full. -/
def deleteAt {α : Type} (s ss mask : Nat) :
    Nat → SN α → Nat → Option (SN α) × List (SN α) × Bool
  | 0, t, _ => (some t, [], false)
  | 1, t, index =>
    match t with
    | .leaf c f items =>
      if c - 1 = 0 then (none, [SN.leaf 0 f items], false)
      else
        (some (SN.leaf (c - 1) f (items.set (index &&& mask) none)), [],
          c - 1 == ss - 1)
    | .node _ _ _ _ => (some t, [], false)
  | hgt + 2, t, index =>
    match t with
    | .leaf _ _ _ => (some t, [], false)
    | .node h c f kids =>
      let d := (index >>> ((hgt + 1) * s)) &&& mask
      match kids.getD d none with
      | none => (some t, [], false)
      | some ch =>
        let sub := deleteAt s ss mask (hgt + 1) ch index
        match sub.1 with
        | none =>
          if c - 1 = 0 then
            (none, sub.2.1 ++ [SN.node h 0 f kids], false)
          else
            (some (SN.node h (c - 1) f (kids.set d none)), sub.2.1, false)
        | some ch' =>
          let f' := if sub.2.2 then f - 1 else f
          (some (SN.node h c f' (kids.set d (some ch'))), sub.2.1,
            sub.2.2 && (f' == ss - 1))

/-- The shrink loop of `sradix_tree_shrink`: while the root has height `> 1`,
exactly one child, and that child sits in slot 0, replace the root by the
child. -/
def shrinkLoop {α : Type} : Nat → SRoot α → SRoot α
  | 0, r => r
  | n + 1, r =>
    if r.height ≤ 1 then r
    else
      match r.rnode with
      | some (SN.node _ c _ kids) =>
        if c ≠ 1 then r
        else
          match kids.getD 0 none with
          | none => r
          | some child =>
            shrinkLoop n { r with rnode := some child, height := r.height - 1 }
      | _ => r

/-- `sradix_tree_shrink`. -/
def sradix_tree_shrink {α : Type} (r : SRoot α) : SRoot α :=
  shrinkLoop r.height r

/-- `sradix_tree_delete_from_leaf` (revised variant), with the leaf named by
the index it holds (the caller contract pairs the leaf node with the index).
Returns the updated root and the `root->free` log. -/
def sradix_tree_delete_from_leaf {α : Type} (r : SRoot α) (index : Nat) :
    SRoot α × List (SN α) :=
  match r.rnode with
  | none => (r, [])
  | some t =>
    let del := deleteAt r.shift r.stores_size r.mask r.height t index
    let r1 :=
      match del.1 with
      | none => { r with rnode := none }
      | some t' =>
        let r2 := { r with rnode := some t' }
        if del.2.1.isEmpty then r2 else sradix_tree_shrink r2
    let r3 := if r1.min > index then { r1 with min := index } else r1
    (r3, del.2.1)

/-! ## The lib/ variant of extend and enter

`lib/sradix-tree.c` carries an older edition of `sradix_tree_extend` and
`sradix_tree_enter`.  Its allocator is modelled by a stream of Booleans (the
head answers the next `alloc()` call; `false` is a NULL return, and an
exhausted stream keeps succeeding).  Its leaf-level slot scan dereferences the
`fulls` field of whatever pointer sits in the slot, which for a leaf is an
opaque item; that read is modelled by the oracle `itemFulls`. -/

/-- Pop the next allocator answer. -/
def popAlloc : List Bool → Bool × List Bool
  | [] => (true, [])
  | b :: rest => (b, rest)

/-- The wrapping loop of the lib/ variant of `sradix_tree_extend`: no `fulls`
initialisation on the new root (unlike the revised variant). -/
def libWrapLoop {α : Type} : Nat → SRoot α → List Bool → Int × SRoot α × List Bool
  | 0, r, al => (0, r, al)
  | n + 1, r, al =>
    let a := popAlloc al
    if !a.1 then (-12, r, a.2)
    else
      match r.rnode with
      | none => (0, r, a.2)
      | some old =>
        let kids := (List.replicate r.stores_size (none : Option (SN α))).set 0 (some old)
        libWrapLoop n { r with rnode := some (SN.node (r.height + 1) 1 0 kids),
                               height := r.height + 1 } a.2

/-- `sradix_tree_extend` as in `lib/sradix-tree.c` (lines 12-55): note that the
initial node for an empty tree is created with `count = 1` even though it holds
nothing yet, and a failed allocation returns `-ENOMEM` with the tree as it
stands. -/
def sradix_tree_extend_lib {α : Type} (r : SRoot α) (al : List Bool)
    (index : Nat) : Int × SRoot α × List Bool :=
  match r.rnode with
  | none =>
    let a := popAlloc al
    if !a.1 then (-12, r, a.2)
    else
      let r1 : SRoot α :=
        { r with rnode := some (SN.leaf 1 0 (List.replicate r.stores_size none)),
                 height := 1 }
      let tgt := r1.height + growSteps r1.shift 64 (index >>> (r1.shift * r1.height))
      libWrapLoop (tgt - r1.height) r1 a.2
  | some _ =>
    let tgt := r.height + growSteps r.shift 64 (index >>> (r.shift * r.height))
    libWrapLoop (tgt - r.height) r al

/-- The slot scan of the lib/ `sradix_tree_enter` over child slots: the
condition is `!node || node->fulls != stores_size` (the raw `fulls` field, not
`sradix_node_full`). -/
def libScanKids {α : Type} (ss : Nat) (kids : List (Option (SN α))) :
    Nat → Nat → Nat × Option (SN α)
  | 0, off => (off, kids.getD (off - 1) none)
  | gas + 1, off =>
    match kids.getD off none with
    | none => (off, none)
    | some c => if c.fullsF != ss then (off, some c) else libScanKids ss kids gas (off + 1)

/-- The same scan applied at leaf level, where the slots hold opaque items and
the `fulls` read is the oracle `itemFulls`. -/
def libScanItems {α : Type} (ss : Nat) (itemFulls : α → Nat)
    (items : List (Option α)) : Nat → Nat → Nat × Option α
  | 0, off => (off, items.getD (off - 1) none)
  | gas + 1, off =>
    match items.getD off none with
    | none => (off, none)
    | some x =>
      if itemFulls x != ss then (off, some x)
      else libScanItems ss itemFulls items gas (off + 1)

/-- Result of the descent of one `redo` pass of the lib/ `sradix_tree_enter`.
`err = some e` models an early `return e` (allocation failure mid-descent, or
the `BUG_ON(*store)` trap, modelled as stopping the pass with the tree as it
stands). -/
structure LibEnterOut (α : Type) : Type where
  tree : SN α
  log : List (Nat × α)
  rest : List α
  stop : Option (List Nat)
  err : Option Int
  allocs : List Bool

/-- The descent (`while (height > 0)`), fill, and fulls propagation of the
lib/ `sradix_tree_enter` on a subtree.  Differences from the revised variant:
the index is reset to 0 (not carried) when the scan moves the offset; the
scan also runs at leaf level via `itemFulls`; the leaf updates
`count += j; fulls += j`; `BUG_ON(*store)` guards the fill. -/
def libEnterAt {α : Type} (s ss mask : Nat) (itemFulls : α → Nat) :
    Nat → SN α → Nat → List α → List Bool → LibEnterOut α
  | 0, t, _, pend, al => ⟨t, [], pend, some [], none, al⟩
  | 1, t, index, pend, al =>
    match t with
    | .leaf c f items0 =>
      let off0 := (index >>> 0) &&& mask
      let sc := libScanItems ss itemFulls items0 (ss - off0) off0
      let off := sc.1
      let index1 := if off ≠ off0 then 0 else index
      let offW := if off < ss then off else ss - 1
      match sc.2 with
      | some _ => ⟨.leaf c f items0, [], pend, some [], some (-1), al⟩
      | none =>
        let out := fillGo ss c offW index1 ss items0 pend 0 0
        let t' : SN α := .leaf (c + out.2.2.1) (f + out.2.2.1) out.1
        ⟨t', out.2.2.2, pend.drop out.2.2.1, if t'.fullsF == ss then none else some [],
          none, al⟩
    | .node _ _ _ _ => ⟨t, [], pend, some [], none, al⟩
  | hgt + 2, t, index, pend, al =>
    match t with
    | .leaf _ _ _ => ⟨t, [], pend, some [], none, al⟩
    | .node nh c f kids =>
      let shift := (hgt + 1) * s
      let off0 := (index >>> shift) &&& mask
      let sc := libScanKids ss kids (ss - off0) off0
      let off := sc.1
      let index1 := if off ≠ off0 then 0 else index
      let offW := if off < ss then off else ss - 1
      match sc.2 with
      | none =>
        let a := popAlloc al
        if !a.1 then ⟨SN.node nh c f kids, [], pend, some [], some (-12), a.2⟩
        else
          let child := freshSN α ss (hgt + 2)
          let out := libEnterAt s ss mask itemFulls (hgt + 1) child index1 pend a.2
          let fulls' := f + (if out.stop.isNone then 1 else 0)
          let t' : SN α := .node nh (c + 1) fulls' (kids.set offW (some out.tree))
          ⟨t', out.log, out.rest,
            match out.stop with
            | some p => some (offW :: p)
            | none => if t'.fullsF == ss then none else some [],
            out.err, out.allocs⟩
      | some child =>
        let out := libEnterAt s ss mask itemFulls (hgt + 1) child index1 pend al
        let fulls' := f + (if out.stop.isNone then 1 else 0)
        let t' : SN α := .node nh c fulls' (kids.set offW (some out.tree))
        ⟨t', out.log, out.rest,
          match out.stop with
          | some p => some (offW :: p)
          | none => if t'.fullsF == ss then none else some [],
          out.err, out.allocs⟩

/-- Result of one `redo` pass of the lib/ `sradix_tree_enter` at the root. -/
structure LibPassOut (α : Type) : Type where
  root : SRoot α
  log : List (Nat × α)
  rest : List α
  stop : Option (List Nat)
  ret : Option Int
  allocs : List Bool

/-- One `redo` iteration of the lib/ `sradix_tree_enter` (lines 127-220).  The
extension-failure branch executes `return NULL` inside the `int`-returning
function, i.e. it returns 0: `ret = some 0` on that path, with nothing
inserted. -/
def libEnterPass {α : Type} (itemFulls : α → Nat) (r : SRoot α)
    (nodePath : Option (List Nat)) (pend : List α) (al : List Bool) :
    LibPassOut α :=
  let index := r.min
  if nodePath.isNone || (index >>> (r.shift * r.height) != 0) then
    let ex := sradix_tree_extend_lib r al index
    if ex.1 ≠ 0 then
      ⟨ex.2.1, [], pend, some [], some 0, ex.2.2⟩
    else
      libEnterPassGo itemFulls ex.2.1 [] pend ex.2.2
  else
    libEnterPassGo itemFulls r (nodePath.getD []) pend al
where
  /-- The part of the pass after the extension check. -/
  libEnterPassGo (itemFulls : α → Nat) (r : SRoot α) (path : List Nat)
      (pend : List α) (al : List Bool) : LibPassOut α :=
    match r.rnode with
    | none => ⟨r, [], pend, some [], some 0, al⟩
    | some t0 =>
      let a := subtreeAt t0 path
      let out := libEnterAt r.shift r.stores_size r.mask itemFulls a.heightF a
        r.min pend al
      let reb := rebuildAt r.stores_size t0 path out.tree out.stop
      let r2 := { r with rnode := some reb.1 }
      let r3 :=
        if out.err.isNone ∧ reb.2.isNone then
          { r2 with min := cIntShl1 (r2.height * r2.shift) }
        else r2
      ⟨r3, out.log, out.rest, reb.2, out.err, out.allocs⟩

/-- The `redo` loop of the lib/ `sradix_tree_enter`. -/
def libEnterLoop {α : Type} (itemFulls : α → Nat) :
    Nat → SRoot α → Option (List Nat) → List α → List Bool →
    Int × SRoot α × List (Nat × α)
  | 0, r, _, _, _ => (0, r, [])
  | fuel + 1, r, np, pend, al =>
    let p := libEnterPass itemFulls r np pend al
    match p.ret with
    | some e => (e, p.root, p.log)
    | none =>
      if p.rest.isEmpty then (0, p.root, p.log)
      else
        let rec2 := libEnterLoop itemFulls fuel p.root p.stop p.rest p.allocs
        (rec2.1, rec2.2.1, p.log ++ rec2.2.2)

/-- `sradix_tree_enter` as in `lib/sradix-tree.c`: returns the C return value,
the final root and the `assign` log. -/
def sradix_tree_enter_lib {α : Type} (itemFulls : α → Nat) (r : SRoot α)
    (items : List α) (al : List Bool) : Int × SRoot α × List (Nat × α) :=
  let np : Option (List Nat) := match r.rnode with | none => none | some _ => some []
  libEnterLoop itemFulls (items.length + 1) r np items al

/-! ## Skip list

Heap model of `kernel/skip_lists.c` and `include/linux/skip_lists.h`.  Nodes
live in a heap addressed by `Nat` ids; the embedded functions mutate the heap
by functional update in exactly the order the C statements execute, so pointer
aliasing behaves as in C.  The intrusive variant (`skiplist_insert(head, node)`
and `skiplist_del_init`) is embedded; the 2011 variant's splice, unlink and
lazy header-level maintenance are statement-for-statement the same code, it
only allocates the node itself, stores the list level in `struct skiplist`
instead of the header node, and picks the level from `randomLevel` (embedded
below) rather than from the prepared node. -/

/-- `NUM_SKIPLIST_LEVEL`. -/
def NUM_SKIPLIST_LEVEL : Nat := 16

/-- A level index, reduced mod 16 (all level arithmetic in the code stays in
`[0, 15]` on well-formed states). -/
def lv (k : Nat) : Fin 16 := ⟨k % 16, Nat.mod_lt _ (by norm_num)⟩

/-- `struct skiplist_node`: level, 16 forward and 16 backward links, and the
u64 key. -/
structure SLNode : Type where
  level : Nat
  next : Fin 16 → Nat
  prev : Fin 16 → Nat
  key : Nat

/-- The heap of skip-list nodes. -/
structure SLState : Type where
  heap : Nat → SLNode

/-- `INIT_SKIPLIST_NODE`: level 0, all 32 links self-pointing, and
`key = ~0x00` which sign-extends into the u64 key as `2 ^ 64 - 1`. -/
def INIT_SKIPLIST_NODE (st : SLState) (x : Nat) : SLState :=
  ⟨Function.update st.heap x ⟨0, fun _ => x, fun _ => x, 2 ^ 64 - 1⟩⟩

/-- A heap in which every node is in the detached, self-pointing state (each
node as `INIT_SKIPLIST_NODE` leaves it); `skiplist_init` produces the header
in exactly this state. -/
def slInit : SLState :=
  ⟨fun n => ⟨0, fun _ => n, fun _ => n, 2 ^ 64 - 1⟩⟩

/-- Store into `node->next[k]`. -/
def writeNext (st : SLState) (a : Nat) (k : Fin 16) (v : Nat) : SLState :=
  ⟨Function.update st.heap a
    { st.heap a with next := Function.update (st.heap a).next k v }⟩

/-- Store into `node->prev[k]`. -/
def writePrev (st : SLState) (a : Nat) (k : Fin 16) (v : Nat) : SLState :=
  ⟨Function.update st.heap a
    { st.heap a with prev := Function.update (st.heap a).prev k v }⟩

/-- Store into `node->level`. -/
def writeLevel (st : SLState) (a : Nat) (v : Nat) : SLState :=
  ⟨Function.update st.heap a { st.heap a with level := v }⟩

/-- Store into `node->key` (the caller prepares an embedded node's key before
inserting it). -/
def writeKey (st : SLState) (a : Nat) (v : Nat) : SLState :=
  ⟨Function.update st.heap a { st.heap a with key := v }⟩

/-- `skiplist_empty`: the level-0 forward pointer of the header points back at
the header. -/
def skiplist_empty (st : SLState) (head : Nat) : Bool :=
  (st.heap head).next (lv 0) == head

/-- The level-`k` scan of `skiplist_insert`:
`while (q = p->next[k], q->key <= key) p = q;`.  Fueled because nothing in the
code bounds it; `none` means the loop is still running after `fuel` steps. -/
def scanLevel (st : SLState) (key : Nat) (k : Fin 16) : Nat → Nat → Option Nat
  | 0, _ => none
  | fuel + 1, p =>
    let q := (st.heap p).next k
    if (st.heap q).key ≤ key then scanLevel st key k fuel q else some p

/-- The level-descending search of `skiplist_insert`
(`do { while ...; update[k] = p; } while (--k >= 0)`), recording the stop node
of each level in `update`. -/
def searchLevels (st : SLState) (key : Nat) (fuel : Nat) :
    Nat → Nat → (Fin 16 → Nat) → Option (Fin 16 → Nat)
  | 0, p, upd =>
    (scanLevel st key (lv 0) fuel p).map fun p' => Function.update upd (lv 0) p'
  | k + 1, p, upd =>
    match scanLevel st key (lv (k + 1)) fuel p with
    | none => none
    | some p' => searchLevels st key fuel k p' (Function.update upd (lv (k + 1)) p')

/-- One level of the splice loop of `skiplist_insert`, with the four pointer
stores in program order:
`q->next[k] = p->next[k]; p->next[k] = q; q->prev[k] = p;
q->next[k]->prev[k] = q;`. -/
def spliceAt (st : SLState) (q : Nat) (upd : Fin 16 → Nat) (k : Nat) : SLState :=
  let p := upd (lv k)
  let st1 := writeNext st q (lv k) ((st.heap p).next (lv k))
  let st2 := writeNext st1 p (lv k) q
  let st3 := writePrev st2 q (lv k) p
  writePrev st3 ((st3.heap q).next (lv k)) (lv k) q

/-- The splice loop (`do { ... } while (--k >= 0)`), from level `k` down to
level 0. -/
def spliceLoop (q : Nat) (upd : Fin 16 → Nat) : Nat → SLState → SLState
  | 0, st => spliceAt st q upd 0
  | k + 1, st => spliceLoop q upd k (spliceAt st q upd (k + 1))

/-- `skiplist_insert(head, node)` (the intrusive variant): search from the
header's level down, then cap the prepared node's level at `head->level + 1`
(bumping the header's level by at most one), then splice at every level from
the chosen one down to 0.  `none` models the search loop never terminating. -/
def skiplist_insert (st : SLState) (head node : Nat) (fuel : Nat) :
    Option SLState :=
  let key := (st.heap node).key
  match searchLevels st key fuel (st.heap head).level head (fun _ => head) with
  | none => none
  | some upd =>
    let k0 := (st.heap node).level
    let hl := (st.heap head).level
    let st1 := if k0 > hl then writeLevel st head (hl + 1) else st
    let upd1 := if k0 > hl then Function.update upd (lv (hl + 1)) head else upd
    let k := if k0 > hl then hl + 1 else k0
    let st2 := writeLevel st1 node k
    some (spliceLoop node upd1 k st2)

/-- One level of the unlink loop of `skiplist_del_init`:
`node->prev[l]->next[l] = node->next[l];
node->next[l]->prev[l] = node->prev[l];` with each operand read from the heap
at the moment the C statement reads it. -/
def unlinkLevel (st : SLState) (node : Nat) (k : Nat) : SLState :=
  let st1 := writeNext st ((st.heap node).prev (lv k)) (lv k)
    ((st.heap node).next (lv k))
  writePrev st1 ((st1.heap node).next (lv k)) (lv k) ((st1.heap node).prev (lv k))

/-- The unlink loop `for (l = 0; l <= m; l++)`, ascending. -/
def unlinkUpTo (node : Nat) : Nat → SLState → SLState
  | 0, st => unlinkLevel st node 0
  | m + 1, st => unlinkLevel (unlinkUpTo node m st) node (m + 1)

/-- The lazy header-level decrement of `skiplist_del_init` /
`skiplist_delnode`: `while (head->next[m] == head && head->prev[m] == head &&
m > 0) m--;`. -/
def headLevelScan (st : SLState) (head : Nat) : Nat → Nat
  | 0 => 0
  | m + 1 =>
    if (st.heap head).next (lv (m + 1)) = head ∧
        (st.heap head).prev (lv (m + 1)) = head then
      headLevelScan st head m
    else m + 1

/-- `skiplist_del_init(head, node)`: unlink at levels `0 ..= node->level`,
lazily lower the header level, and reinitialise the removed node to the
detached self-pointing state.  (`skiplist_delnode` of the 2011 variant is the
same unlink and lazy decrement, followed by `kfree` instead of
`INIT_SKIPLIST_NODE`.) -/
def skiplist_del_init (st : SLState) (head node : Nat) : SLState :=
  let m := (st.heap node).level
  let st1 := unlinkUpTo node m st
  let st2 :=
    if m = (st1.heap head).level then
      writeLevel st1 head (headLevelScan st1 head m)
    else st1
  INIT_SKIPLIST_NODE st2 node

/-- `randomLevel` of the 2011 variant: a population-aware cap masks the seed. -/
def randomLevel_entries (entries randseed : Nat) : Nat :=
  if entries > 31 then randseed &&& 0xF
  else if entries > 15 then randseed &&& 0x7
  else if entries > 7 then randseed &&& 0x3
  else if entries > 3 then randseed &&& 0x1
  else 0

/-- `randomLevel` of the 2016 variant: mask the low 4 bits unconditionally. -/
def randomLevel_u64 (randseed : Nat) : Nat :=
  randseed &&& 0xF

/-- The level-0 forward traversal from the header (stopping on return to the
header), as a list of node ids; fueled by the caller. -/
def walkLevel0 (st : SLState) (head : Nat) : Nat → Nat → List Nat
  | 0, _ => []
  | fuel + 1, p =>
    let q := (st.heap p).next (lv 0)
    if q = head then [] else q :: walkLevel0 st head fuel q

/-- Prepare a caller-embedded node for insertion: detached state, then the
caller stores the key and the chosen level (the seed-derived level of
`randomLevel`). -/
def prepNode (st : SLState) (x key lvl : Nat) : SLState :=
  writeLevel (writeKey (INIT_SKIPLIST_NODE st x) x key) x lvl

/-! ## Specification-side definitions

Recomputed (not stored) quantities and invariants the theorems are stated
with. -/

/-- The number of indices addressable by a subtree of height `h`:
`2 ^ (shift * h)`. -/
def span (s h : Nat) : Nat := 2 ^ (s * h)

/-- Well-formedness of a subtree of height `h`: the stored height matches,
every stores array has length `stores_size`, the stored `count` is the number
of non-NULL slots, the stored `fulls` is the number of children that are full
subtrees (0 for a leaf), and all children are well-formed. -/
def WFn {α : Type} (ss : Nat) : Nat → SN α → Prop
  | 0, _ => False
  | 1, t =>
    match t with
    | .leaf c f items =>
      items.length = ss ∧ c = items.countP Option.isSome ∧ f = 0
    | .node _ _ _ _ => False
  | h + 2, t =>
    match t with
    | .leaf _ _ _ => False
    | .node nh c f kids =>
      nh = h + 2 ∧ kids.length = ss ∧
      c = kids.countP Option.isSome ∧
      f = (kids.countP fun o => o.elim false (sradix_node_full ss)) ∧
      ∀ o ∈ kids, ∀ ch, o = some ch → WFn ss (h + 1) ch

/-- The count/fulls recomputation of claim C3, on its own: at every node the
stored `count` equals the number of occupied direct slots and the stored
`fulls` equals the number of immediate children that are completely full
subtrees (a leaf has no child subtrees, so its `fulls` is 0). -/
def fieldsAccurate {α : Type} (ss : Nat) : Nat → SN α → Prop
  | 0, _ => True
  | _ + 1, .leaf c f items =>
    c = items.countP Option.isSome ∧ f = 0
  | h + 1, .node _ c f kids =>
    c = kids.countP Option.isSome ∧
    f = (kids.countP fun o => o.elim false (sradix_node_full ss)) ∧
    ∀ o ∈ kids, ∀ ch, o = some ch → fieldsAccurate ss h ch

/-- `fieldsAccurate` lifted to the root. -/
def rootFieldsAccurate {α : Type} (r : SRoot α) : Prop :=
  match r.rnode with
  | none => True
  | some t => fieldsAccurate r.stores_size r.height t

/-- Root well-formedness: radix parameters as set by `init_sradix_tree_root`
with a positive shift, a well-formed tree of the stored height when nonempty,
and the `min` hint never beyond the lowest free index (everything below `min`
is occupied). -/
def WFR {α : Type} (r : SRoot α) : Prop :=
  1 ≤ r.shift ∧ r.stores_size = 2 ^ r.shift ∧ r.mask = r.stores_size - 1 ∧
  (∀ t, r.rnode = some t → 1 ≤ r.height ∧ WFn r.stores_size r.height t) ∧
  (∀ p, p < r.min → sradix_tree_lookup r p ≠ none)

/-- Every node of the subtree holds at least one item below it (true of every
tree built between operations by item-placing inserts and deletes). -/
def Inhab {α : Type} : Nat → SN α → Prop
  | 0, _ => True
  | h + 1, t =>
    match t with
    | .leaf c _ _ => 1 ≤ c
    | .node _ c _ kids =>
      1 ≤ c ∧ ∀ o ∈ kids, ∀ ch, o = some ch → Inhab h ch

/-- `Inhab` lifted to the root. -/
def rootInhab {α : Type} (r : SRoot α) : Prop :=
  match r.rnode with
  | none => True
  | some t => Inhab r.height t

/-- The shrink loop's stopping condition: the root cannot be replaced by a
single slot-0 child any more. -/
def shrinkBlocked {α : Type} (r : SRoot α) : Prop :=
  match r.rnode with
  | some (SN.node _ c _ kids) =>
    r.height ≤ 1 ∨ c ≠ 1 ∨ kids.getD 0 none = none
  | _ => True

/-- Semantic height minimality: either the height is already 1 (or the tree is
empty), or some stored index actually needs the top level. -/
def heightMinimal {α : Type} (r : SRoot α) : Prop :=
  r.height ≤ 1 ∨ ∃ i, sradix_tree_lookup r i ≠ none ∧ span r.shift (r.height - 1) ≤ i

/-- Run a sequence of bulk insertions from the empty tree, concatenating the
`assign` logs. -/
def runEnters (α : Type) (s : Nat) (batches : List (List α)) :
    SRoot α × List (Nat × α) :=
  batches.foldl
    (fun acc b =>
      let e := sradix_tree_enter acc.1 b
      (e.1, acc.2 ++ e.2))
    (init_sradix_tree_root α s, [])

/-- The half-open chain of digits of `index` on the way from the leaf to the
stop ancestor is what `sradix_tree_delete_from_leaf` frees; this counts the
maximal run of ancestors (leaf upward) whose count is exactly 1 before the
delete, which is precisely the set of nodes the delete empties. -/
def emptiedChainLen {α : Type} (s ss mask : Nat) : Nat → SN α → Nat → Nat
  | 0, _, _ => 0
  | 1, t, _ =>
    match t with
    | .leaf c _ _ => if c = 1 then 1 else 0
    | .node _ _ _ _ => 0
  | h + 2, t, index =>
    match t with
    | .leaf _ _ _ => 0
    | .node _ c _ kids =>
      match kids.getD ((index >>> ((h + 1) * s)) &&& mask) none with
      | none => 0
      | some ch =>
        let inner := emptiedChainLen s ss mask (h + 1) ch index
        if inner = h + 1 ∧ c = 1 then h + 2 else inner

/-- The state used to exhibit the `root->min` overflow of claim C8: a
`shift = 31` tree of height 1 whose single leaf has every slot but the last
occupied, and `min` pointing at that last free slot. -/
def bigLeafC8 : SN Nat :=
  SN.leaf (2 ^ 31 - 1) 0 (List.replicate (2 ^ 31 - 1) (some 0) ++ [none])

/-- The root for the C8 overflow scenario. -/
def bigRootC8 : SRoot Nat :=
  { height := 1, rnode := some bigLeafC8, shift := 31, stores_size := 2 ^ 31,
    mask := 2 ^ 31 - 1, min := 2 ^ 31 - 1 }

/-- The digit path `p` descends from a node of height `h` along the digits of
the index `m`, through existing children: this is how the stale `node` pointer
that `sradix_tree_enter` carries across `redo` passes relates to `root->min`
on well-formed trees. -/
def PathTo {α : Type} (s : Nat) : Nat → SN α → List Nat → Nat → Prop
  | _, _, [], _ => True
  | h + 2, SN.node _ _ _ kids, d :: p, m =>
    d = (m >>> ((h + 1) * s)) &&& (2 ^ s - 1) ∧
    ∃ ch, kids.getD d none = some ch ∧ PathTo s (h + 1) ch p m
  | _, _, _ :: _, _ => False

/-! ### Skip-list invariants -/

/-- The level-`k` ring: following the `next[k]` pointers from the header
visits exactly `xs` and returns to the header, with every `prev[k]` pointer
mirroring its `next[k]` counterpart. -/
def ringAt (st : SLState) (k : Fin 16) (hd : Nat) (xs : List Nat) : Prop :=
  List.Chain' (fun u v => (st.heap u).next k = v ∧ (st.heap v).prev k = u)
    ((hd :: xs) ++ [hd])

/-- Skip-list well-formedness: `L` lists the resident nodes in level-0 order.
The header carries the sentinel key, resident keys are below the sentinel and
sorted, levels stay within `[0, 15]`, the header's level is the maximum
resident level (0 when empty), and for every level `k` the level-`k` ring
consists exactly of the residents whose level is at least `k`, in level-0
order. -/
def WFsl (st : SLState) (hd : Nat) (L : List Nat) : Prop :=
  (hd :: L).Nodup ∧
  (st.heap hd).key = 2 ^ 64 - 1 ∧
  (∀ x ∈ L, (st.heap x).key < 2 ^ 64 - 1) ∧
  (∀ x ∈ L, (st.heap x).level ≤ (st.heap hd).level) ∧
  (st.heap hd).level < 16 ∧
  (L = [] → (st.heap hd).level = 0) ∧
  (L ≠ [] → ∃ x ∈ L, (st.heap x).level = (st.heap hd).level) ∧
  List.Sorted (· ≤ ·) (L.map fun x => (st.heap x).key) ∧
  ∀ k : Fin 16, ringAt st k hd (L.filter fun x => k.1 ≤ (st.heap x).level)

/-- Insert a keyed element after all elements whose key is less than or equal
to its own (the tie-goes-last discipline the `<=` scan implements). -/
def stableInsert (l : List (Nat × Nat)) (e : Nat × Nat) : List (Nat × Nat) :=
  l.takeWhile (fun a => a.2 ≤ e.2) ++ e :: l.dropWhile (fun a => a.2 ≤ e.2)

/-- Stable insertion sort by key of an (id, key) sequence, in arrival order. -/
def stableSort (ops : List (Nat × Nat)) : List (Nat × Nat) :=
  ops.foldl stableInsert []

/-- Run a sequence of skip-list insertions: each op is (node id, key, level);
the node is prepared by the caller (detached, key and level stored) and then
inserted.  `none` if some insertion's search scan fails to terminate within
`fuel`. -/
def runInserts (hd : Nat) (fuel : Nat) (ops : List (Nat × Nat × Nat)) :
    Option SLState :=
  ops.foldl
    (fun acc op =>
      match acc with
      | none => none
      | some st => skiplist_insert (prepNode st op.1 op.2.1 op.2.2) hd op.1 fuel)
    (some slInit)

/-- The shape of every state `sradix_tree_enter` reaches when driven from an
empty tree (no deletes): well-formed root, every index below `min` occupied,
every index at or above `min` free, and `min` within the addressable range. -/
def DenseR {α : Type} (r : SRoot α) : Prop :=
  WFR r ∧ (∀ q, r.min ≤ q → sradix_tree_lookup r q = none) ∧
  r.min ≤ span r.shift r.height ∧
  (r.rnode = none → r.min = 0)

/-- Validity of the stale `node` pointer carried across `redo` passes, as a
digit path: when present it follows the digits of `root->min` into a non-full
node of a nonempty tree. -/
def NodeOk {α : Type} (r : SRoot α) (np : Option (List Nat)) : Prop :=
  ∀ p, np = some p → ∃ t, r.rnode = some t ∧
    (sradix_node_full r.stores_size t = true ∨
     span r.shift r.height ≤ r.min ∨
     (PathTo r.shift r.height t p r.min ∧
      sradix_node_full r.stores_size (subtreeAt t p) = false))

/-- A small concrete one-leaf tree (shift 1) holding a single item at
index 0, used to exercise the delete path. -/
def c5root : SRoot Nat :=
  { height := 1, rnode := some (SN.leaf 1 0 [some 7, none]), shift := 1,
    stores_size := 2, mask := 1, min := 1 }

/-! ## Theorems -/

/-- Claim C4 (code bug): in `lib/sradix-tree.c`, when the allocator fails
during the height extension triggered by `sradix_tree_enter`, the extension
correctly reports `-ENOMEM`, but the enclosing `int`-returning
`sradix_tree_enter` executes `return NULL;`, i.e. it returns 0 — reporting
success to the caller even though the insertion was aborted and nothing was
inserted.  Evaluated here on an empty tree (`shift = 2`) with one pending item
and an allocator that fails its first call: the return value is 0, the tree is
still empty, and no `assign` callback fired. -/
theorem lib_enter_returns_success_on_alloc_failure :
    (sradix_tree_enter_lib (fun _ => 0) (init_sradix_tree_root Nat 2) [42]
      [false]).1 = 0 ∧
    (sradix_tree_enter_lib (fun _ => 0) (init_sradix_tree_root Nat 2) [42]
      [false]).2.1.rnode.isNone = true ∧
    (sradix_tree_enter_lib (fun _ => 0) (init_sradix_tree_root Nat 2) [42]
      [false]).2.2 = [] := by
  decide

/-! ### Arithmetic and list toolkit -/

theorem rx_span_pos (s h : Nat) : 0 < span s h :=
  pow_pos (by norm_num) _

theorem rx_span_succ (s h : Nat) : span s (h + 1) = span s h * 2 ^ s := by
  unfold span
  rw [Nat.mul_succ, pow_add]

theorem rx_span_one (s : Nat) : span s 1 = 2 ^ s := by
  unfold span
  rw [Nat.mul_one]

theorem rx_and_mask (x s : Nat) : x &&& (2 ^ s - 1) = x % 2 ^ s :=
  Nat.and_pow_two_sub_one_eq_mod x s

theorem rx_shr (x n : Nat) : x >>> n = x / 2 ^ n :=
  Nat.shiftRight_eq_div_pow x n

theorem rx_shl (x n : Nat) : x <<< n = x * 2 ^ n :=
  Nat.shiftLeft_eq x n

theorem rx_digit_eq (s h index : Nat) :
    (index >>> ((h + 1) * s)) &&& (2 ^ s - 1) = index / span s (h + 1) % 2 ^ s := by
  rw [rx_shr, rx_and_mask]
  unfold span
  rw [Nat.mul_comm s (h + 1)]

theorem rx_getD_set_self {α : Type} (l : List (Option α)) (i : Nat)
    (v : Option α) (h : i < l.length) : (l.set i v).getD i none = v := by
  rw [List.getD_eq_getElem?_getD, List.getElem?_set_eq_of_lt v h]
  rfl

theorem rx_getD_set_ne {α : Type} (l : List (Option α)) (i j : Nat)
    (v : Option α) (h : i ≠ j) : (l.set i v).getD j none = l.getD j none := by
  rw [List.getD_eq_getElem?_getD, List.getD_eq_getElem?_getD,
    List.getElem?_set_ne h]

theorem rx_countP_set_none_some {α : Type} (l : List (Option α)) (i : Nat)
    (x : α) (hi : i < l.length) (h : l.getD i none = none) :
    (l.set i (some x)).countP Option.isSome = l.countP Option.isSome + 1 := by
  induction l generalizing i with
  | nil => simp at hi
  | cons a t ih =>
    cases i with
    | zero =>
      simp only [List.getD_cons_zero] at h
      subst h
      simp [List.countP_cons]
    | succ n =>
      simp only [List.getD_cons_succ] at h
      simp only [List.length_cons, Nat.succ_lt_succ_iff] at hi
      simp [List.set_cons_succ, List.countP_cons, ih n hi h]
      omega

theorem rx_digit_eq2 (s h index : Nat) :
    (index >>> (s * (h + 1))) &&& (2 ^ s - 1) = index / span s (h + 1) % 2 ^ s := by
  rw [Nat.mul_comm s (h + 1)]
  exact rx_digit_eq s h index

theorem rx_lookupGo_leaf {α : Type} (s c f : Nat) (items : List (Option α))
    (q : Nat) :
    lookupGo s (2 ^ s - 1) 1 (SN.leaf c f items) q =
      items.getD (q % 2 ^ s) none := by
  simp [lookupGo, rx_and_mask]

theorem rx_lookupGo_node {α : Type} (s h nh c f : Nat)
    (kids : List (Option (SN α))) (q : Nat) :
    lookupGo s (2 ^ s - 1) (h + 2) (SN.node nh c f kids) q =
      match kids.getD (q / span s (h + 1) % 2 ^ s) none with
      | none => none
      | some ch => lookupGo s (2 ^ s - 1) (h + 1) ch q := by
  simp only [lookupGo, rx_digit_eq2]

theorem rx_digit_lt (s h q : Nat) (hq : q < span s (h + 2)) :
    q / span s (h + 1) < 2 ^ s := by
  rw [Nat.div_lt_iff_lt_mul (rx_span_pos s (h + 1))]
  calc q < span s (h + 2) := hq
    _ = span s (h + 1) * 2 ^ s := rx_span_succ s (h + 1)
    _ = 2 ^ s * span s (h + 1) := Nat.mul_comm _ _

theorem rx_lookupGo_mod {α : Type} (s : Nat) :
    ∀ (h : Nat) (t : SN α) (q : Nat),
      lookupGo s (2 ^ s - 1) h t q = lookupGo s (2 ^ s - 1) h t (q % span s h) := by
  intro h
  induction h using Nat.strong_induction_on with
  | _ h IH =>
    match h with
    | 0 => intro t q; simp [lookupGo]
    | 1 =>
      intro t q
      match t with
      | .leaf c f items =>
        rw [rx_lookupGo_leaf, rx_lookupGo_leaf, rx_span_one,
          Nat.mod_mod_of_dvd q dvd_rfl]
      | .node _ _ _ _ => simp [lookupGo]
    | h + 2 =>
      intro t q
      match t with
      | .leaf _ _ _ => simp [lookupGo]
      | .node nh c f kids =>
        rw [rx_lookupGo_node, rx_lookupGo_node]
        have hdig : q % span s (h + 2) / span s (h + 1) % 2 ^ s =
            q / span s (h + 1) % 2 ^ s := by
          rw [rx_span_succ s (h + 1), Nat.mod_mul_right_div_self,
            Nat.mod_mod_of_dvd _ dvd_rfl]
        rw [hdig]
        cases hk : kids.getD (q / span s (h + 1) % 2 ^ s) none with
        | none => rfl
        | some ch =>
          have hmm : q % span s (h + 2) % span s (h + 1) = q % span s (h + 1) :=
            Nat.mod_mod_of_dvd q ⟨2 ^ s, rx_span_succ s (h + 1)⟩
          simp only []
          rw [IH (h + 1) (by omega) ch q, IH (h + 1) (by omega) ch (q % span s (h + 2)),
            hmm]

theorem rx_two_le_pow (s : Nat) (hs : 1 ≤ s) : 2 ≤ 2 ^ s :=
  le_trans (by norm_num) (Nat.pow_le_pow_right (by norm_num) hs)

theorem rx_mul_add_div (off S r : Nat) (hS : 0 < S) (hr : r < S) :
    (off * S + r) / S = off := by
  rw [Nat.mul_comm off S, Nat.mul_add_div hS, Nat.div_eq_of_lt hr, Nat.add_zero]

theorem rx_mul_add_mod (off S r : Nat) (hr : r < S) :
    (off * S + r) % S = r := by
  rw [Nat.mul_comm off S, Nat.mul_add_mod, Nat.mod_eq_of_lt hr]

theorem rx_getD_ne_none_iff {α : Type} (l : List (Option α)) :
    (∀ q, q < l.length → l.getD q none ≠ none) ↔ ∀ a ∈ l, a.isSome := by
  constructor
  · intro hq a ha
    obtain ⟨i, hi, rfl⟩ := List.mem_iff_getElem.mp ha
    have := hq i hi
    rw [List.getD_eq_getElem l none hi] at this
    exact Option.isSome_iff_ne_none.mpr this
  · intro ha q hq
    have hm : l.getD q none ∈ l := by
      rw [List.getD_eq_getElem l none hq]
      exact List.getElem_mem hq
    exact Option.isSome_iff_ne_none.mp (ha _ hm)

theorem rx_full_iff {α : Type} (s : Nat) (hs : 1 ≤ s) :
    ∀ (h : Nat) (t : SN α), WFn (2 ^ s) h t →
      (sradix_node_full (2 ^ s) t = true ↔
        ∀ q, q < span s h → lookupGo s (2 ^ s - 1) h t q ≠ none) := by
  intro h
  induction h using Nat.strong_induction_on with
  | _ h IH =>
    match h with
    | 0 => exact fun t hWF => absurd hWF (by simp [WFn])
    | 1 =>
      intro t hWF
      match t with
      | .leaf c f items =>
        obtain ⟨hlen, hc, hf⟩ : items.length = 2 ^ s ∧
            c = items.countP Option.isSome ∧ f = 0 := hWF
        have hfne : (f == 2 ^ s) = false := by
          have := rx_two_le_pow s hs
          simp [hf]
          omega
        have hsimp : sradix_node_full (2 ^ s) (SN.leaf c f items) = (c == 2 ^ s) := by
          simp [sradix_node_full, hfne]
        rw [hsimp]
        have hmod : ∀ q, q < span s 1 →
            lookupGo s (2 ^ s - 1) 1 (SN.leaf c f items) q =
              items.getD q none := by
          intro q hq
          rw [rx_lookupGo_leaf, Nat.mod_eq_of_lt (by rwa [rx_span_one] at hq)]
        constructor
        · intro hcss q hq
          rw [hmod q hq]
          have hall : ∀ a ∈ items, a.isSome := by
            rw [← List.countP_eq_length, ← hc]
            rw [hlen]
            exact beq_iff_eq.mp hcss
          exact (rx_getD_ne_none_iff items).mpr hall
            q (by rwa [hlen, ← rx_span_one s])
        · intro hall
          have : ∀ q, q < items.length → items.getD q none ≠ none := by
            intro q hq
            rw [← hmod q (by rwa [rx_span_one, ← hlen])]
            exact hall q (by rwa [rx_span_one, ← hlen])
          have := List.countP_eq_length.mpr ((rx_getD_ne_none_iff items).mp this)
          rw [← hc, hlen] at this
          exact beq_iff_eq.mpr this
      | .node _ _ _ _ => exact absurd hWF (by simp [WFn])
    | h + 2 =>
      intro t hWF
      match t with
      | .leaf _ _ _ => exact absurd hWF (by simp [WFn])
      | .node nh c f kids =>
        obtain ⟨hnh, hlen, hc, hf, hkids⟩ : nh = h + 2 ∧ kids.length = 2 ^ s ∧
            c = kids.countP Option.isSome ∧
            f = (kids.countP fun o => o.elim false (sradix_node_full (2 ^ s))) ∧
            ∀ o ∈ kids, ∀ ch, o = some ch → WFn (2 ^ s) (h + 1) ch := hWF
        have hne1 : (nh == 1) = false := by
          subst hnh
          simp
        have hsimp : sradix_node_full (2 ^ s) (SN.node nh c f kids) = (f == 2 ^ s) := by
          simp [sradix_node_full, hne1]
        rw [hsimp]
        set S := span s (h + 1) with hS
        have hSpos : 0 < S := rx_span_pos s (h + 1)
        constructor
        · intro hfss q hq
          have hall : ∀ o ∈ kids, (o.elim false (sradix_node_full (2 ^ s))) = true := by
            rw [← List.countP_eq_length, ← hf, hlen]
            exact beq_iff_eq.mp hfss
          rw [rx_lookupGo_node]
          have hdlt : q / S < 2 ^ s := rx_digit_lt s h q hq
          rw [Nat.mod_eq_of_lt hdlt]
          have hmem : kids.getD (q / S) none ∈ kids := by
            rw [List.getD_eq_getElem kids none (by rw [hlen]; exact hdlt)]
            exact List.getElem_mem _
          cases hk : kids.getD (q / S) none with
          | none =>
            rw [hk] at hmem
            have := hall _ hmem
            simp [Option.elim] at this
          | some ch =>
            rw [hk] at hmem
            have hfull : sradix_node_full (2 ^ s) ch = true := by
              have := hall _ hmem
              simpa [Option.elim] using this
            have hWFch := hkids _ hmem ch rfl
            have := (IH (h + 1) (by omega) ch hWFch).mp hfull
            simp only []
            rw [rx_lookupGo_mod]
            exact this _ (Nat.mod_lt _ hSpos)
        · intro hall
          apply beq_iff_eq.mpr
          rw [hf, ← hlen]
          apply List.countP_eq_length.mpr
          intro o ho
          obtain ⟨off, hoff, he⟩ := List.mem_iff_getElem.mp ho
          have hofflt : off < 2 ^ s := by rwa [hlen] at hoff
          have hq0 : off * S < span s (h + 2) := by
            rw [rx_span_succ s (h + 1)]
            calc off * S < 2 ^ s * S := (Nat.mul_lt_mul_right hSpos).mpr hofflt
            _ = S * 2 ^ s := Nat.mul_comm _ _
          have hgd : kids.getD off none = o := by
            rw [List.getD_eq_getElem kids none hoff, he]
          have hdig0 : off * S / S % 2 ^ s = off := by
            rw [Nat.mul_div_cancel off hSpos, Nat.mod_eq_of_lt hofflt]
          cases o with
          | none =>
            have := hall (off * S) hq0
            rw [rx_lookupGo_node] at this
            rw [hdig0, hgd] at this
            exact absurd rfl this
          | some ch =>
            have hWFch : WFn (2 ^ s) (h + 1) ch := hkids _ ho ch rfl
            have hfull : sradix_node_full (2 ^ s) ch = true := by
              apply (IH (h + 1) (by omega) ch hWFch).mpr
              intro q' hq'
              have hqlt : off * S + q' < span s (h + 2) := by
                rw [rx_span_succ s (h + 1)]
                calc off * S + q' < off * S + S := by omega
                _ = (off + 1) * S := by ring
                _ ≤ 2 ^ s * S := Nat.mul_le_mul_right S hofflt
                _ = S * 2 ^ s := Nat.mul_comm _ _
              have := hall (off * S + q') hqlt
              rw [rx_lookupGo_node] at this
              rw [rx_mul_add_div off S q' hSpos hq', Nat.mod_eq_of_lt hofflt,
                hgd] at this
              simp only [] at this
              rw [rx_lookupGo_mod] at this
              rwa [rx_mul_add_mod off S q' hq'] at this
            simp only [Option.elim]
            rw [hlen]
            exact hfull

theorem rx_fillGo_spec {α : Type} (ss count0 offset index : Nat) :
    ∀ (gas : Nat) (st : List (Option α)) (pend : List α) (i j : Nat)
      (st' : List (Option α)) (iF jF : Nat) (log : List (Nat × α)),
      fillGo ss count0 offset index gas st pend i j = (st', iF, jF, log) →
      st.length = ss → ss ≤ gas + i →
      (i ≤ iF ∧ j ≤ jF ∧ jF - j = log.length ∧ jF - j ≤ pend.length ∧
        st'.length = st.length ∧ iF ≤ max i (ss - offset)) ∧
      (∀ q, (q < offset + i ∨ offset + iF ≤ q) →
        st'.getD q none = st.getD q none) ∧
      (∀ q, offset + i ≤ q → q < offset + iF → st'.getD q none ≠ none) ∧
      (∀ q, offset + i ≤ q → q < offset + iF → st.getD q none ≠ none →
        st'.getD q none = st.getD q none) ∧
      (∀ e ∈ log, index + i ≤ e.1 ∧ e.1 < index + iF ∧
        st.getD (offset + (e.1 - index)) none = none ∧
        st'.getD (offset + (e.1 - index)) none = some e.2) ∧
      (∀ q, offset + i ≤ q → q < offset + iF → st.getD q none = none →
        (index + (q - offset)) ∈ log.map Prod.fst) ∧
      (List.Pairwise (· < ·) (log.map Prod.fst)) ∧
      (st'.countP Option.isSome = st.countP Option.isSome + log.length) ∧
      (pend ≠ [] → j < ss - count0 →
        (∃ q, offset + i ≤ q ∧ q < ss ∧ st.getD q none = none) → log ≠ []) ∧
      (jF - j = pend.length → log ≠ [] →
        ∃ x, log.getLast? = some (index + iF - 1, x)) ∧
      (pend = [] → iF = i ∧ log = []) := by
  intro gas
  induction gas with
  | zero =>
    intro st pend i j st' iF jF log heq hlen hgas
    simp only [fillGo, Prod.mk.injEq] at heq
    obtain ⟨rfl, rfl, rfl, rfl⟩ := heq
    refine ⟨⟨le_refl _, le_refl _, by simp, by simp, rfl, le_max_left _ _⟩,
      fun q _ => rfl, fun q h1 h2 => absurd (lt_of_le_of_lt h1 h2) (lt_irrefl _),
      fun q h1 h2 _ => absurd (lt_of_le_of_lt h1 h2) (lt_irrefl _),
      fun e he => absurd he (List.not_mem_nil e),
      fun q h1 h2 => absurd (lt_of_le_of_lt h1 h2) (lt_irrefl _),
      List.Pairwise.nil, by simp, ?_, ?_, fun _ => ⟨rfl, rfl⟩⟩
    · intro hp hj ⟨q, hq1, hq2, _⟩
      omega
    · intro h1 h2
      exact absurd rfl h2
  | succ gas ihg =>
    intro st pend i j st' iF jF log heq hlen hgas
    simp only [fillGo] at heq
    by_cases hcond : j < ss - count0 ∧ i < ss - offset ∧ pend.length ≠ 0
    · rw [if_pos hcond] at heq
      obtain ⟨hj, hi, hp⟩ := hcond
      have hpos : offset + i < st.length := by omega
      cases hslot : st.getD (offset + i) none with
      | none =>
        rw [hslot] at heq
        cases pend with
        | nil => simp at hp
        | cons x rest =>
          simp only [] at heq
          rcases hrec : fillGo ss count0 offset index gas
              (st.set (offset + i) (some x)) rest (i + 1) (j + 1)
            with ⟨st2, iF2, jF2, log2⟩
          rw [hrec] at heq
          simp only [Prod.mk.injEq] at heq
          obtain ⟨rfl, rfl, rfl, rfl⟩ := heq
          obtain ⟨⟨hR1i, hR1j, hR2, hR2b, hR3, hR4⟩, hR5, hR6, hR5b, hR7, hR8,
              hR10, hR11, hR13, hR14, hR15⟩ :=
            ihg (st.set (offset + i) (some x)) rest (i + 1) (j + 1)
              st2 iF2 jF2 log2 hrec (by rw [List.length_set]; exact hlen)
              (by omega)
          have hset_self : (st.set (offset + i) (some x)).getD (offset + i) none
              = some x := rx_getD_set_self st (offset + i) (some x) hpos
          have hset_ne : ∀ q, q ≠ offset + i →
              (st.set (offset + i) (some x)).getD q none = st.getD q none :=
            fun q h => rx_getD_set_ne st (offset + i) q (some x) (fun he => h he.symm)
          refine ⟨⟨by omega, by omega, by simp; omega, by simp; omega,
            by rw [hR3, List.length_set], ?_⟩, ?_, ?_, ?_, ?_, ?_, ?_, ?_, ?_, ?_,
            ?_⟩
          · have h1 : i + 1 ≤ ss - offset := by omega
            calc iF2 ≤ max (i + 1) (ss - offset) := hR4
            _ = ss - offset := Nat.max_eq_right h1
            _ ≤ max i (ss - offset) := le_max_right _ _
          · intro q hq
            have hqne : q ≠ offset + i := by omega
            rw [hR5 q (by omega), hset_ne q hqne]
          · intro q hq1 hq2
            rcases Nat.eq_or_lt_of_le hq1 with heqq | hlt
            · rw [hR5 q (by omega), ← heqq, hset_self]
              exact Option.some_ne_none x
            · exact hR6 q (by omega) hq2
          · intro q hq1 hq2 hocc
            rcases Nat.eq_or_lt_of_le hq1 with heqq | hlt
            · rw [← heqq] at hocc
              exact absurd hslot hocc
            · rw [hR5b q (by omega) hq2 (by rw [hset_ne q (by omega)]; exact hocc),
                hset_ne q (by omega)]
          · intro e he
            rcases List.mem_cons.mp he with rfl | he2
            · refine ⟨le_refl _, by omega, ?_, ?_⟩
              · simp only [Nat.add_sub_cancel_left]
                exact hslot
              · simp only [Nat.add_sub_cancel_left]
                rw [hR5 (offset + i) (by omega), hset_self]
            · obtain ⟨he1, he2', he3, he4⟩ := hR7 e he2
              refine ⟨by omega, he2', ?_, he4⟩
              rw [← hset_ne (offset + (e.1 - index)) (by omega)]
              exact he3
          · intro q hq1 hq2 hqnone
            rw [List.map_cons]
            rcases Nat.eq_or_lt_of_le hq1 with heqq | hlt
            · have heq2 : index + (q - offset) = index + i := by omega
              rw [heq2]
              exact List.mem_cons_self _ _
            · have := hR8 q (by omega) hq2 (by rw [hset_ne q (by omega)]; exact hqnone)
              exact List.mem_cons_of_mem _ this
          · rw [List.map_cons]
            refine List.pairwise_cons.mpr ⟨?_, hR10⟩
            intro b hb
            obtain ⟨e, he, rfl⟩ := List.mem_map.mp hb
            have := (hR7 e he).1
            omega
          · rw [hR11, rx_countP_set_none_some st (offset + i) x hpos hslot,
              List.length_cons]
            omega
          · intro _ _ _
            exact List.cons_ne_nil _ _
          · intro hfull _
            cases hrest : rest with
            | nil =>
              obtain ⟨hiF2, hlog2⟩ := hR15 hrest
              subst hiF2 hlog2
              exact ⟨x, by simp⟩
            | cons y rest' =>
              have hlog2ne : log2 ≠ [] := by
                intro hl
                rw [hl] at hR2
                simp at hR2
                subst hrest
                simp at hfull
                omega
              obtain ⟨x', hx'⟩ := hR14 (by subst hrest; simp at hfull ⊢; omega) hlog2ne
              refine ⟨x', ?_⟩
              rw [← hx']
              cases log2 with
              | nil => exact absurd rfl hlog2ne
              | cons _ _ => exact List.getLast?_cons_cons
          · intro hpnil
            rw [hpnil] at hp
            simp at hp
      | some v =>
        rw [hslot] at heq
        rcases hrec : fillGo ss count0 offset index gas st pend (i + 1) j
          with ⟨st2, iF2, jF2, log2⟩
        rw [hrec] at heq
        simp only [Prod.mk.injEq] at heq
        obtain ⟨rfl, rfl, rfl, rfl⟩ := heq
        obtain ⟨⟨hR1i, hR1j, hR2, hR2b, hR3, hR4⟩, hR5, hR6, hR5b, hR7, hR8,
            hR10, hR11, hR13, hR14, hR15⟩ :=
          ihg st pend (i + 1) j st2 iF2 jF2 log2 hrec hlen (by omega)
        refine ⟨⟨by omega, hR1j, hR2, hR2b, hR3, ?_⟩, ?_, ?_, ?_, ?_, ?_, hR10,
          hR11, ?_, hR14, ?_⟩
        · have h1 : i + 1 ≤ ss - offset := by omega
          calc iF2 ≤ max (i + 1) (ss - offset) := hR4
          _ = ss - offset := Nat.max_eq_right h1
          _ ≤ max i (ss - offset) := le_max_right _ _
        · intro q hq
          exact hR5 q (by omega)
        · intro q hq1 hq2
          rcases Nat.eq_or_lt_of_le hq1 with heqq | hlt
          · rw [hR5 q (by omega), ← heqq, hslot]
            exact Option.some_ne_none v
          · exact hR6 q (by omega) hq2
        · intro q hq1 hq2 hocc
          rcases Nat.eq_or_lt_of_le hq1 with heqq | hlt
          · rw [hR5 q (by omega)]
          · exact hR5b q (by omega) hq2 hocc
        · intro e he
          obtain ⟨he1, he2', he3, he4⟩ := hR7 e he
          exact ⟨by omega, he2', he3, he4⟩
        · intro q hq1 hq2 hqnone
          rcases Nat.eq_or_lt_of_le hq1 with heqq | hlt
          · rw [← heqq, hslot] at hqnone
            exact absurd hqnone (Option.some_ne_none v)
          · exact hR8 q (by omega) hq2 hqnone
        · intro hpne hjlt ⟨q, hq1, hq2, hq3⟩
          have hqne : q ≠ offset + i := by
            intro he
            rw [he, hslot] at hq3
            exact Option.some_ne_none v hq3
          exact hR13 hpne hjlt ⟨q, by omega, hq2, hq3⟩
        · intro hpnil
          obtain ⟨h1, h2⟩ := hR15 hpnil
          rw [hpnil] at hp
          simp at hp
    · rw [if_neg hcond] at heq
      simp only [Prod.mk.injEq] at heq
      obtain ⟨rfl, rfl, rfl, rfl⟩ := heq
      refine ⟨⟨le_refl _, le_refl _, by simp, by simp, rfl, le_max_left _ _⟩,
        fun q _ => rfl, fun q h1 h2 => absurd (lt_of_le_of_lt h1 h2) (lt_irrefl _),
        fun q h1 h2 _ => absurd (lt_of_le_of_lt h1 h2) (lt_irrefl _),
        fun e he => absurd he (List.not_mem_nil e),
        fun q h1 h2 => absurd (lt_of_le_of_lt h1 h2) (lt_irrefl _),
        List.Pairwise.nil, by simp, ?_, ?_, fun _ => ⟨rfl, rfl⟩⟩
      · intro hpne hjlt ⟨q, hq1, hq2, _⟩
        exfalso
        apply hcond
        refine ⟨hjlt, by omega, ?_⟩
        intro h0
        exact hpne (List.length_eq_zero.mp h0)
      · intro h1 h2
        exact absurd rfl h2

theorem rx_scanGo_spec {α : Type} (ss : Nat) (kids : List (Option (SN α))) :
    ∀ (gas off : Nat), gas + off = ss →
      (off ≤ (scanGo ss kids gas off).1 ∧ (scanGo ss kids gas off).1 ≤ ss) ∧
      (∀ o, off ≤ o → o < (scanGo ss kids gas off).1 →
        ∃ c, kids.getD o none = some c ∧ sradix_node_full ss c = true) ∧
      ((scanGo ss kids gas off).1 < ss →
        (scanGo ss kids gas off).2 = kids.getD (scanGo ss kids gas off).1 none ∧
        ((scanGo ss kids gas off).2 = none ∨
          ∃ c, (scanGo ss kids gas off).2 = some c ∧
            sradix_node_full ss c = false)) := by
  intro gas
  induction gas with
  | zero =>
    intro off hoff
    simp only [scanGo]
    exact ⟨⟨le_refl _, by omega⟩, fun o h1 h2 => absurd (lt_of_le_of_lt h1 h2)
      (lt_irrefl _), fun h => absurd h (by omega)⟩
  | succ gas ihg =>
    intro off hoff
    simp only [scanGo]
    cases hk : kids.getD off none with
    | none =>
      simp only []
      exact ⟨⟨le_refl _, by omega⟩, fun o h1 h2 => absurd (lt_of_le_of_lt h1 h2)
        (lt_irrefl _), fun _ => ⟨hk.symm, by simp⟩⟩
    | some c =>
      simp only []
      by_cases hfull : sradix_node_full ss c = true
      · rw [if_pos hfull]
        obtain ⟨⟨hb1, hb2⟩, hskip, hstop⟩ := ihg (off + 1) (by omega)
        refine ⟨⟨by omega, hb2⟩, ?_, hstop⟩
        intro o h1 h2
        rcases Nat.eq_or_lt_of_le h1 with rfl | hlt
        · exact ⟨c, hk, hfull⟩
        · exact hskip o hlt h2
      · rw [if_neg hfull]
        exact ⟨⟨le_refl _, by omega⟩, fun o h1 h2 => absurd (lt_of_le_of_lt h1 h2)
          (lt_irrefl _), fun _ => ⟨hk.symm, Or.inr ⟨c, rfl, by
            exact Bool.not_eq_true _ ▸ Bool.of_not_eq_true hfull⟩⟩⟩

theorem rx_getD_replicate {α : Type} (n q : Nat) :
    (List.replicate n (none : Option α)).getD q none = none := by
  rw [List.getD_eq_getElem?_getD, List.getElem?_replicate]
  split <;> rfl

theorem rx_fresh_WF {α : Type} (s h : Nat) (hh : 1 ≤ h) :
    WFn (2 ^ s) h (freshSN α (2 ^ s) h) := by
  match h, hh with
  | 1, _ =>
    simp [freshSN, WFn, List.countP_eq_length_filter, List.filter_replicate]
  | h + 2, _ =>
    have : ¬(h + 2 = 1) := by omega
    simp only [freshSN, if_neg this]
    refine ⟨rfl, List.length_replicate _ _, ?_, ?_, ?_⟩
    · simp [List.countP_eq_length_filter, List.filter_replicate]
    · simp [List.countP_eq_length_filter, List.filter_replicate, Option.elim]
    · intro o ho ch hch
      rw [List.eq_of_mem_replicate ho] at hch
      exact absurd hch (Option.noConfusion)

theorem rx_fresh_not_full {α : Type} (s h : Nat) (hs : 1 ≤ s) :
    sradix_node_full (2 ^ s) (freshSN α (2 ^ s) h) = false := by
  have h2 := rx_two_le_pow s hs
  by_cases h1 : h = 1
  · subst h1
    simp only [freshSN, if_pos rfl, sradix_node_full]
    have : (0 == 2 ^ s) = false := by simp; omega
    simp [this]
  · simp only [freshSN, if_neg h1, sradix_node_full]
    have h0 : (0 == 2 ^ s) = false := by simp; omega
    simp [h0]

theorem rx_fresh_lookup_none {α : Type} (s h q : Nat) :
    lookupGo s (2 ^ s - 1) h (freshSN α (2 ^ s) h) q = none := by
  match h with
  | 0 => simp [lookupGo]
  | 1 =>
    rw [show freshSN α (2 ^ s) 1 = SN.leaf 0 0 (List.replicate (2 ^ s) none)
      from rfl]
    rw [rx_lookupGo_leaf]
    exact rx_getD_replicate _ _
  | h + 2 =>
    have : ¬(h + 2 = 1) := by omega
    simp only [freshSN, if_neg this]
    rw [rx_lookupGo_node]
    rw [rx_getD_replicate]

theorem rx_idx_decomp (S T index : Nat) (hS : 0 < S) :
    index = index / (S * T) * (S * T) + (index / S % T) * S + index % S := by
  have h1 := Nat.div_add_mod index (S * T)
  have h2 : index % (S * T) = index % S + S * (index / S % T) := Nat.mod_mul
  have h3 : (index / S % T) * S = S * (index / S % T) := Nat.mul_comm _ _
  have h4 : index / (S * T) * (S * T) = S * T * (index / (S * T)) := Nat.mul_comm _ _
  omega

theorem rx_base_le (S index : Nat) : index / S * S ≤ index :=
  Nat.div_mul_le_self index S

theorem rx_lt_base_add (S index : Nat) (hS : 0 < S) :
    index < index / S * S + S := by
  have h1 := Nat.div_add_mod index S
  have h2 : index % S < S := Nat.mod_lt _ hS
  have h3 : index / S * S = S * (index / S) := Nat.mul_comm _ _
  omega

theorem rx_digit_of_range (S T B off q : Nat) (hS : 0 < S)
    (hB : B % (S * T) = 0) (hofflt : off < T)
    (h1 : B + off * S ≤ q) (h2 : q < B + (off + 1) * S) :
    q / S % T = off := by
  obtain ⟨k, hk⟩ : S * T ∣ B := Nat.dvd_of_mod_eq_zero hB
  have e1 : (T * k + off) * S = B + off * S := by rw [hk]; ring
  have e2 : B + (off + 1) * S = B + off * S + S := by ring
  have hr : q - (B + off * S) < S := by omega
  have hq : q = (T * k + off) * S + (q - (B + off * S)) := by omega
  rw [hq, rx_mul_add_div _ S _ hS hr, Nat.mul_add_mod, Nat.mod_eq_of_lt hofflt]

theorem rx_range_of_digit (S T B off q : Nat) (hS : 0 < S)
    (hB : B % (S * T) = 0) (hofflt : off < T)
    (hdig : q / S % T = off) (h1 : B ≤ q) (h2 : q < B + S * T) :
    B + off * S ≤ q ∧ q < B + (off + 1) * S := by
  set off2 := (q - B) / S with hoff2
  have hd1 : off2 * S ≤ q - B := Nat.div_mul_le_self _ _
  have hd2 : q - B < off2 * S + S := by
    have h := rx_lt_base_add S (q - B) hS
    rw [← hoff2] at h
    exact h
  have hofflt2 : off2 < T := by
    rw [hoff2, Nat.div_lt_iff_lt_mul hS]
    have e : S * T = T * S := Nat.mul_comm _ _
    omega
  have hdig2 : q / S % T = off2 := by
    apply rx_digit_of_range S T B off2 q hS hB hofflt2 (by omega)
    have e : B + (off2 + 1) * S = B + off2 * S + S := by ring
    omega
  have heq : off = off2 := by rw [hdig] at hdig2; exact hdig2
  subst heq
  have e : B + (off2 + 1) * S = B + off2 * S + S := by ring
  constructor <;> omega

theorem rx_div_mul_of_range (S T B off q : Nat) (hS : 0 < S)
    (hB : B % (S * T) = 0)
    (h1 : B + off * S ≤ q) (h2 : q < B + (off + 1) * S) :
    q / S * S = B + off * S := by
  obtain ⟨k, hk⟩ : S * T ∣ B := Nat.dvd_of_mod_eq_zero hB
  have e1 : (T * k + off) * S = B + off * S := by rw [hk]; ring
  have e2 : B + (off + 1) * S = B + off * S + S := by ring
  have hr : q - (B + off * S) < S := by omega
  have hq : q = (T * k + off) * S + (q - (B + off * S)) := by omega
  rw [hq, rx_mul_add_div _ S _ hS hr]
  omega

theorem rx_block_mod (S T B off : Nat) (hB : B % (S * T) = 0) :
    (B + off * S) % S = 0 := by
  obtain ⟨k, hk⟩ : S * T ∣ B := Nat.dvd_of_mod_eq_zero hB
  have : B + off * S = (k * T + off) * S := by rw [hk]; ring
  rw [this]
  exact Nat.mul_mod_left _ _

theorem rx_lookupGo_set {α : Type} (s h nh cc f : Nat)
    (kids : List (Option (SN α))) (off : Nat) (v : Option (SN α))
    (hoff : off < kids.length) (q : Nat) :
    lookupGo s (2 ^ s - 1) (h + 2) (SN.node nh cc f (kids.set off v)) q =
      if q / span s (h + 1) % 2 ^ s = off then
        (match v with
         | none => none
         | some c => lookupGo s (2 ^ s - 1) (h + 1) c q)
      else lookupGo s (2 ^ s - 1) (h + 2) (SN.node nh cc f kids) q := by
  rw [rx_lookupGo_node, rx_lookupGo_node]
  by_cases hq : q / span s (h + 1) % 2 ^ s = off
  · rw [if_pos hq, hq, rx_getD_set_self kids off v hoff]
  · rw [if_neg hq, rx_getD_set_ne kids off _ v (fun he => hq he.symm)]

theorem rx_children_below_full {α : Type} (s h nh c f : Nat)
    (kids : List (Option (SN α))) (index : Nat) (hs : 1 ≤ s)
    (hWF : WFn (2 ^ s) (h + 2) (SN.node nh c f kids))
    (hbelow : ∀ q, index / span s (h + 2) * span s (h + 2) ≤ q → q < index →
      lookupGo s (2 ^ s - 1) (h + 2) (SN.node nh c f kids) q ≠ none) :
    ∀ o, o < index / span s (h + 1) % 2 ^ s →
      ∃ ch, kids.getD o none = some ch ∧
        sradix_node_full (2 ^ s) ch = true := by
  intro o ho
  obtain ⟨hnh, hlen, hc, hf, hkids⟩ := hWF
  set S := span s (h + 1) with hSdef
  set B := index / span s (h + 2) * span s (h + 2) with hBdef
  have hSpos : 0 < S := rx_span_pos s (h + 1)
  have hspan2 : span s (h + 2) = S * 2 ^ s := rx_span_succ s (h + 1)
  have hB : B % (S * 2 ^ s) = 0 := by
    rw [hBdef, hspan2]
    exact Nat.mul_mod_left _ _
  have hofflt : o < 2 ^ s := lt_of_lt_of_le ho (Nat.le_of_lt_succ
    (Nat.lt_succ_of_lt (Nat.mod_lt _ (by positivity))))
  have hrange : ∀ q, B + o * S ≤ q → q < B + (o + 1) * S → q < index := by
    intro q hq1 hq2
    have hidx1 : B + (index / S % 2 ^ s) * S ≤ index := by
      have hBle : B ≤ index := rx_base_le _ _
      have hlt : index < B + span s (h + 2) := by
        rw [hBdef]
        exact rx_lt_base_add _ _ (rx_span_pos s (h + 2))
      exact (rx_range_of_digit S (2 ^ s) B (index / S % 2 ^ s) index hSpos hB
        (Nat.mod_lt _ (by positivity)) rfl hBle (by rwa [hspan2] at hlt)).1
    calc q < B + (o + 1) * S := hq2
    _ ≤ B + (index / S % 2 ^ s) * S := by
        have : o + 1 ≤ index / S % 2 ^ s := ho
        have := Nat.mul_le_mul_right S this
        omega
    _ ≤ index := hidx1
  have hdig : ∀ q, B + o * S ≤ q → q < B + (o + 1) * S → q / S % 2 ^ s = o := by
    intro q hq1 hq2
    exact rx_digit_of_range S (2 ^ s) B o q hSpos hB hofflt hq1 hq2
  have hq0 : B + o * S ≤ B + o * S := le_refl _
  have hq0' : B + o * S < B + (o + 1) * S := by
    have : o * S < (o + 1) * S := by
      have : o * S + S = (o + 1) * S := by ring
      omega
    omega
  have h00 := hbelow (B + o * S) (by omega) (hrange _ hq0 hq0')
  rw [rx_lookupGo_node, hdig _ hq0 hq0'] at h00
  cases hk : kids.getD o none with
  | none => rw [hk] at h00; exact absurd rfl h00
  | some ch =>
    have hmem : some ch ∈ kids := by
      rw [← hk]
      rw [List.getD_eq_getElem kids none (by rw [hlen]; exact hofflt)]
      exact List.getElem_mem _
    have hWFch := hkids _ hmem ch rfl
    refine ⟨ch, rfl, ?_⟩
    apply (rx_full_iff s hs (h + 1) ch hWFch).mpr
    intro r hr
    have hq1 : B + o * S ≤ B + o * S + r := by omega
    have hq2 : B + o * S + r < B + (o + 1) * S := by
      have : (o + 1) * S = o * S + S := by ring
      omega
    have := hbelow (B + o * S + r) (by omega) (hrange _ hq1 hq2)
    rw [rx_lookupGo_node, hdig _ hq1 hq2, hk] at this
    simp only [] at this
    rw [rx_lookupGo_mod] at this
    have hmodr : (B + o * S + r) % S = r := by
      rw [Nat.add_mod, rx_block_mod S (2 ^ s) B o hB, Nat.zero_add,
        Nat.mod_mod_of_dvd r dvd_rfl, Nat.mod_eq_of_lt hr]
    rwa [hmodr] at this

theorem rx_countP_set_add {α : Type} (p : Option α → Bool)
    (l : List (Option α)) (i : Nat) (v : Option α) (hi : i < l.length) :
    (l.set i v).countP p + (if p (l.getD i none) then 1 else 0) =
      l.countP p + (if p v then 1 else 0) := by
  induction l generalizing i with
  | nil => simp at hi
  | cons a t ih =>
    cases i with
    | zero =>
      simp [List.countP_cons]
      omega
    | succ n =>
      simp only [List.length_cons, Nat.succ_lt_succ_iff] at hi
      simp only [List.set_cons_succ, List.countP_cons, List.getD_cons_succ]
      have := ih n hi
      omega

theorem rx_countP_set_some_some {α : Type} (l : List (Option α)) (i : Nat)
    (x : α) (ch : α) (hi : i < l.length) (h : l.getD i none = some ch) :
    (l.set i (some x)).countP Option.isSome = l.countP Option.isSome := by
  have := rx_countP_set_add Option.isSome l i (some x) hi
  rw [h] at this
  simp at this
  omega

theorem rx_lookupGo_fields {α : Type} (s h nh c1 f1 c2 f2 : Nat)
    (kids : List (Option (SN α))) (q : Nat) :
    lookupGo s (2 ^ s - 1) (h + 2) (SN.node nh c1 f1 kids) q =
      lookupGo s (2 ^ s - 1) (h + 2) (SN.node nh c2 f2 kids) q := by
  rw [rx_lookupGo_node, rx_lookupGo_node]

theorem rx_enterAt_assemble {α : Type} (s : Nat) (hs : 1 ≤ s)
    (h nh c f : Nat) (kids : List (Option (SN α))) (index index1 : Nat)
    (pend : List α) (off : Nat) (child ct : SN α) (cmo : Nat)
    (clog : List (Nat × α)) (crest : List α) (cstop : Option (List Nat))
    (c' : Nat)
    (hWF : WFn (2 ^ s) (h + 2) (SN.node nh c f kids))
    (hnf : sradix_node_full (2 ^ s) (SN.node nh c f kids) = false)
    (hbelow : ∀ q, index / span s (h + 2) * span s (h + 2) ≤ q → q < index →
      lookupGo s (2 ^ s - 1) (h + 2) (SN.node nh c f kids) q ≠ none)
    (hofflt : off < 2 ^ s)
    (hskip : ∀ o, o < off →
      ∃ cho, kids.getD o none = some cho ∧ sradix_node_full (2 ^ s) cho = true)
    (hold0 : (kids.getD off none).elim false (sradix_node_full (2 ^ s)) = false)
    (hcc : ∀ q, q / span s (h + 1) % 2 ^ s = off →
      lookupGo s (2 ^ s - 1) (h + 2) (SN.node nh c f kids) q =
        lookupGo s (2 ^ s - 1) (h + 1) child q)
    (hc' : c' = (kids.set off (some ct)).countP Option.isSome)
    (hI1a : index ≤ index1)
    (hI1b : index1 / span s (h + 1) * span s (h + 1) =
      index / span s (h + 2) * span s (h + 2) + off * span s (h + 1))
    (cWF : WFn (2 ^ s) (h + 1) ct)
    (cB : index1 ≤ cmo ∧
      cmo ≤ index1 / span s (h + 1) * span s (h + 1) + span s (h + 1))
    (c3 : ∀ e ∈ clog, index1 ≤ e.1 ∧ e.1 < cmo ∧
      lookupGo s (2 ^ s - 1) (h + 1) child e.1 = none ∧
      lookupGo s (2 ^ s - 1) (h + 1) ct e.1 = some e.2)
    (c4 : ∀ q, index1 / span s (h + 1) * span s (h + 1) ≤ q →
      q < index1 / span s (h + 1) * span s (h + 1) + span s (h + 1) →
      q ∉ clog.map Prod.fst →
      lookupGo s (2 ^ s - 1) (h + 1) ct q =
        lookupGo s (2 ^ s - 1) (h + 1) child q)
    (c5 : ∀ q, index1 / span s (h + 1) * span s (h + 1) ≤ q → q < cmo →
      lookupGo s (2 ^ s - 1) (h + 1) ct q ≠ none)
    (c6 : crest = pend.drop clog.length ∧ clog.length ≤ pend.length)
    (c7 : pend ≠ [] → clog ≠ [])
    (c8 : List.Pairwise (· < ·) (clog.map Prod.fst))
    (c9a : cstop = none ↔ sradix_node_full (2 ^ s) ct = true)
    (c9b : ∀ p, cstop = some p →
      cmo < index1 / span s (h + 1) * span s (h + 1) + span s (h + 1) ∧
      PathTo s (h + 1) ct p cmo ∧
      sradix_node_full (2 ^ s) (subtreeAt ct p) = false)
    (c10 : clog ≠ [] → crest = [] → ∃ x, clog.getLast? = some (cmo - 1, x)) :
    WFn (2 ^ s) (h + 2)
      (SN.node nh c' (f + (if cstop.isNone then 1 else 0))
        (kids.set off (some ct))) ∧
    (index ≤ cmo ∧
      cmo ≤ index / span s (h + 2) * span s (h + 2) + span s (h + 2)) ∧
    (∀ e ∈ clog, index ≤ e.1 ∧ e.1 < cmo ∧
      lookupGo s (2 ^ s - 1) (h + 2) (SN.node nh c f kids) e.1 = none ∧
      lookupGo s (2 ^ s - 1) (h + 2)
        (SN.node nh c' (f + (if cstop.isNone then 1 else 0))
          (kids.set off (some ct))) e.1 = some e.2) ∧
    (∀ q, index / span s (h + 2) * span s (h + 2) ≤ q →
      q < index / span s (h + 2) * span s (h + 2) + span s (h + 2) →
      q ∉ clog.map Prod.fst →
      lookupGo s (2 ^ s - 1) (h + 2)
        (SN.node nh c' (f + (if cstop.isNone then 1 else 0))
          (kids.set off (some ct))) q =
        lookupGo s (2 ^ s - 1) (h + 2) (SN.node nh c f kids) q) ∧
    (∀ q, index / span s (h + 2) * span s (h + 2) ≤ q → q < cmo →
      lookupGo s (2 ^ s - 1) (h + 2)
        (SN.node nh c' (f + (if cstop.isNone then 1 else 0))
          (kids.set off (some ct))) q ≠ none) ∧
    (∀ stp : Option (List Nat), stp = (match cstop with
      | some p => some (off :: p)
      | none =>
        if sradix_node_full (2 ^ s)
            (SN.node nh c' (f + (if cstop.isNone then 1 else 0))
              (kids.set off (some ct))) then none else some [] :
        Option (List Nat)) →
      (stp = none ↔
        sradix_node_full (2 ^ s)
          (SN.node nh c' (f + (if cstop.isNone then 1 else 0))
            (kids.set off (some ct))) = true)) ∧
    (∀ stp : Option (List Nat), stp = (match cstop with
      | some p => some (off :: p)
      | none =>
        if sradix_node_full (2 ^ s)
            (SN.node nh c' (f + (if cstop.isNone then 1 else 0))
              (kids.set off (some ct))) then none else some [] :
        Option (List Nat)) →
      ∀ p, stp = some p →
      cmo < index / span s (h + 2) * span s (h + 2) + span s (h + 2) ∧
      PathTo s (h + 2)
        (SN.node nh c' (f + (if cstop.isNone then 1 else 0))
          (kids.set off (some ct))) p cmo ∧
      sradix_node_full (2 ^ s)
        (subtreeAt (SN.node nh c' (f + (if cstop.isNone then 1 else 0))
          (kids.set off (some ct))) p) = false) := by
  obtain ⟨hnh, hlen, hcC, hfC, hkids⟩ := hWF
  have hss2 : 2 ≤ 2 ^ s := rx_two_le_pow s hs
  set S := span s (h + 1) with hSdef
  set ssp := span s (h + 2) with hsspdef
  set B := index / ssp * ssp with hBdef
  have hSpos : 0 < S := rx_span_pos s (h + 1)
  have hspl : ssp = S * 2 ^ s := rx_span_succ s (h + 1)
  have hB : B % (S * 2 ^ s) = 0 := by
    rw [hBdef, hspl]
    exact Nat.mul_mod_left _ _
  have hBle : B ≤ index := rx_base_le _ _
  have hIdxlt : index < B + ssp := rx_lt_base_add _ _ (rx_span_pos s (h + 2))
  have hofflen : off < kids.length := by rwa [hlen]
  have hCBle : B + off * S ≤ index1 := by
    rw [← hI1b]
    exact rx_base_le _ _
  have hCBlt : index1 < B + off * S + S := by
    rw [← hI1b]
    exact rx_lt_base_add _ _ hSpos
  have hcmoB : cmo ≤ B + off * S + S := by
    have := cB.2
    omega
  have hoffS : B + off * S + S = B + (off + 1) * S := by ring
  have hcmoUp : cmo ≤ B + ssp := by
    have h1 : (off + 1) * S ≤ 2 ^ s * S := Nat.mul_le_mul_right S hofflt
    have h2 : ssp = 2 ^ s * S := by rw [hspl]; ring
    omega
  have hdigat : ∀ q, B + off * S ≤ q → q < B + (off + 1) * S →
      q / S % 2 ^ s = off :=
    fun q h1 h2 => rx_digit_of_range S (2 ^ s) B off q hSpos hB hofflt h1 h2
  have hlookset : ∀ q,
      lookupGo s (2 ^ s - 1) (h + 2)
        (SN.node nh c' (f + (if cstop.isNone then 1 else 0))
          (kids.set off (some ct))) q =
      if q / S % 2 ^ s = off then lookupGo s (2 ^ s - 1) (h + 1) ct q
      else lookupGo s (2 ^ s - 1) (h + 2) (SN.node nh c f kids) q := by
    intro q
    rw [rx_lookupGo_set s h nh c' _ kids off (some ct) hofflen q]
    by_cases hd : q / S % 2 ^ s = off
    · rw [if_pos hd, if_pos hd]
    · rw [if_neg hd, if_neg hd]
      exact rx_lookupGo_fields s h nh c' _ c f kids q
  have hfweq : (if cstop.isNone then 1 else 0) =
      (if sradix_node_full (2 ^ s) ct then 1 else 0) := by
    by_cases hcs : cstop = none
    · rw [hcs, c9a.mp hcs]
      simp
    · have hne : sradix_node_full (2 ^ s) ct ≠ true :=
        fun hfl => hcs (c9a.mpr hfl)
      rw [Bool.of_not_eq_true hne]
      simp [Option.isNone_iff_eq_none, hcs]
  have hWF2 : WFn (2 ^ s) (h + 2)
      (SN.node nh c' (f + (if cstop.isNone then 1 else 0))
        (kids.set off (some ct))) := by
    refine ⟨hnh, by rw [List.length_set]; exact hlen, hc', ?_, ?_⟩
    · have hadd := rx_countP_set_add
        (fun o => o.elim false (sradix_node_full (2 ^ s))) kids off (some ct)
        hofflen
      have hadd2 : (kids.set off (some ct)).countP
            (fun o => o.elim false (sradix_node_full (2 ^ s))) +
          (if (kids.getD off none).elim false (sradix_node_full (2 ^ s))
            then 1 else 0) =
          kids.countP (fun o => o.elim false (sradix_node_full (2 ^ s))) +
          (if sradix_node_full (2 ^ s) ct then 1 else 0) := hadd
      rw [hold0] at hadd2
      simp only [if_neg (by simp : ¬(false = true))] at hadd2
      rw [hfweq, hfC]
      omega
    · intro o ho ch hch
      rcases List.mem_or_eq_of_mem_set ho with hmem | rfl
      · exact hkids o hmem ch hch
      · cases hch
        exact cWF
  have hfullT2iff : sradix_node_full (2 ^ s)
      (SN.node nh c' (f + (if cstop.isNone then 1 else 0))
        (kids.set off (some ct))) =
      (f + (if cstop.isNone then 1 else 0) == 2 ^ s) := by
    have hne1 : ((nh == 1) && (c' == 2 ^ s)) = false := by
      have hne : (nh == 1) = false := by
        rw [hnh]
        exact beq_eq_false_iff_ne.mpr (by omega)
      rw [hne, Bool.false_and]
    rw [show sradix_node_full (2 ^ s)
        (SN.node nh c' (f + (if cstop.isNone then 1 else 0))
          (kids.set off (some ct))) =
      ((f + (if cstop.isNone then 1 else 0) == 2 ^ s) ||
        ((nh == 1) && (c' == 2 ^ s))) from rfl, hne1, Bool.or_false]
  have hfne : f ≠ 2 ^ s := by
    intro hfs
    rw [show sradix_node_full (2 ^ s) (SN.node nh c f kids) =
      ((f == 2 ^ s) || ((nh == 1) && (c == 2 ^ s))) from rfl, hfs] at hnf
    simp at hnf
  have hbelowT : ∀ q, B ≤ q → q < index →
      lookupGo s (2 ^ s - 1) (h + 2) (SN.node nh c f kids) q ≠ none :=
    fun q h1 h2 => hbelow q h1 h2
  have hlogrange : ∀ e ∈ clog, B + off * S ≤ e.1 ∧ e.1 < B + (off + 1) * S := by
    intro e he
    have := (c3 e he).1
    have := (c3 e he).2.1
    omega
  have hlow_full : ∀ q, B ≤ q → q < B + off * S →
      lookupGo s (2 ^ s - 1) (h + 2) (SN.node nh c f kids) q ≠ none := by
    intro q h1 h2
    have hd : q / S % 2 ^ s < off := by
      by_contra hcon
      push_neg at hcon
      have hdlt : q / S % 2 ^ s < 2 ^ s := Nat.mod_lt _ (by positivity)
      have := (rx_range_of_digit S (2 ^ s) B (q / S % 2 ^ s) q hSpos hB hdlt
        rfl h1 (by rw [← hspl]; omega)).1
      have hmul : off * S ≤ q / S % 2 ^ s * S :=
        Nat.mul_le_mul_right S hcon
      omega
    obtain ⟨cho, hcho, hchofull⟩ := hskip _ hd
    have hrange := rx_range_of_digit S (2 ^ s) B (q / S % 2 ^ s) q hSpos hB
      (Nat.mod_lt _ (by positivity)) rfl h1 (by rw [← hspl]; omega)
    rw [rx_lookupGo_node]
    rw [show q / span s (h + 1) % 2 ^ s = q / S % 2 ^ s from rfl, hcho]
    simp only []
    have hmlt : q / S % 2 ^ s < kids.length := by
      rw [hlen]
      exact Nat.mod_lt _ (by positivity)
    have hchoWF : WFn (2 ^ s) (h + 1) cho := by
      apply hkids (kids.getD (q / S % 2 ^ s) none) _ cho hcho
      rw [List.getD_eq_getElem kids none hmlt]
      exact List.getElem_mem _
    rw [rx_lookupGo_mod]
    exact (rx_full_iff s hs (h + 1) cho hchoWF).mp hchofull _
      (Nat.mod_lt _ hSpos)
  have hone : (if (none : Option (List Nat)).isNone = true then 1 else 0) = 1 := by
    simp
  have hftfalse : cstop ≠ none → sradix_node_full (2 ^ s)
      (SN.node nh c' (f + (if cstop.isNone then 1 else 0))
        (kids.set off (some ct))) = false := by
    intro hcs
    rw [hfullT2iff]
    have hin : cstop.isNone = false :=
      Bool.eq_false_iff.mpr (fun hT => hcs (Option.isNone_iff_eq_none.mp hT))
    rw [hin]
    simp only [if_neg (by simp : ¬(false = true))]
    exact beq_eq_false_iff_ne.mpr (by omega)
  refine ⟨hWF2, ⟨le_trans hI1a cB.1, hcmoUp⟩, ?_, ?_, ?_, ?_, ?_⟩
  · intro e he
    obtain ⟨he1, he2, he3, he4⟩ := c3 e he
    obtain ⟨hr1, hr2⟩ := hlogrange e he
    have hd : e.1 / S % 2 ^ s = off := hdigat e.1 hr1 hr2
    refine ⟨le_trans hI1a he1, he2, ?_, ?_⟩
    · rw [hcc e.1 hd]
      exact he3
    · rw [hlookset e.1, if_pos hd]
      exact he4
  · intro q h1 h2 hnot
    rw [hlookset q]
    by_cases hd : q / S % 2 ^ s = off
    · rw [if_pos hd]
      have hrange := rx_range_of_digit S (2 ^ s) B off q hSpos hB hofflt hd h1
        (by rw [← hspl]; omega)
      rw [c4 q (by omega) (by omega) hnot]
      exact (hcc q hd).symm
    · rw [if_neg hd]
  · intro q h1 h2
    rw [hlookset q]
    by_cases hd : q / S % 2 ^ s = off
    · rw [if_pos hd]
      have hrange := rx_range_of_digit S (2 ^ s) B off q hSpos hB hofflt hd h1
        (by rw [← hspl]; omega)
      apply c5 q (by omega) h2
    · rw [if_neg hd]
      by_cases hqlow : q < B + off * S
      · exact hlow_full q h1 hqlow
      · push_neg at hqlow
        exfalso
        apply hd
        apply hdigat q hqlow
        omega
  · intro stp hstp
    subst hstp
    by_cases hcs : cstop = none
    · subst hcs
      simp only []
      by_cases hft :  sradix_node_full (2 ^ s)
          (SN.node nh c' (f + (if (none : Option (List Nat)).isNone then 1
            else 0)) (kids.set off (some ct))) = true
      · rw [if_pos hft]
        exact ⟨fun _ => hft, fun _ => rfl⟩
      · rw [if_neg hft]
        constructor
        · intro hcon
          exact absurd hcon (by simp)
        · intro hcon
          exact absurd hcon hft
    · obtain ⟨p0, hp0⟩ := Option.ne_none_iff_exists'.mp hcs
      subst hp0
      have hff := hftfalse hcs
      simp only []
      rw [hff]
      simp
  · intro stp hstp p hp
    subst hstp
    by_cases hcs2 : cstop = none
    · subst hcs2
      simp only [] at hp
      by_cases hft : sradix_node_full (2 ^ s)
          (SN.node nh c' (f + (if (none : Option (List Nat)).isNone then 1
            else 0)) (kids.set off (some ct))) = true
      · rw [if_pos hft] at hp
        exact absurd hp (by simp)
      · rw [if_neg hft] at hp
        have hpe : p = [] := by
          injection hp with hp2
          exact hp2.symm
        subst hpe
        have hctfull : sradix_node_full (2 ^ s) ct = true := c9a.mp rfl
        have hoffne : off ≠ 2 ^ s - 1 := by
          intro hoffeq
          apply hft
          rw [hfullT2iff, hone]
          apply beq_iff_eq.mpr
          have : f + 1 = 2 ^ s := by
            have hfacc : f + (if (none : Option (List Nat)).isNone = true
                then 1 else 0) =
                ((kids.set off (some ct)).countP fun o =>
                  o.elim false (sradix_node_full (2 ^ s))) := by
              exact hWF2.2.2.2.1
            rw [hone] at hfacc
            have hall : ∀ a ∈ kids.set off (some ct),
                (a.elim false (sradix_node_full (2 ^ s))) = true := by
              intro a ha
              obtain ⟨o, hoo, hgeta⟩ := List.mem_iff_getElem.mp ha
              have holen : o < kids.length := by
                rwa [List.length_set] at hoo
              by_cases hoeq : o = off
              · subst hoeq
                rw [List.getElem_set_self] at hgeta
                rw [← hgeta]
                simpa using hctfull
              · rw [List.getElem_set_ne (fun he => hoeq he.symm)] at hgeta
                have holt : o < off := by
                  have : o < 2 ^ s := by rwa [hlen] at holen
                  omega
                obtain ⟨cho, hcho, hchof⟩ := hskip o holt
                rw [List.getD_eq_getElem kids none holen] at hcho
                rw [← hgeta, hcho]
                simpa using hchof
            have := List.countP_eq_length.mpr hall
            rw [this, List.length_set, hlen] at hfacc
            omega
          omega
        refine ⟨?_, trivial, by
          simp only [subtreeAt]
          exact Bool.of_not_eq_true hft⟩
        have hoffstrict : off + 1 < 2 ^ s := by omega
        have h1 : (off + 1) * S < 2 ^ s * S :=
          (Nat.mul_lt_mul_right hSpos).mpr hoffstrict
        have h2 : ssp = 2 ^ s * S := by rw [hspl]; ring
        omega
    · obtain ⟨p0, hp0⟩ := Option.ne_none_iff_exists'.mp hcs2
      subst hp0
      simp only [] at hp
      have hpe : p = off :: p0 := by
        injection hp with hp2
        exact hp2.symm
      subst hpe
      obtain ⟨hc9b1, hc9b2, hc9b3⟩ := c9b p0 rfl
      have hcmolt : cmo < B + (off + 1) * S := by omega
      have hcmoge : B + off * S ≤ cmo := le_trans hCBle cB.1
      refine ⟨?_, ?_, ?_⟩
      · have h1 : (off + 1) * S ≤ 2 ^ s * S := Nat.mul_le_mul_right S hofflt
        have h2 : ssp = 2 ^ s * S := by rw [hspl]; ring
        omega
      · refine ⟨?_, ct, rx_getD_set_self kids off (some ct) hofflen, hc9b2⟩
        rw [rx_digit_eq]
        rw [← hSdef]
        exact (hdigat cmo hcmoge hcmolt).symm
      · simp only [subtreeAt, rx_getD_set_self kids off (some ct) hofflen]
        exact hc9b3

theorem rx_enterAt_spec {α : Type} (s : Nat) (hs : 1 ≤ s) :
    ∀ (h : Nat) (t : SN α) (index : Nat) (pend : List α)
      (t' : SN α) (mo : Nat) (log : List (Nat × α)) (rest : List α)
      (stop : Option (List Nat)),
      enterAt s (2 ^ s) (2 ^ s - 1) h t index pend = ⟨t', mo, log, rest, stop⟩ →
      WFn (2 ^ s) h t →
      sradix_node_full (2 ^ s) t = false →
      (∀ q, index / span s h * span s h ≤ q → q < index →
        lookupGo s (2 ^ s - 1) h t q ≠ none) →
      WFn (2 ^ s) h t' ∧
      (index ≤ mo ∧ mo ≤ index / span s h * span s h + span s h) ∧
      (∀ e ∈ log, index ≤ e.1 ∧ e.1 < mo ∧
        lookupGo s (2 ^ s - 1) h t e.1 = none ∧
        lookupGo s (2 ^ s - 1) h t' e.1 = some e.2) ∧
      (∀ q, index / span s h * span s h ≤ q →
        q < index / span s h * span s h + span s h → q ∉ log.map Prod.fst →
        lookupGo s (2 ^ s - 1) h t' q = lookupGo s (2 ^ s - 1) h t q) ∧
      (∀ q, index / span s h * span s h ≤ q → q < mo →
        lookupGo s (2 ^ s - 1) h t' q ≠ none) ∧
      (rest = pend.drop log.length ∧ log.length ≤ pend.length) ∧
      (pend ≠ [] → log ≠ []) ∧
      List.Pairwise (· < ·) (log.map Prod.fst) ∧
      ((stop = none ↔ sradix_node_full (2 ^ s) t' = true) ∧
       ∀ p, stop = some p →
         mo < index / span s h * span s h + span s h ∧
         PathTo s h t' p mo ∧
         sradix_node_full (2 ^ s) (subtreeAt t' p) = false) ∧
      (log ≠ [] → rest = [] → ∃ x, log.getLast? = some (mo - 1, x)) := by
  intro h
  induction h using Nat.strong_induction_on with
  | _ h IH =>
    match h with
    | 0 => exact fun t index pend t' mo log rest stop heq hWF =>
        absurd hWF (by simp [WFn])
    | 1 =>
      intro t index pend t' mo log rest stop heq hWF hnf hbelow
      match t with
      | .node _ _ _ _ => exact absurd hWF (by simp [WFn])
      | .leaf c f items =>
        obtain ⟨hlen, hc, hf⟩ : items.length = 2 ^ s ∧
            c = items.countP Option.isSome ∧ f = 0 := hWF
        have hss2 : 2 ≤ 2 ^ s := rx_two_le_pow s hs
        simp only [enterAt, rx_and_mask] at heq
        rcases hfg : fillGo (2 ^ s) c (index % 2 ^ s) index (2 ^ s)
            items pend 0 0 with ⟨st2, iF, jF, log2⟩
        rw [hfg] at heq
        simp only [EnterOut.mk.injEq] at heq
        obtain ⟨rfl, rfl, rfl, rfl, rfl⟩ := heq
        obtain ⟨⟨_, _, hF2, hF2b, hF3, hF4⟩, hF5, hF6, hF5b, hF7, hF8, hF10,
            hF11, hF13, hF14, hF15⟩ :=
          rx_fillGo_spec (2 ^ s) c (index % 2 ^ s) index (2 ^ s) items pend 0 0
            st2 iF jF log2 hfg hlen (by omega)
        set B := index / span s 1 * span s 1 with hB
        have hsp1 : span s 1 = 2 ^ s := rx_span_one s
        have hBmod : B % 2 ^ s = 0 := by
          rw [hB, hsp1]
          exact Nat.mul_mod_left _ _
        have hoffB : B + index % 2 ^ s = index := by
          rw [hB, hsp1]
          have h0 := Nat.div_add_mod index (2 ^ s)
          have h1 : index / 2 ^ s * 2 ^ s = 2 ^ s * (index / 2 ^ s) :=
            Nat.mul_comm _ _
          omega
        have hofflt : index % 2 ^ s < 2 ^ s := Nat.mod_lt _ (by positivity)
        have hposmod : ∀ q, B ≤ q → q < B + 2 ^ s → q % 2 ^ s = q - B := by
          intro q h1 h2
          obtain ⟨k, hk⟩ := Nat.dvd_of_mod_eq_zero hBmod
          have he : q = 2 ^ s * k + (q - B) := by omega
          have hcalc : (2 ^ s * k + (q - B)) % 2 ^ s = q - B := by
            rw [Nat.mul_add_mod, Nat.mod_eq_of_lt (by omega)]
          rw [← he] at hcalc
          exact hcalc
        have hbelow2 : ∀ pos, pos < index % 2 ^ s → items.getD pos none ≠ none := by
          intro pos hpos
          have h2 : B + pos < index := by omega
          have := hbelow (B + pos) (by omega) h2
          rw [rx_lookupGo_leaf] at this
          rwa [show (B + pos) % 2 ^ s = pos by
            rw [hposmod (B + pos) (by omega) (by omega)]
            omega] at this
        have hcne : c ≠ 2 ^ s := by
          intro hcc
          rw [show sradix_node_full (2 ^ s) (SN.leaf c f items)
            = (f == 2 ^ s || c == 2 ^ s) from rfl] at hnf
          rw [hcc] at hnf
          simp at hnf
        have hclt : c < 2 ^ s := by
          have h1 : items.countP Option.isSome ≤ items.length :=
            List.countP_le_length _
          omega
        have hiFle : iF ≤ 2 ^ s - index % 2 ^ s := by
          have := hF4
          omega
        have hmole : index + iF ≤ B + span s 1 := by
          rw [hsp1]
          omega
        have hlookT : ∀ q, B ≤ q → q < B + 2 ^ s →
            lookupGo s (2 ^ s - 1) 1 (SN.leaf c f items) q =
              items.getD (q - B) none := by
          intro q h1 h2
          rw [rx_lookupGo_leaf, hposmod q h1 h2]
        have hlookT2 : ∀ q, B ≤ q → q < B + 2 ^ s →
            lookupGo s (2 ^ s - 1) 1 (SN.leaf (c + jF) f st2) q =
              st2.getD (q - B) none := by
          intro q h1 h2
          rw [rx_lookupGo_leaf, hposmod q h1 h2]
        have hWF2 : WFn (2 ^ s) 1 (SN.leaf (c + jF) f st2) := by
          refine ⟨by rw [hF3, hlen], ?_, hf⟩
          rw [hF11, ← hF2, hc]
          omega
        refine ⟨hWF2, ⟨by omega, hmole⟩, ?_, ?_, ?_, ?_, ?_, hF10, ?_, ?_⟩
        · intro e he
          obtain ⟨he1, he2, he3, he4⟩ := hF7 e he
          have hpose : index % 2 ^ s + (e.1 - index) = e.1 - B := by omega
          refine ⟨by omega, by omega, ?_, ?_⟩
          · rw [hlookT e.1 (by omega) (by omega), ← hpose]
            exact he3
          · rw [hlookT2 e.1 (by omega) (by omega), ← hpose]
            exact he4
        · intro q h1 h2 hqnot
          rw [hsp1] at h2
          rw [hlookT q h1 h2, hlookT2 q h1 h2]
          by_cases hwin : index % 2 ^ s ≤ q - B ∧ q - B < index % 2 ^ s + iF
          · cases hsl : items.getD (q - B) none with
            | none =>
              exfalso
              apply hqnot
              have := hF8 (q - B) (by omega) (by omega) hsl
              rwa [show index + (q - B - index % 2 ^ s) = q by omega] at this
            | some v =>
              rw [hF5b (q - B) (by omega) (by omega)
                (by intro hcc; rw [hcc] at hsl; exact Option.noConfusion hsl)]
              exact hsl
          · rw [hF5 (q - B) (by omega)]
        · intro q h1 h2
          have h2' : q < B + 2 ^ s := by
            have h3 := hmole
            rw [hsp1] at h3
            omega
          rw [hlookT2 q h1 h2']
          by_cases hwin : index % 2 ^ s ≤ q - B
          · exact hF6 (q - B) (by omega) (by omega)
          · rw [hF5 (q - B) (by omega)]
            exact hbelow2 (q - B) (by omega)
        · exact ⟨by rw [← hF2]; simp, by omega⟩
        · intro hpne
          apply hF13 hpne (by omega)
          obtain ⟨pos, hposlt, hposnone⟩ : ∃ pos, pos < items.length ∧
              items.getD pos none = none := by
            by_contra hcon
            push_neg at hcon
            have hall : ∀ q, q < items.length → items.getD q none ≠ none :=
              fun q hq => hcon q hq
            have h5 := List.countP_eq_length.mpr ((rx_getD_ne_none_iff items).mp hall)
            rw [← hc, hlen] at h5
            exact hcne h5
          refine ⟨pos, ?_, by rwa [hlen] at hposlt, hposnone⟩
          by_contra hlow
          push_neg at hlow
          exact hbelow2 pos (by omega) hposnone
        · constructor
          · constructor
            · intro hstopnone
              by_cases hfull : sradix_node_full (2 ^ s)
                  (SN.leaf (c + jF) f st2) = true
              · exact hfull
              · rw [if_neg hfull] at hstopnone
                exact absurd hstopnone (by simp)
            · intro hfull
              rw [if_pos hfull]
          · intro p hstp
            by_cases hfull : sradix_node_full (2 ^ s)
                (SN.leaf (c + jF) f st2) = true
            · rw [if_pos hfull] at hstp
              exact absurd hstp (by simp)
            · rw [if_neg hfull] at hstp
              have hp : p = [] := by
                have h6 := hstp
                simp at h6
                exact h6
              subst hp
              refine ⟨?_, trivial, by
                simp only [subtreeAt]
                exact Bool.of_not_eq_true hfull⟩
              by_contra hcon
              push_neg at hcon
              have hmoeq : index + iF = B + span s 1 := le_antisymm hmole hcon
              apply hfull
              apply (rx_full_iff s hs 1 _ hWF2).mpr
              intro q hq
              rw [hsp1] at hq
              rw [rx_lookupGo_leaf, Nat.mod_eq_of_lt hq]
              have hiFeq : index % 2 ^ s + iF = 2 ^ s := by
                rw [hsp1] at hmoeq
                omega
              by_cases hwin : index % 2 ^ s ≤ q
              · exact hF6 q (by omega) (by omega)
              · rw [hF5 q (by omega)]
                exact hbelow2 q (by omega)
        · intro hlne hrest
          have hjeq : jF = pend.length := by
            have h7 := List.drop_eq_nil_iff.mp hrest
            omega
          obtain ⟨x, hx⟩ := hF14 (by omega) hlne
          exact ⟨x, by rw [hx]⟩
    | h + 2 =>
      intro t index pend t' mo log rest stop heq hWF hnf hbelow
      match t with
      | .leaf _ _ _ => exact absurd hWF (by simp [WFn])
      | .node nh c f kids =>
        obtain ⟨hnh, hlen, hcC, hfC, hkids⟩ : nh = h + 2 ∧
            kids.length = 2 ^ s ∧
            c = kids.countP Option.isSome ∧
            f = (kids.countP fun o => o.elim false (sradix_node_full (2 ^ s))) ∧
            ∀ o ∈ kids, ∀ ch, o = some ch → WFn (2 ^ s) (h + 1) ch := hWF
        have hWF' : WFn (2 ^ s) (h + 2) (SN.node nh c f kids) :=
          ⟨hnh, hlen, hcC, hfC, hkids⟩
        have hss2 : 2 ≤ 2 ^ s := rx_two_le_pow s hs
        have hSpos : 0 < span s (h + 1) := rx_span_pos s (h + 1)
        have hspl : span s (h + 2) = span s (h + 1) * 2 ^ s :=
          rx_span_succ s (h + 1)
        have hB : (index / span s (h + 2) * span s (h + 2)) %
            (span s (h + 1) * 2 ^ s) = 0 := by
          rw [hspl]
          exact Nat.mul_mod_left _ _
        have hoff0lt : index / span s (h + 1) % 2 ^ s < 2 ^ s :=
          Nat.mod_lt _ (by positivity)
        have hdec := rx_idx_decomp (span s (h + 1)) (2 ^ s) index hSpos
        have hBeq : index / (span s (h + 1) * 2 ^ s) * (span s (h + 1) * 2 ^ s)
            = index / span s (h + 2) * span s (h + 2) := by
          rw [hspl]
        have hmodlt : index % span s (h + 1) < span s (h + 1) :=
          Nat.mod_lt _ hSpos
        have hrange1 : index / span s (h + 2) * span s (h + 2) +
            (index / span s (h + 1) % 2 ^ s) * span s (h + 1) ≤ index := by
          omega
        have hrange2 : index < index / span s (h + 2) * span s (h + 2) +
            ((index / span s (h + 1) % 2 ^ s) + 1) * span s (h + 1) := by
          have he : (index / span s (h + 1) % 2 ^ s + 1) * span s (h + 1) =
              (index / span s (h + 1) % 2 ^ s) * span s (h + 1) +
                span s (h + 1) := by ring
          omega
        have hIdm : index / span s (h + 1) * span s (h + 1) =
            index / span s (h + 2) * span s (h + 2) +
              (index / span s (h + 1) % 2 ^ s) * span s (h + 1) :=
          rx_div_mul_of_range (span s (h + 1)) (2 ^ s) _ _ index hSpos hB
            hrange1 hrange2
        simp only [enterAt] at heq
        rw [rx_digit_eq] at heq
        rcases hsc : scanGo (2 ^ s) kids
            (2 ^ s - index / span s (h + 1) % 2 ^ s)
            (index / span s (h + 1) % 2 ^ s) with ⟨off, oc⟩
        rw [hsc] at heq
        simp only [] at heq
        have hspec := rx_scanGo_spec (2 ^ s) kids
          (2 ^ s - index / span s (h + 1) % 2 ^ s)
          (index / span s (h + 1) % 2 ^ s) (by omega)
        rw [hsc] at hspec
        simp only [] at hspec
        obtain ⟨⟨hoff0le, hoffle⟩, hskipscan, hstopscan⟩ := hspec
        have hbf := rx_children_below_full s h nh c f kids index hs hWF' hbelow
        have hoffltss : off < 2 ^ s := by
          rcases Nat.lt_or_ge off (2 ^ s) with hlt | hge
          · exact hlt
          · exfalso
            have hoffeq : off = 2 ^ s := le_antisymm hoffle hge
            have hall : ∀ a ∈ kids,
                (a.elim false (sradix_node_full (2 ^ s))) = true := by
              intro a ha
              obtain ⟨o, hoo, hgeta⟩ := List.mem_iff_getElem.mp ha
              have holt : o < 2 ^ s := by rwa [hlen] at hoo
              rcases Nat.lt_or_ge o (index / span s (h + 1) % 2 ^ s) with
                ho1 | ho2
              · obtain ⟨ch, hch, hchf⟩ := hbf o ho1
                rw [List.getD_eq_getElem kids none hoo] at hch
                rw [← hgeta, hch]
                simpa using hchf
              · obtain ⟨ch, hch, hchf⟩ := hskipscan o ho2 (by omega)
                rw [List.getD_eq_getElem kids none hoo] at hch
                rw [← hgeta, hch]
                simpa using hchf
            have hcnt := List.countP_eq_length.mpr hall
            rw [hlen] at hcnt
            apply absurd hnf
            rw [show sradix_node_full (2 ^ s) (SN.node nh c f kids) =
              ((f == 2 ^ s) || ((nh == 1) && (c == 2 ^ s))) from rfl]
            rw [hfC, hcnt]
            simp
        rw [if_pos hoffltss] at heq
        obtain ⟨hocgetD, hocalt⟩ := hstopscan hoffltss
        have hskipall : ∀ o, o < off → ∃ cho,
            kids.getD o none = some cho ∧
              sradix_node_full (2 ^ s) cho = true := by
          intro o ho
          rcases Nat.lt_or_ge o (index / span s (h + 1) % 2 ^ s) with h1 | h1
          · exact hbf o h1
          · exact hskipscan o h1 ho
        have hofflen : off < kids.length := by rwa [hlen]
        have hSL : ∀ a : Nat, a <<< ((h + 1) * s) = a * span s (h + 1) := by
          intro a
          rw [Nat.shiftLeft_eq]
          congr 1
          unfold span
          rw [Nat.mul_comm (h + 1) s]
        have hSR : ∀ a : Nat, a >>> ((h + 1) * s) = a / span s (h + 1) := by
          intro a
          rw [rx_shr]
          congr 1
          unfold span
          rw [Nat.mul_comm (h + 1) s]
        cases oc with
        | some child =>
          have hchildgetD : kids.getD off none = some child := hocgetD.symm
          have hchildnf : sradix_node_full (2 ^ s) child = false := by
            rcases hocalt with hnone | ⟨cc, hcc2, hccf⟩
            · exact absurd hnone (by simp)
            · injection hcc2 with hcc3
              rw [hcc3]
              exact hccf
          have hold0 : (kids.getD off none).elim false
              (sradix_node_full (2 ^ s)) = false := by
            rw [hchildgetD]
            exact hchildnf
          have hchildmem : kids.getD off none ∈ kids := by
            rw [List.getD_eq_getElem kids none hofflen]
            exact List.getElem_mem _
          have hchildWF : WFn (2 ^ s) (h + 1) child :=
            hkids _ hchildmem child hchildgetD
          have hcc : ∀ q, q / span s (h + 1) % 2 ^ s = off →
              lookupGo s (2 ^ s - 1) (h + 2) (SN.node nh c f kids) q =
                lookupGo s (2 ^ s - 1) (h + 1) child q := by
            intro q hq
            rw [rx_lookupGo_node, hq, hchildgetD]
          have hcacc : c = (kids.set off (some child)).countP Option.isSome →
              True := fun _ => trivial
          simp only [] at heq
          by_cases hoffeq0 : off = index / span s (h + 1) % 2 ^ s
          · rw [if_neg (not_not_intro hoffeq0)] at heq
            have hI1b : index / span s (h + 1) * span s (h + 1) =
                index / span s (h + 2) * span s (h + 2) +
                  off * span s (h + 1) := by
              rw [hoffeq0]
              exact hIdm
            have hchildbelow : ∀ q,
                index / span s (h + 1) * span s (h + 1) ≤ q → q < index →
                lookupGo s (2 ^ s - 1) (h + 1) child q ≠ none := by
              intro q hq1 hq2
              rw [hI1b] at hq1
              have hqlt : q < index / span s (h + 2) * span s (h + 2) +
                  (off + 1) * span s (h + 1) := by
                have he : (off + 1) * span s (h + 1) =
                    off * span s (h + 1) + span s (h + 1) := by ring
                have he2 : (index / span s (h + 1) % 2 ^ s + 1) *
                    span s (h + 1) =
                    (index / span s (h + 1) % 2 ^ s) * span s (h + 1) +
                      span s (h + 1) := by ring
                have he3 : off * span s (h + 1) =
                    (index / span s (h + 1) % 2 ^ s) * span s (h + 1) := by
                  rw [hoffeq0]
                omega
              have hdig : q / span s (h + 1) % 2 ^ s = off :=
                rx_digit_of_range (span s (h + 1)) (2 ^ s) _ off q hSpos hB
                  hoffltss hq1 hqlt
              rw [← hcc q hdig]
              exact hbelow q (by omega) hq2
            rcases hout : enterAt s (2 ^ s) (2 ^ s - 1) (h + 1) child index
                pend with ⟨ct, cmo, clog, crest, cstop⟩
            rw [hout] at heq
            simp only [EnterOut.mk.injEq] at heq
            obtain ⟨rfl, rfl, rfl, rfl, rfl⟩ := heq
            obtain ⟨cWF, cBd, c3, c4, c5, c6, c7, c8, ⟨c9a, c9b⟩, c10⟩ :=
              IH (h + 1) (by omega) child index pend ct cmo clog crest cstop
                hout hchildWF hchildnf hchildbelow
            have hc' : c = (kids.set off (some ct)).countP Option.isSome := by
              rw [rx_countP_set_some_some kids off ct child hofflen hchildgetD]
              exact hcC
            obtain ⟨a1, a2, a3, a4, a5, a6, a7⟩ :=
              rx_enterAt_assemble s hs h nh c f kids index index pend off
                child ct cmo clog crest cstop c hWF' hnf hbelow hoffltss
                hskipall hold0 hcc hc' (le_refl index) hI1b cWF cBd c3 c4 c5
                c6 c7 c8 c9a c9b c10
            exact ⟨a1, a2, a3, a4, a5, c6, c7, c8,
              ⟨a6 _ (by rcases cstop with _ | p <;> rfl),
               a7 _ (by rcases cstop with _ | p <;> rfl)⟩, c10⟩
          · rw [if_pos hoffeq0] at heq
            have hshl : ((index + ((off - index / span s (h + 1) % 2 ^ s) <<<
                ((h + 1) * s))) >>> ((h + 1) * s)) <<< ((h + 1) * s) =
                index / span s (h + 2) * span s (h + 2) +
                  off * span s (h + 1) := by
              rw [hSL, hSR, hSL]
              have hsum : index + (off - index / span s (h + 1) % 2 ^ s) *
                  span s (h + 1) =
                  index / span s (h + 2) * span s (h + 2) +
                    off * span s (h + 1) + index % span s (h + 1) := by
                have h1 : (index / span s (h + 1) % 2 ^ s) * span s (h + 1) +
                    (off - index / span s (h + 1) % 2 ^ s) * span s (h + 1) =
                    off * span s (h + 1) := by
                  rw [← Nat.add_mul]
                  congr 1
                  omega
                omega
              rw [hsum]
              apply rx_div_mul_of_range (span s (h + 1)) (2 ^ s) _ off _
                hSpos hB
              · omega
              · have he : (off + 1) * span s (h + 1) =
                    off * span s (h + 1) + span s (h + 1) := by ring
                omega
            rw [hshl] at heq
            have hI1a : index ≤ index / span s (h + 2) * span s (h + 2) +
                off * span s (h + 1) := by
              have hlt : index / span s (h + 1) % 2 ^ s < off := by omega
              have hmul : (index / span s (h + 1) % 2 ^ s + 1) *
                  span s (h + 1) ≤ off * span s (h + 1) :=
                Nat.mul_le_mul_right _ hlt
              omega
            have hI1b : (index / span s (h + 2) * span s (h + 2) +
                off * span s (h + 1)) / span s (h + 1) * span s (h + 1) =
                index / span s (h + 2) * span s (h + 2) +
                  off * span s (h + 1) := by
              apply rx_div_mul_of_range (span s (h + 1)) (2 ^ s) _ off _
                hSpos hB (le_refl _)
              have he : (off + 1) * span s (h + 1) =
                  off * span s (h + 1) + span s (h + 1) := by ring
              omega
            have hchildbelow : ∀ q,
                (index / span s (h + 2) * span s (h + 2) +
                  off * span s (h + 1)) / span s (h + 1) * span s (h + 1) ≤ q →
                q < index / span s (h + 2) * span s (h + 2) +
                  off * span s (h + 1) →
                lookupGo s (2 ^ s - 1) (h + 1) child q ≠ none := by
              intro q hq1 hq2
              rw [hI1b] at hq1
              exact absurd (lt_of_le_of_lt hq1 hq2) (lt_irrefl _)
            rcases hout : enterAt s (2 ^ s) (2 ^ s - 1) (h + 1) child
                (index / span s (h + 2) * span s (h + 2) +
                  off * span s (h + 1)) pend with ⟨ct, cmo, clog, crest, cstop⟩
            rw [hout] at heq
            simp only [EnterOut.mk.injEq] at heq
            obtain ⟨rfl, rfl, rfl, rfl, rfl⟩ := heq
            obtain ⟨cWF, cBd, c3, c4, c5, c6, c7, c8, ⟨c9a, c9b⟩, c10⟩ :=
              IH (h + 1) (by omega) child
                (index / span s (h + 2) * span s (h + 2) +
                  off * span s (h + 1)) pend ct cmo clog crest cstop
                hout hchildWF hchildnf hchildbelow
            have hc' : c = (kids.set off (some ct)).countP Option.isSome := by
              rw [rx_countP_set_some_some kids off ct child hofflen hchildgetD]
              exact hcC
            obtain ⟨a1, a2, a3, a4, a5, a6, a7⟩ :=
              rx_enterAt_assemble s hs h nh c f kids index
                (index / span s (h + 2) * span s (h + 2) +
                  off * span s (h + 1)) pend off
                child ct cmo clog crest cstop c hWF' hnf hbelow hoffltss
                hskipall hold0 hcc hc' hI1a hI1b cWF cBd c3 c4 c5
                c6 c7 c8 c9a c9b c10
            exact ⟨a1, a2, a3, a4, a5, c6, c7, c8,
              ⟨a6 _ (by rcases cstop with _ | p <;> rfl),
               a7 _ (by rcases cstop with _ | p <;> rfl)⟩, c10⟩
        | none =>
          have hgetDnone : kids.getD off none = none := hocgetD.symm
          have hold0 : (kids.getD off none).elim false
              (sradix_node_full (2 ^ s)) = false := by
            rw [hgetDnone]
            rfl
          have hdiv : (h + 1) * s / s = h + 1 :=
            Nat.div_eq_of_eq_mul_left (by omega) rfl
          simp only [] at heq
          rw [hdiv] at heq
          have hchildWF : WFn (2 ^ s) (h + 1) (freshSN α (2 ^ s) (h + 1)) :=
            rx_fresh_WF s (h + 1) (by omega)
          have hchildnf : sradix_node_full (2 ^ s)
              (freshSN α (2 ^ s) (h + 1)) = false :=
            rx_fresh_not_full s (h + 1) hs
          have hcc : ∀ q, q / span s (h + 1) % 2 ^ s = off →
              lookupGo s (2 ^ s - 1) (h + 2) (SN.node nh c f kids) q =
                lookupGo s (2 ^ s - 1) (h + 1)
                  (freshSN α (2 ^ s) (h + 1)) q := by
            intro q hq
            rw [rx_lookupGo_node, hq, hgetDnone, rx_fresh_lookup_none]
          by_cases hoffeq0 : off = index / span s (h + 1) % 2 ^ s
          · rw [if_neg (not_not_intro hoffeq0)] at heq
            have hI1b : index / span s (h + 1) * span s (h + 1) =
                index / span s (h + 2) * span s (h + 2) +
                  off * span s (h + 1) := by
              rw [hoffeq0]
              exact hIdm
            have he3 : off * span s (h + 1) =
                (index / span s (h + 1) % 2 ^ s) * span s (h + 1) := by
              rw [hoffeq0]
            have hieq : index = index / span s (h + 2) * span s (h + 2) +
                off * span s (h + 1) := by
              rcases Nat.lt_or_ge (index / span s (h + 2) * span s (h + 2) +
                off * span s (h + 1)) index with hlt | hge
              · exfalso
                apply hbelow (index / span s (h + 2) * span s (h + 2) +
                  off * span s (h + 1)) (by omega) hlt
                rw [rx_lookupGo_node]
                have hdig : (index / span s (h + 2) * span s (h + 2) +
                    off * span s (h + 1)) / span s (h + 1) % 2 ^ s = off := by
                  apply rx_digit_of_range (span s (h + 1)) (2 ^ s) _ off _
                    hSpos hB hoffltss (le_refl _)
                  have he : (off + 1) * span s (h + 1) =
                      off * span s (h + 1) + span s (h + 1) := by ring
                  omega
                rw [hdig, hgetDnone]
              · omega
            have hchildbelow : ∀ q,
                index / span s (h + 1) * span s (h + 1) ≤ q → q < index →
                lookupGo s (2 ^ s - 1) (h + 1)
                  (freshSN α (2 ^ s) (h + 1)) q ≠ none := by
              intro q hq1 hq2
              rw [hI1b] at hq1
              rw [hieq] at hq2
              exact absurd (lt_of_le_of_lt hq1 hq2) (lt_irrefl _)
            rcases hout : enterAt s (2 ^ s) (2 ^ s - 1) (h + 1)
                (freshSN α (2 ^ s) (h + 1)) index pend with
              ⟨ct, cmo, clog, crest, cstop⟩
            rw [hout] at heq
            simp only [EnterOut.mk.injEq] at heq
            obtain ⟨rfl, rfl, rfl, rfl, rfl⟩ := heq
            obtain ⟨cWF, cBd, c3, c4, c5, c6, c7, c8, ⟨c9a, c9b⟩, c10⟩ :=
              IH (h + 1) (by omega) (freshSN α (2 ^ s) (h + 1)) index pend
                ct cmo clog crest cstop hout hchildWF hchildnf hchildbelow
            have hc' : c + 1 =
                (kids.set off (some ct)).countP Option.isSome := by
              rw [rx_countP_set_none_some kids off ct hofflen hgetDnone]
              omega
            obtain ⟨a1, a2, a3, a4, a5, a6, a7⟩ :=
              rx_enterAt_assemble s hs h nh c f kids index index pend off
                (freshSN α (2 ^ s) (h + 1)) ct cmo clog crest cstop (c + 1)
                hWF' hnf hbelow hoffltss hskipall hold0 hcc hc'
                (le_refl index) hI1b cWF cBd c3 c4 c5 c6 c7 c8 c9a c9b c10
            exact ⟨a1, a2, a3, a4, a5, c6, c7, c8,
              ⟨a6 _ (by rcases cstop with _ | p <;> rfl),
               a7 _ (by rcases cstop with _ | p <;> rfl)⟩, c10⟩
          · rw [if_pos hoffeq0] at heq
            have hshl : ((index + ((off - index / span s (h + 1) % 2 ^ s) <<<
                ((h + 1) * s))) >>> ((h + 1) * s)) <<< ((h + 1) * s) =
                index / span s (h + 2) * span s (h + 2) +
                  off * span s (h + 1) := by
              rw [hSL, hSR, hSL]
              have hsum : index + (off - index / span s (h + 1) % 2 ^ s) *
                  span s (h + 1) =
                  index / span s (h + 2) * span s (h + 2) +
                    off * span s (h + 1) + index % span s (h + 1) := by
                have h1 : (index / span s (h + 1) % 2 ^ s) * span s (h + 1) +
                    (off - index / span s (h + 1) % 2 ^ s) * span s (h + 1) =
                    off * span s (h + 1) := by
                  rw [← Nat.add_mul]
                  congr 1
                  omega
                omega
              rw [hsum]
              apply rx_div_mul_of_range (span s (h + 1)) (2 ^ s) _ off _
                hSpos hB
              · omega
              · have he : (off + 1) * span s (h + 1) =
                    off * span s (h + 1) + span s (h + 1) := by ring
                omega
            rw [hshl] at heq
            have hI1a : index ≤ index / span s (h + 2) * span s (h + 2) +
                off * span s (h + 1) := by
              have hlt : index / span s (h + 1) % 2 ^ s < off := by omega
              have hmul : (index / span s (h + 1) % 2 ^ s + 1) *
                  span s (h + 1) ≤ off * span s (h + 1) :=
                Nat.mul_le_mul_right _ hlt
              omega
            have hI1b : (index / span s (h + 2) * span s (h + 2) +
                off * span s (h + 1)) / span s (h + 1) * span s (h + 1) =
                index / span s (h + 2) * span s (h + 2) +
                  off * span s (h + 1) := by
              apply rx_div_mul_of_range (span s (h + 1)) (2 ^ s) _ off _
                hSpos hB (le_refl _)
              have he : (off + 1) * span s (h + 1) =
                  off * span s (h + 1) + span s (h + 1) := by ring
              omega
            have hchildbelow : ∀ q,
                (index / span s (h + 2) * span s (h + 2) +
                  off * span s (h + 1)) / span s (h + 1) * span s (h + 1) ≤ q →
                q < index / span s (h + 2) * span s (h + 2) +
                  off * span s (h + 1) →
                lookupGo s (2 ^ s - 1) (h + 1)
                  (freshSN α (2 ^ s) (h + 1)) q ≠ none := by
              intro q hq1 hq2
              rw [hI1b] at hq1
              exact absurd (lt_of_le_of_lt hq1 hq2) (lt_irrefl _)
            rcases hout : enterAt s (2 ^ s) (2 ^ s - 1) (h + 1)
                (freshSN α (2 ^ s) (h + 1))
                (index / span s (h + 2) * span s (h + 2) +
                  off * span s (h + 1)) pend with
              ⟨ct, cmo, clog, crest, cstop⟩
            rw [hout] at heq
            simp only [EnterOut.mk.injEq] at heq
            obtain ⟨rfl, rfl, rfl, rfl, rfl⟩ := heq
            obtain ⟨cWF, cBd, c3, c4, c5, c6, c7, c8, ⟨c9a, c9b⟩, c10⟩ :=
              IH (h + 1) (by omega) (freshSN α (2 ^ s) (h + 1))
                (index / span s (h + 2) * span s (h + 2) +
                  off * span s (h + 1)) pend ct cmo clog crest cstop
                hout hchildWF hchildnf hchildbelow
            have hc' : c + 1 =
                (kids.set off (some ct)).countP Option.isSome := by
              rw [rx_countP_set_none_some kids off ct hofflen hgetDnone]
              omega
            obtain ⟨a1, a2, a3, a4, a5, a6, a7⟩ :=
              rx_enterAt_assemble s hs h nh c f kids index
                (index / span s (h + 2) * span s (h + 2) +
                  off * span s (h + 1)) pend off
                (freshSN α (2 ^ s) (h + 1)) ct cmo clog crest cstop (c + 1)
                hWF' hnf hbelow hoffltss hskipall hold0 hcc hc' hI1a hI1b
                cWF cBd c3 c4 c5 c6 c7 c8 c9a c9b c10
            exact ⟨a1, a2, a3, a4, a5, c6, c7, c8,
              ⟨a6 _ (by rcases cstop with _ | p <;> rfl),
               a7 _ (by rcases cstop with _ | p <;> rfl)⟩, c10⟩

theorem rx_full_all_desc {α : Type} (s : Nat) (hs : 1 ≤ s) :
    ∀ (h : Nat) (t : SN α), WFn (2 ^ s) h t →
      sradix_node_full (2 ^ s) t = true →
      ∀ p, sradix_node_full (2 ^ s) (subtreeAt t p) = true := by
  intro h
  induction h using Nat.strong_induction_on with
  | _ h IH =>
    intro t hWF hfull p
    match p with
    | [] => exact hfull
    | d :: p2 =>
      match h, t with
      | 0, t => exact absurd hWF (by simp [WFn])
      | 1, .leaf _ _ _ => exact hfull
      | 1, .node _ _ _ _ => exact absurd hWF (by simp [WFn])
      | g + 2, .leaf _ _ _ => exact absurd hWF (by simp [WFn])
      | g + 2, .node nh c f kids =>
        obtain ⟨hnh, hlen, hc, hf, hkids⟩ : nh = g + 2 ∧
            kids.length = 2 ^ s ∧
            c = kids.countP Option.isSome ∧
            f = (kids.countP fun o => o.elim false (sradix_node_full (2 ^ s))) ∧
            ∀ o ∈ kids, ∀ ch, o = some ch → WFn (2 ^ s) (g + 1) ch := hWF
        simp only [subtreeAt]
        cases hk : kids.getD d none with
        | none => exact hfull
        | some ch =>
          simp only []
          have hne1 : (nh == 1) = false := by
            rw [hnh]
            exact beq_eq_false_iff_ne.mpr (by omega)
          have hfss : f = 2 ^ s := by
            rw [show sradix_node_full (2 ^ s) (SN.node nh c f kids) =
              ((f == 2 ^ s) || ((nh == 1) && (c == 2 ^ s))) from rfl,
              hne1, Bool.false_and, Bool.or_false] at hfull
            exact beq_iff_eq.mp hfull
          have hall : ∀ a ∈ kids,
              (a.elim false (sradix_node_full (2 ^ s))) = true := by
            apply List.countP_eq_length.mp
            rw [← hf, hfss, hlen]
          have hdlen : d < kids.length := by
            rcases Nat.lt_or_ge d kids.length with hlt | hge
            · exact hlt
            · rw [List.getD_eq_default _ _ hge] at hk
              exact absurd hk (by simp)
          have hmem : kids.getD d none ∈ kids := by
            rw [List.getD_eq_getElem kids none hdlen]
            exact List.getElem_mem _
          rw [hk] at hmem
          have hchfull : sradix_node_full (2 ^ s) ch = true := by
            have := hall _ hmem
            simpa using this
          exact IH (g + 1) (by omega) ch (hkids _ hmem ch rfl) hchfull p2

theorem rx_rebuildAt_spec {α : Type} (s : Nat) (hs : 1 ≤ s) (g0 : Nat)
    (index mo : Nat) (pend : List α) (t' : SN α) (log : List (Nat × α))
    (rest : List α) (stop' : Option (List Nat))
    (hWFin : WFn (2 ^ s) g0 t')
    (hbnd : index ≤ mo ∧ mo ≤ index / span s g0 * span s g0 + span s g0)
    (hrestd : rest = pend.drop log.length ∧ log.length ≤ pend.length)
    (hpne : pend ≠ [] → log ≠ [])
    (hpw : List.Pairwise (· < ·) (log.map Prod.fst))
    (hstopiff : stop' = none ↔ sradix_node_full (2 ^ s) t' = true)
    (hstopsome : ∀ p2, stop' = some p2 →
      mo < index / span s g0 * span s g0 + span s g0 ∧
      PathTo s g0 t' p2 mo ∧
      sradix_node_full (2 ^ s) (subtreeAt t' p2) = false)
    (hlast : log ≠ [] → rest = [] → ∃ x, log.getLast? = some (mo - 1, x)) :
    ∀ (p : List Nat) (h : Nat) (t : SN α) (T' : SN α)
      (stop2 : Option (List Nat)),
      rebuildAt (2 ^ s) t p t' stop' = (T', stop2) →
      h = g0 + p.length →
      WFn (2 ^ s) h t →
      PathTo s h t p index →
      sradix_node_full (2 ^ s) (subtreeAt t p) = false →
      (∀ q, index / span s h * span s h ≤ q → q < index →
        lookupGo s (2 ^ s - 1) h t q ≠ none) →
      (∀ e ∈ log, index ≤ e.1 ∧ e.1 < mo ∧
        lookupGo s (2 ^ s - 1) g0 (subtreeAt t p) e.1 = none ∧
        lookupGo s (2 ^ s - 1) g0 t' e.1 = some e.2) →
      (∀ q, index / span s g0 * span s g0 ≤ q →
        q < index / span s g0 * span s g0 + span s g0 →
        q ∉ log.map Prod.fst →
        lookupGo s (2 ^ s - 1) g0 t' q =
          lookupGo s (2 ^ s - 1) g0 (subtreeAt t p) q) →
      (∀ q, index / span s g0 * span s g0 ≤ q → q < mo →
        lookupGo s (2 ^ s - 1) g0 t' q ≠ none) →
      WFn (2 ^ s) h T' ∧
      (index ≤ mo ∧ mo ≤ index / span s h * span s h + span s h) ∧
      (∀ e ∈ log, index ≤ e.1 ∧ e.1 < mo ∧
        lookupGo s (2 ^ s - 1) h t e.1 = none ∧
        lookupGo s (2 ^ s - 1) h T' e.1 = some e.2) ∧
      (∀ q, index / span s h * span s h ≤ q →
        q < index / span s h * span s h + span s h →
        q ∉ log.map Prod.fst →
        lookupGo s (2 ^ s - 1) h T' q = lookupGo s (2 ^ s - 1) h t q) ∧
      (∀ q, index / span s h * span s h ≤ q → q < mo →
        lookupGo s (2 ^ s - 1) h T' q ≠ none) ∧
      (stop2 = none ↔ sradix_node_full (2 ^ s) T' = true) ∧
      (∀ p2, stop2 = some p2 →
        mo < index / span s h * span s h + span s h ∧
        PathTo s h T' p2 mo ∧
        sradix_node_full (2 ^ s) (subtreeAt T' p2) = false) := by
  intro p
  induction p with
  | nil =>
    intro h t T' stop2 heq hg0 hWF hpath hnfend hbelow hlog hunch hnon
    simp only [rebuildAt] at heq
    simp only [Prod.mk.injEq] at heq
    obtain ⟨rfl, rfl⟩ := heq
    have hg : h = g0 := by simpa using hg0
    subst hg
    exact ⟨hWFin, hbnd, hlog, hunch, hnon, hstopiff, hstopsome⟩
  | cons d p2 ihp =>
    intro h t T' stop2 heq hg0 hWF hpath hnfend hbelow hlog hunch hnon
    match h, t with
    | 0, t => exact absurd hWF (by simp [WFn])
    | 1, t =>
      exfalso
      match t with
      | .leaf _ _ _ => simp [PathTo] at hpath
      | .node _ _ _ _ => exact absurd hWF (by simp [WFn])
    | g + 2, .leaf _ _ _ => exact absurd hWF (by simp [WFn])
    | g + 2, .node nh c f kids =>
      obtain ⟨hdd, ch, hchd, hpath'⟩ :
          d = (index >>> ((g + 1) * s)) &&& (2 ^ s - 1) ∧
          ∃ ch, kids.getD d none = some ch ∧
            PathTo s (g + 1) ch p2 index := hpath
      obtain ⟨hnh, hlen, hcC, hfC, hkids⟩ : nh = g + 2 ∧
          kids.length = 2 ^ s ∧
          c = kids.countP Option.isSome ∧
          f = (kids.countP fun o => o.elim false (sradix_node_full (2 ^ s))) ∧
          ∀ o ∈ kids, ∀ ch, o = some ch → WFn (2 ^ s) (g + 1) ch := hWF
      have hWF' : WFn (2 ^ s) (g + 2) (SN.node nh c f kids) :=
        ⟨hnh, hlen, hcC, hfC, hkids⟩
      have hd2 : d = index / span s (g + 1) % 2 ^ s :=
        hdd.trans (rx_digit_eq s g index)
      have hSpos : 0 < span s (g + 1) := rx_span_pos s (g + 1)
      have hdlt : d < 2 ^ s := by
        rw [hd2]
        exact Nat.mod_lt _ (by positivity)
      have hdlen : d < kids.length := by rwa [hlen]
      have hspl : span s (g + 2) = span s (g + 1) * 2 ^ s :=
        rx_span_succ s (g + 1)
      have hB : (index / span s (g + 2) * span s (g + 2)) %
          (span s (g + 1) * 2 ^ s) = 0 := by
        rw [hspl]
        exact Nat.mul_mod_left _ _
      have hdec := rx_idx_decomp (span s (g + 1)) (2 ^ s) index hSpos
      have hBeq : index / (span s (g + 1) * 2 ^ s) * (span s (g + 1) * 2 ^ s)
          = index / span s (g + 2) * span s (g + 2) := by
        rw [hspl]
      have hmodlt : index % span s (g + 1) < span s (g + 1) :=
        Nat.mod_lt _ hSpos
      have hrange1 : index / span s (g + 2) * span s (g + 2) +
          d * span s (g + 1) ≤ index := by
        rw [hd2]
        omega
      have hrange2 : index < index / span s (g + 2) * span s (g + 2) +
          (d + 1) * span s (g + 1) := by
        have he : (d + 1) * span s (g + 1) =
            d * span s (g + 1) + span s (g + 1) := by ring
        have he2 : d * span s (g + 1) =
            (index / span s (g + 1) % 2 ^ s) * span s (g + 1) := by
          rw [hd2]
        omega
      have hIdm : index / span s (g + 1) * span s (g + 1) =
          index / span s (g + 2) * span s (g + 2) + d * span s (g + 1) :=
        rx_div_mul_of_range (span s (g + 1)) (2 ^ s) _ _ index hSpos hB
          hrange1 hrange2
      have hsub : subtreeAt (SN.node nh c f kids) (d :: p2) =
          subtreeAt ch p2 := by
        simp only [subtreeAt, hchd]
      rw [hsub] at hnfend hlog hunch
      have hchmem : kids.getD d none ∈ kids := by
        rw [List.getD_eq_getElem kids none hdlen]
        exact List.getElem_mem _
      rw [hchd] at hchmem
      have hchWF : WFn (2 ^ s) (g + 1) ch := hkids _ hchmem ch rfl
      have hchnf : sradix_node_full (2 ^ s) ch = false := by
        rcases Bool.eq_false_or_eq_true (sradix_node_full (2 ^ s) ch) with
          hf1 | hf0
        · exact absurd (rx_full_all_desc s hs (g + 1) ch hchWF hf1 p2)
            (by rw [hnfend]; simp)
        · exact hf0
      have hold0 : (kids.getD d none).elim false
          (sradix_node_full (2 ^ s)) = false := by
        rw [hchd]
        exact hchnf
      have hcc : ∀ q, q / span s (g + 1) % 2 ^ s = d →
          lookupGo s (2 ^ s - 1) (g + 2) (SN.node nh c f kids) q =
            lookupGo s (2 ^ s - 1) (g + 1) ch q := by
        intro q hq
        rw [rx_lookupGo_node, hq, hchd]
      have hchbelow : ∀ q, index / span s (g + 1) * span s (g + 1) ≤ q →
          q < index → lookupGo s (2 ^ s - 1) (g + 1) ch q ≠ none := by
        intro q hq1 hq2
        rw [hIdm] at hq1
        have hqlt : q < index / span s (g + 2) * span s (g + 2) +
            (d + 1) * span s (g + 1) := by omega
        have hdig : q / span s (g + 1) % 2 ^ s = d :=
          rx_digit_of_range (span s (g + 1)) (2 ^ s) _ d q hSpos hB hdlt
            hq1 hqlt
        rw [← hcc q hdig]
        exact hbelow q (by omega) hq2
      have hskipall : ∀ o, o < d → ∃ cho,
          kids.getD o none = some cho ∧
            sradix_node_full (2 ^ s) cho = true := by
        intro o ho
        apply rx_children_below_full s g nh c f kids index hs hWF' hbelow
        rw [← hd2]
        exact ho
      simp only [rebuildAt] at heq
      rw [hchd] at heq
      simp only [] at heq
      rcases hsubeq : rebuildAt (2 ^ s) ch p2 t' stop' with ⟨ct, cstop⟩
      rw [hsubeq] at heq
      simp only [] at heq
      have hg0' : g + 1 = g0 + p2.length := by
        simp only [List.length_cons] at hg0
        omega
      obtain ⟨cWF, cBd, c3, c4, c5, ⟨c9a, c9b⟩⟩ :=
        ihp (g + 1) ch ct cstop hsubeq hg0' hchWF hpath' hnfend hchbelow
          hlog hunch hnon
      have hnf2 : sradix_node_full (2 ^ s) (SN.node nh c f kids) = false := by
        rcases Bool.eq_false_or_eq_true
            (sradix_node_full (2 ^ s) (SN.node nh c f kids)) with hf1 | hf0
        · exact absurd (rx_full_all_desc s hs (g + 2) _ hWF' hf1 (d :: p2))
            (by rw [hsub, hnfend]; simp)
        · exact hf0
      have hc' : c = (kids.set d (some ct)).countP Option.isSome := by
        rw [rx_countP_set_some_some kids d ct ch hdlen hchd]
        exact hcC
      have hI1b : index / span s (g + 1) * span s (g + 1) =
          index / span s (g + 2) * span s (g + 2) + d * span s (g + 1) :=
        hIdm
      obtain ⟨a1, a2, a3, a4, a5, a6, a7⟩ :=
        rx_enterAt_assemble s hs g nh c f kids index index pend d ch ct
          mo log rest cstop c hWF' hnf2 hbelow hdlt hskipall hold0 hcc hc'
          (le_refl index) hI1b cWF cBd c3 c4 c5 hrestd hpne hpw c9a c9b hlast
      cases cstop with
      | some q =>
        simp only [] at heq
        simp only [Prod.mk.injEq] at heq
        obtain ⟨rfl, rfl⟩ := heq
        exact ⟨a1, a2, a3, a4, a5,
          a6 (some (d :: q)) rfl, a7 (some (d :: q)) rfl⟩
      | none =>
        simp only [] at heq
        simp only [Prod.mk.injEq] at heq
        obtain ⟨rfl, rfl⟩ := heq
        exact ⟨a1, a2, a3, a4, a5,
          a6 _ rfl, a7 _ rfl⟩

theorem rx_div_span_zero (s h q : Nat) (hq : q < span s h) : q / span s h = 0 :=
  Nat.div_eq_of_lt hq


theorem rx_span_mono (s h : Nat) (hs : 1 ≤ s) : span s h < span s (h + 1) := by
  have h1 := rx_span_pos s h
  have h2 := rx_two_le_pow s hs
  have h3 : span s (h + 1) = span s h * 2 ^ s := rx_span_succ s h
  have h4 : span s h * 2 ≤ span s h * 2 ^ s := Nat.mul_le_mul_left _ h2
  omega

theorem rx_wrap1_WF {α : Type} (s : Nat) (hs : 1 ≤ s) (g : Nat) (t : SN α)
    (hWF : WFn (2 ^ s) (g + 1) t) :
    WFn (2 ^ s) (g + 2)
      (SN.node (g + 2) 1 (if sradix_node_full (2 ^ s) t then 1 else 0)
        ((List.replicate (2 ^ s) (none : Option (SN α))).set 0 (some t))) := by
  have hreplen : 0 < (List.replicate (2 ^ s)
      (none : Option (SN α))).length := by
    rw [List.length_replicate]
    have := rx_two_le_pow s hs
    omega
  have hrep0 : (List.replicate (2 ^ s)
      (none : Option (SN α))).getD 0 none = none := rx_getD_replicate _ _
  refine ⟨rfl, ?_, ?_, ?_, ?_⟩
  · rw [List.length_set, List.length_replicate]
  · rw [rx_countP_set_none_some _ 0 t hreplen hrep0]
    simp [List.countP_eq_length_filter, List.filter_replicate]
  · have hadd := rx_countP_set_add
      (fun o => o.elim false (sradix_node_full (2 ^ s)))
      (List.replicate (2 ^ s) none) 0 (some t) hreplen
    rw [hrep0] at hadd
    have hadd2 : ((List.replicate (2 ^ s)
          (none : Option (SN α))).set 0 (some t)).countP
          (fun o => o.elim false (sradix_node_full (2 ^ s))) +
        (if false = true then 1 else 0) =
        (List.replicate (2 ^ s)
          (none : Option (SN α))).countP
          (fun o => o.elim false (sradix_node_full (2 ^ s))) +
        (if sradix_node_full (2 ^ s) t = true then 1 else 0) := hadd
    have hz : (List.replicate (2 ^ s)
        (none : Option (SN α))).countP
        (fun o => o.elim false (sradix_node_full (2 ^ s))) = 0 := by
      simp [List.countP_eq_length_filter, List.filter_replicate, Option.elim]
    simp only [if_neg (by simp : ¬(false = true)), hz] at hadd2
    omega
  · intro o ho ch hch
    rcases List.mem_or_eq_of_mem_set ho with hmem | rfl
    · rw [List.eq_of_mem_replicate hmem] at hch
      exact absurd hch (Option.noConfusion)
    · injection hch with hch2
      rw [← hch2]
      exact hWF

theorem rx_wrap1_nf {α : Type} (s : Nat) (hs : 1 ≤ s) (g nf : Nat) (hnf : nf ≤ 1)
    (kids : List (Option (SN α))) :
    sradix_node_full (2 ^ s) (SN.node (g + 2) 1 nf kids) = false := by
  have hss2 := rx_two_le_pow s hs
  rw [show sradix_node_full (2 ^ s) (SN.node (g + 2) 1 nf kids) =
    ((nf == 2 ^ s) || ((g + 2 == 1) && (1 == 2 ^ s))) from rfl]
  have h1 : (nf == 2 ^ s) = false := beq_eq_false_iff_ne.mpr (by omega)
  have h2 : (g + 2 == 1) = false := beq_eq_false_iff_ne.mpr (by omega)
  rw [h1, h2, Bool.false_and, Bool.or_false]

theorem rx_wrap1_lookup {α : Type} (s : Nat) (hs : 1 ≤ s) (g nh c nf : Nat)
    (t : SN α) (q : Nat) (hq : q < span s (g + 2)) :
    lookupGo s (2 ^ s - 1) (g + 2)
      (SN.node nh c nf
        ((List.replicate (2 ^ s) (none : Option (SN α))).set 0 (some t))) q =
      (if q < span s (g + 1) then lookupGo s (2 ^ s - 1) (g + 1) t q
       else none) := by
  have hreplen : 0 < (List.replicate (2 ^ s)
      (none : Option (SN α))).length := by
    rw [List.length_replicate]
    have := rx_two_le_pow s hs
    omega
  rw [rx_lookupGo_node]
  have hdlt : q / span s (g + 1) < 2 ^ s := rx_digit_lt s g q hq
  rw [Nat.mod_eq_of_lt hdlt]
  by_cases hq2 : q < span s (g + 1)
  · rw [if_pos hq2]
    have hd0 : q / span s (g + 1) = 0 := rx_div_span_zero s (g + 1) q hq2
    rw [hd0, rx_getD_set_self _ 0 (some t) hreplen]
  · rw [if_neg hq2]
    have hdne : q / span s (g + 1) ≠ 0 := by
      intro h0
      exact hq2 ((Nat.div_eq_zero_iff (rx_span_pos s (g + 1))).mp h0)
    rw [rx_getD_set_ne _ 0 _ (some t) (fun he => hdne he.symm),
      rx_getD_replicate]

theorem rx_wrapLoop_spec {α : Type} (s : Nat) (hs : 1 ≤ s) :
    ∀ (n : Nat) (r : SRoot α) (t : SN α),
      r.rnode = some t → r.shift = s → r.stores_size = 2 ^ s →
      r.mask = 2 ^ s - 1 → 1 ≤ r.height → WFn (2 ^ s) r.height t →
      (wrapLoop n r).shift = s ∧
      (wrapLoop n r).stores_size = 2 ^ s ∧
      (wrapLoop n r).mask = 2 ^ s - 1 ∧
      (wrapLoop n r).min = r.min ∧
      (wrapLoop n r).height = r.height + n ∧
      ∃ t', (wrapLoop n r).rnode = some t' ∧
        WFn (2 ^ s) (r.height + n) t' ∧
        (∀ q, q < span s (r.height + n) →
          lookupGo s (2 ^ s - 1) (r.height + n) t' q =
            (if q < span s r.height
              then lookupGo s (2 ^ s - 1) r.height t q else none)) ∧
        (1 ≤ n → sradix_node_full (2 ^ s) t' = false) ∧
        (n = 0 → t' = t ∧ wrapLoop n r = r) := by
  intro n
  induction n with
  | zero =>
    intro r t hrt hsh hss hmk hh hWF
    refine ⟨hsh, hss, hmk, rfl, rfl, t, hrt, hWF, ?_, ?_, ?_⟩
    · intro q hq
      rw [if_pos (show q < span s r.height from hq)]
      rfl
    · intro h1
      omega
    · intro _
      exact ⟨rfl, rfl⟩
  | succ n ihn =>
    intro r t hrt hsh hss hmk hh hWF
    obtain ⟨g, hg⟩ : ∃ g, r.height = g + 1 := ⟨r.height - 1, by omega⟩
    have hunf : wrapLoop (n + 1) r = wrapLoop n { r with
        rnode := some (SN.node (r.height + 1) 1
          (if sradix_node_full (2 ^ s) t then 1 else 0)
          ((List.replicate (2 ^ s) (none : Option (SN α))).set 0 (some t))),
        height := r.height + 1 } := by
      show (match r.rnode with
        | none => r
        | some old => wrapLoop n { r with
            rnode := some (SN.node (r.height + 1) 1
              (if sradix_node_full r.stores_size old then 1 else 0)
              ((List.replicate r.stores_size
                (none : Option (SN α))).set 0 (some old))),
            height := r.height + 1 }) = _
      rw [hss, hrt]
    have hT : WFn (2 ^ s) (r.height + 1)
        (SN.node (r.height + 1) 1
          (if sradix_node_full (2 ^ s) t then 1 else 0)
          ((List.replicate (2 ^ s) (none : Option (SN α))).set 0
            (some t))) := by
      rw [hg]
      rw [hg] at hWF
      exact rx_wrap1_WF s hs g t hWF
    obtain ⟨b1, b2, b3, b4, b5, t', hrn', hWF', hlk', hnf', hzero⟩ :=
      ihn { r with
          rnode := some (SN.node (r.height + 1) 1
            (if sradix_node_full (2 ^ s) t then 1 else 0)
            ((List.replicate (2 ^ s) (none : Option (SN α))).set 0 (some t))),
          height := r.height + 1 }
        _ rfl hsh hss hmk (by simp) hT
    rw [hunf]
    have harith : r.height + 1 + n = r.height + (n + 1) := by omega
    refine ⟨b1, b2, b3, b4, by rw [b5]; exact harith, t', hrn', ?_, ?_, ?_, ?_⟩
    · rw [← harith]
      exact hWF'
    · intro q hq
      rw [← harith] at hq
      rw [← harith, hlk' q hq]
      by_cases hq1 : q < span s (r.height + 1)
      · rw [if_pos hq1]
        rw [hg]
        rw [hg] at hq1
        rw [rx_wrap1_lookup s hs g _ _ _ t q hq1, ← hg]
      · rw [if_neg hq1]
        have hq2 : ¬(q < span s r.height) := by
          have := rx_span_mono s r.height hs
          omega
        rw [if_neg hq2]
    · intro _
      rcases Nat.eq_zero_or_pos n with hn0 | hn
      · obtain ⟨ht'e, _⟩ := hzero hn0
        rw [ht'e, hg]
        apply rx_wrap1_nf s hs g
        split <;> omega
      · exact hnf' hn
    · intro hcon
      omega

theorem rx_growSteps_zero (s : Nat) : growSteps s 64 0 = 0 := by
  simp [growSteps]

theorem rx_growSteps_one (s : Nat) (hs : 1 ≤ s) : growSteps s 64 1 = 1 := by
  have h1 : (1 : Nat) >>> s = 0 := by
    rw [rx_shr]
    exact Nat.div_eq_of_lt (by have := rx_two_le_pow s hs; omega)
  show (if (1 : Nat) = 0 then 0 else 1 + growSteps s 63 ((1 : Nat) >>> s)) = 1
  rw [if_neg (by omega), h1]
  simp [growSteps]

theorem rx_shr_zero_iff (s h q : Nat) :
    q >>> (s * h) = 0 ↔ q < span s h := by
  rw [rx_shr]
  unfold span
  exact Nat.div_eq_zero_iff (by positivity)

theorem rx_extend_spec {α : Type} (s : Nat) (hs : 1 ≤ s) (r : SRoot α)
    (index : Nat)
    (hsh : r.shift = s) (hss : r.stores_size = 2 ^ s)
    (hmk : r.mask = 2 ^ s - 1)
    (hrt : ∀ t, r.rnode = some t → 1 ≤ r.height ∧ WFn (2 ^ s) r.height t)
    (hempty : r.rnode = none → index = 0)
    (hidx : ∀ t, r.rnode = some t → index ≤ span s r.height) :
    (sradix_tree_extend r index).shift = s ∧
    (sradix_tree_extend r index).stores_size = 2 ^ s ∧
    (sradix_tree_extend r index).mask = 2 ^ s - 1 ∧
    (sradix_tree_extend r index).min = r.min ∧
    1 ≤ (sradix_tree_extend r index).height ∧
    (∃ t', (sradix_tree_extend r index).rnode = some t' ∧
      WFn (2 ^ s) (sradix_tree_extend r index).height t' ∧
      (sradix_node_full (2 ^ s) t' = false ∨ sradix_tree_extend r index = r)) ∧
    index < span s (sradix_tree_extend r index).height ∧
    (∀ q, sradix_tree_lookup (sradix_tree_extend r index) q =
      sradix_tree_lookup r q) := by
  cases hrn : r.rnode with
  | none =>
    have hidx0 := hempty hrn
    subst hidx0
    have heq : sradix_tree_extend r 0 =
        { r with rnode := some (freshSN α r.stores_size 1), height := 1 } := by
      simp only [sradix_tree_extend]
      rw [hrn]
      simp only [Nat.zero_shiftRight, rx_growSteps_zero]
      have h0 : 1 + 0 - 1 = 0 := by omega
      rw [h0]
      simp only [wrapLoop]
    rw [heq]
    refine ⟨hsh, hss, hmk, rfl, le_refl 1, ?_, rx_span_pos s 1, ?_⟩
    · refine ⟨freshSN α r.stores_size 1, rfl, ?_, Or.inl ?_⟩
      · rw [hss]
        exact rx_fresh_WF s 1 (le_refl 1)
      · rw [hss]
        exact rx_fresh_not_full s 1 hs
    · intro q
      have hnone : sradix_tree_lookup r q = none := by
        simp only [sradix_tree_lookup, hrn]
      rw [hnone]
      show (if q >>> (r.shift * 1) ≠ 0 then none
        else lookupGo r.shift r.mask 1 (freshSN α r.stores_size 1) q) = none
      rw [hsh, hmk, hss]
      by_cases hq : q >>> (s * 1) ≠ 0
      · rw [if_pos hq]
      · rw [if_neg hq]
        exact rx_fresh_lookup_none s 1 q
  | some t =>
    obtain ⟨hh, hWF⟩ := hrt t hrn
    have hidx' := hidx t hrn
    rcases Nat.lt_or_ge index (span s r.height) with hlt | hge
    · have hx0 : index >>> (r.shift * r.height) = 0 := by
        rw [hsh]
        exact (rx_shr_zero_iff s r.height index).mpr hlt
      have heq : sradix_tree_extend r index = r := by
        simp only [sradix_tree_extend]
        rw [hrn]
        simp only []
        rw [hx0, rx_growSteps_zero]
        have h0 : r.height + 0 - r.height = 0 := by omega
        rw [h0]
        simp only [wrapLoop]
      rw [heq]
      exact ⟨hsh, hss, hmk, rfl, hh, ⟨t, hrn, hWF, Or.inr rfl⟩, hlt,
        fun _ => rfl⟩
    · have hie : index = span s r.height := le_antisymm hidx' hge
      have hx1 : index >>> (r.shift * r.height) = 1 := by
        rw [hsh, hie, rx_shr]
        unfold span
        exact Nat.div_self (by positivity)
      have heq : sradix_tree_extend r index = wrapLoop 1 r := by
        simp only [sradix_tree_extend]
        rw [hrn]
        simp only []
        rw [hx1, hsh, rx_growSteps_one s hs]
        have h0 : r.height + 1 - r.height = 1 := by omega
        rw [h0]
      obtain ⟨b1, b2, b3, b4, b5, t', hrn', hWF', hlk', hnf', _⟩ :=
        rx_wrapLoop_spec s hs 1 r t hrn hsh hss hmk hh hWF
      rw [heq]
      refine ⟨b1, b2, b3, b4, by rw [b5]; omega,
        ⟨t', hrn', by rw [b5]; exact hWF', Or.inl (hnf' (le_refl 1))⟩,
        ?_, ?_⟩
      · rw [b5, hie]
        exact rx_span_mono s r.height hs
      · intro q
        have hlkR : sradix_tree_lookup r q =
            (if q >>> (s * r.height) ≠ 0 then none
             else lookupGo s (2 ^ s - 1) r.height t q) := by
          simp only [sradix_tree_lookup]
          rw [hrn]
          simp only []
          rw [hsh, hmk]
        have hlkW : sradix_tree_lookup (wrapLoop 1 r) q =
            (if q >>> (s * (r.height + 1)) ≠ 0 then none
             else lookupGo s (2 ^ s - 1) (r.height + 1) t' q) := by
          simp only [sradix_tree_lookup]
          rw [hrn']
          rw [b1, b3, b5]
        rw [hlkW, hlkR]
        rcases Nat.lt_or_ge q (span s r.height) with h1 | h1
        · have h2 : q < span s (r.height + 1) :=
            lt_trans h1 (rx_span_mono s r.height hs)
          rw [if_neg (not_not_intro
              ((rx_shr_zero_iff s (r.height + 1) q).mpr h2)),
            if_neg (not_not_intro ((rx_shr_zero_iff s r.height q).mpr h1)),
            hlk' q h2, if_pos h1]
        · rcases Nat.lt_or_ge q (span s (r.height + 1)) with h2 | h2
          · rw [if_neg (not_not_intro
                ((rx_shr_zero_iff s (r.height + 1) q).mpr h2)),
              if_pos (fun h0 => absurd
                ((rx_shr_zero_iff s r.height q).mp h0) (by omega)),
              hlk' q h2, if_neg (by omega)]
          · rw [if_pos (fun h0 => absurd
                ((rx_shr_zero_iff s (r.height + 1) q).mp h0) (by omega)),
              if_pos (fun h0 => absurd
                ((rx_shr_zero_iff s r.height q).mp h0) (by omega))]

theorem rx_span_add (s a b : Nat) : span s (a + b) = span s a * span s b := by
  unfold span
  rw [Nat.mul_add, pow_add]

theorem rx_heightF_eq {α : Type} (ss : Nat) :
    ∀ (h : Nat) (t : SN α), WFn ss h t → t.heightF = h := by
  intro h t hWF
  match h, t with
  | 0, t => exact absurd hWF (by simp [WFn])
  | 1, .leaf _ _ _ => rfl
  | 1, .node _ _ _ _ => exact absurd hWF (by simp [WFn])
  | g + 2, .leaf _ _ _ => exact absurd hWF (by simp [WFn])
  | g + 2, .node nh c f kids => exact hWF.1

theorem rx_subtree_WF {α : Type} (s : Nat) (g0 index : Nat) :
    ∀ (p : List Nat) (h : Nat) (t : SN α),
      h = g0 + p.length → WFn (2 ^ s) h t → PathTo s h t p index →
      WFn (2 ^ s) g0 (subtreeAt t p) := by
  intro p
  induction p with
  | nil =>
    intro h t hg0 hWF _
    have hg : h = g0 := by simpa using hg0
    subst hg
    exact hWF
  | cons d p2 ihp =>
    intro h t hg0 hWF hpath
    match h, t with
    | 0, t => exact absurd hWF (by simp [WFn])
    | 1, .leaf _ _ _ => exact absurd hpath (by simp [PathTo])
    | 1, .node _ _ _ _ => exact absurd hWF (by simp [WFn])
    | g + 2, .leaf _ _ _ => exact absurd hWF (by simp [WFn])
    | g + 2, .node nh c f kids =>
      obtain ⟨hdd, ch, hchd, hpath'⟩ :
          d = (index >>> ((g + 1) * s)) &&& (2 ^ s - 1) ∧
          ∃ ch, kids.getD d none = some ch ∧
            PathTo s (g + 1) ch p2 index := hpath
      obtain ⟨hnh, hlen, hcC, hfC, hkids⟩ : nh = g + 2 ∧
          kids.length = 2 ^ s ∧
          c = kids.countP Option.isSome ∧
          f = (kids.countP fun o => o.elim false (sradix_node_full (2 ^ s))) ∧
          ∀ o ∈ kids, ∀ ch, o = some ch → WFn (2 ^ s) (g + 1) ch := hWF
      have hdlen : d < kids.length := by
        rcases Nat.lt_or_ge d kids.length with hlt | hge
        · exact hlt
        · rw [List.getD_eq_default _ _ hge] at hchd
          exact absurd hchd (by simp)
      have hchmem : kids.getD d none ∈ kids := by
        rw [List.getD_eq_getElem kids none hdlen]
        exact List.getElem_mem _
      rw [hchd] at hchmem
      have hchWF : WFn (2 ^ s) (g + 1) ch := hkids _ hchmem ch rfl
      have hsub : subtreeAt (SN.node nh c f kids) (d :: p2) =
          subtreeAt ch p2 := by
        simp only [subtreeAt, hchd]
      rw [hsub]
      apply ihp (g + 1) ch ?_ hchWF hpath'
      simp only [List.length_cons] at hg0
      omega

theorem rx_PathTo_lookup {α : Type} (s : Nat) (hs : 1 ≤ s) (g0 index : Nat) :
    ∀ (p : List Nat) (h : Nat) (t : SN α),
      h = g0 + p.length → WFn (2 ^ s) h t → PathTo s h t p index →
      ∀ q, index / span s g0 * span s g0 ≤ q →
        q < index / span s g0 * span s g0 + span s g0 →
        lookupGo s (2 ^ s - 1) h t q =
          lookupGo s (2 ^ s - 1) g0 (subtreeAt t p) q := by
  intro p
  induction p with
  | nil =>
    intro h t hg0 _ _ q _ _
    have hg : h = g0 := by simpa using hg0
    subst hg
    rfl
  | cons d p2 ihp =>
    intro h t hg0 hWF hpath q hq1 hq2
    match h, t with
    | 0, t => exact absurd hWF (by simp [WFn])
    | 1, .leaf _ _ _ => exact absurd hpath (by simp [PathTo])
    | 1, .node _ _ _ _ => exact absurd hWF (by simp [WFn])
    | g + 2, .leaf _ _ _ => exact absurd hWF (by simp [WFn])
    | g + 2, .node nh c f kids =>
      obtain ⟨hdd, ch, hchd, hpath'⟩ :
          d = (index >>> ((g + 1) * s)) &&& (2 ^ s - 1) ∧
          ∃ ch, kids.getD d none = some ch ∧
            PathTo s (g + 1) ch p2 index := hpath
      obtain ⟨hnh, hlen, hcC, hfC, hkids⟩ : nh = g + 2 ∧
          kids.length = 2 ^ s ∧
          c = kids.countP Option.isSome ∧
          f = (kids.countP fun o => o.elim false (sradix_node_full (2 ^ s))) ∧
          ∀ o ∈ kids, ∀ ch, o = some ch → WFn (2 ^ s) (g + 1) ch := hWF
      have hdlen : d < kids.length := by
        rcases Nat.lt_or_ge d kids.length with hlt | hge
        · exact hlt
        · rw [List.getD_eq_default _ _ hge] at hchd
          exact absurd hchd (by simp)
      have hchmem : kids.getD d none ∈ kids := by
        rw [List.getD_eq_getElem kids none hdlen]
        exact List.getElem_mem _
      rw [hchd] at hchmem
      have hchWF : WFn (2 ^ s) (g + 1) ch := hkids _ hchmem ch rfl
      have hsub : subtreeAt (SN.node nh c f kids) (d :: p2) =
          subtreeAt ch p2 := by
        simp only [subtreeAt, hchd]
      have hg0' : g + 1 = g0 + p2.length := by
        simp only [List.length_cons] at hg0
        omega
      have hg0le : g0 ≤ g + 1 := by omega
      have hpos0 : 0 < span s g0 := rx_span_pos s g0
      have hdiveq : q / span s g0 = index / span s g0 := by
        have hq3 : q = index / span s g0 * span s g0 +
            (q - index / span s g0 * span s g0) := by omega
        rw [hq3]
        exact rx_mul_add_div _ _ _ hpos0 (by omega)
      have hspl2 : span s (g + 1) = span s g0 * span s (g + 1 - g0) := by
        rw [← rx_span_add]
        congr 1
        omega
      have hdiveq2 : q / span s (g + 1) = index / span s (g + 1) := by
        rw [hspl2, ← Nat.div_div_eq_div_mul, ← Nat.div_div_eq_div_mul,
          hdiveq]
      have hd2 : d = index / span s (g + 1) % 2 ^ s :=
        hdd.trans (rx_digit_eq s g index)
      have hdigq : q / span s (g + 1) % 2 ^ s = d := by
        rw [hdiveq2, hd2]
      rw [rx_lookupGo_node, hdigq, hchd, hsub]
      exact ihp (g + 1) ch hg0' hchWF hpath' q hq1 hq2

theorem rx_sorted_interval_eq_range :
    ∀ (l : List Nat) (a b : Nat), List.Pairwise (· < ·) l →
      (∀ x, x ∈ l ↔ a ≤ x ∧ x < b) → l = List.range' a (b - a) := by
  intro l
  induction l with
  | nil =>
    intro a b _ hiff
    have hba : b ≤ a := by
      by_contra hc
      push_neg at hc
      exact absurd ((hiff a).mpr ⟨le_refl a, hc⟩) (by simp)
    rw [show b - a = 0 from by omega]
    rfl
  | cons x l2 ihl =>
    intro a b hpw hiff
    obtain ⟨hax, hxb⟩ := (hiff x).mp (by simp)
    have hxa : x = a := by
      rcases Nat.eq_or_lt_of_le hax with he | hlt
      · exact he.symm
      · exfalso
        have hA : a ∈ x :: l2 := (hiff a).mpr ⟨le_refl a, by omega⟩
        rcases List.mem_cons.mp hA with he | hmem
        · omega
        · have := (List.pairwise_cons.mp hpw).1 a hmem
          omega
    subst hxa
    have hpw2 := (List.pairwise_cons.mp hpw).2
    have hgt := (List.pairwise_cons.mp hpw).1
    have hiff2 : ∀ y, y ∈ l2 ↔ x + 1 ≤ y ∧ y < b := by
      intro y
      constructor
      · intro hy
        have h1 := hgt y hy
        have h2 := (hiff y).mp (List.mem_cons_of_mem _ hy)
        omega
      · rintro ⟨h1, h2⟩
        have hy := (hiff y).mpr ⟨by omega, h2⟩
        rcases List.mem_cons.mp hy with he | hmem
        · omega
        · exact hmem
    rw [ihl (x + 1) b hpw2 hiff2]
    rw [show b - x = (b - (x + 1)) + 1 from by omega]
    rfl

theorem rx_pass_post {α : Type} (s : Nat) (hs : 1 ≤ s)
    (r : SRoot α) (pend : List α) (r1 : SRoot α) (T0 T' : SN α) (mo : Nat)
    (log : List (Nat × α)) (stop2 : Option (List Nat))
    (hD : DenseR r) (hsh : r.shift = s)
    (hcap : r.min + pend.length ≤ 2 ^ 30)
    (h1sh : r1.shift = s) (h1ss : r1.stores_size = 2 ^ s)
    (h1mk : r1.mask = 2 ^ s - 1)
    (h1h : 1 ≤ r1.height)
    (hrn1 : r1.rnode = some T0)
    (hpres : ∀ q, sradix_tree_lookup r1 q = sradix_tree_lookup r q)
    (hinr : r.min < span s r1.height)
    (hWF' : WFn (2 ^ s) r1.height T')
    (hbm : r.min ≤ mo ∧
      mo ≤ r.min / span s r1.height * span s r1.height + span s r1.height)
    (hc3 : ∀ e ∈ log, r.min ≤ e.1 ∧ e.1 < mo ∧
      lookupGo s (2 ^ s - 1) r1.height T0 e.1 = none ∧
      lookupGo s (2 ^ s - 1) r1.height T' e.1 = some e.2)
    (hc4 : ∀ q, r.min / span s r1.height * span s r1.height ≤ q →
      q < r.min / span s r1.height * span s r1.height + span s r1.height →
      q ∉ log.map Prod.fst →
      lookupGo s (2 ^ s - 1) r1.height T' q =
        lookupGo s (2 ^ s - 1) r1.height T0 q)
    (hc5 : ∀ q, r.min / span s r1.height * span s r1.height ≤ q → q < mo →
      lookupGo s (2 ^ s - 1) r1.height T' q ≠ none)
    (hlenle : log.length ≤ pend.length)
    (hpw : List.Pairwise (· < ·) (log.map Prod.fst))
    (hc9a : stop2 = none ↔ sradix_node_full (2 ^ s) T' = true)
    (hc9b : ∀ p2, stop2 = some p2 →
      mo < r.min / span s r1.height * span s r1.height + span s r1.height ∧
      PathTo s r1.height T' p2 mo ∧
      sradix_node_full (2 ^ s) (subtreeAt T' p2) = false) :
    ∀ r3e : SRoot α,
      r3e = (if stop2.isNone then
          { r1 with rnode := some T'
                    min := cIntShl1 (r1.height * r1.shift) }
        else { r1 with rnode := some T'
                       min := mo }) →
      DenseR r3e ∧ r3e.shift = s ∧ NodeOk r3e stop2 ∧
      r3e.min = r.min + log.length ∧
      log.map Prod.fst = List.range' r.min log.length ∧
      (∀ e ∈ log, sradix_tree_lookup r3e e.1 = some e.2) ∧
      (∀ q, q < r.min ∨ r.min + log.length ≤ q →
        sradix_tree_lookup r3e q = sradix_tree_lookup r q) := by
  intro r3e hr3e
  obtain ⟨⟨hWshift, hWss, hWmk, hWrt, hWmininv⟩, hdens, hminle, hemp⟩ := hD
  have hB0 : r.min / span s r1.height * span s r1.height = 0 := by
    rw [rx_div_span_zero s r1.height r.min hinr]
    exact Nat.zero_mul _
  have hspos : 0 < span s r1.height := rx_span_pos s r1.height
  have hdt : ∀ q, r.min ≤ q → q < span s r1.height →
      lookupGo s (2 ^ s - 1) r1.height T0 q = none := by
    intro q hq1 hq2
    have h1 : sradix_tree_lookup r1 q = none := by
      rw [hpres]
      exact hdens q hq1
    simp only [sradix_tree_lookup] at h1
    rw [hrn1] at h1
    simp only [] at h1
    rw [h1sh, h1mk] at h1
    rw [if_neg (not_not_intro
      ((rx_shr_zero_iff s r1.height q).mpr hq2))] at h1
    exact h1
  have hbt : ∀ q, q < r.min →
      lookupGo s (2 ^ s - 1) r1.height T0 q ≠ none := by
    intro q hq hcon
    apply hWmininv q hq
    rw [← hpres q]
    simp only [sradix_tree_lookup]
    rw [hrn1]
    simp only []
    rw [h1sh, h1mk, if_neg (not_not_intro
      ((rx_shr_zero_iff s r1.height q).mpr (by omega)))]
    exact hcon
  have hnotin : ∀ q, mo ≤ q → q ∉ log.map Prod.fst := by
    intro q hq hin
    obtain ⟨e, he, hee⟩ := List.mem_map.mp hin
    have := (hc3 e he).2.1
    omega
  have hcov : ∀ q, r.min ≤ q → q < mo → q ∈ log.map Prod.fst := by
    intro q hq1 hq2
    by_contra hnot
    have hun := hc4 q (by omega) (by omega) hnot
    have hz := hdt q hq1 (by omega)
    exact hc5 q (by omega) hq2 (hun.trans hz)
  have hrange : log.map Prod.fst = List.range' r.min (mo - r.min) := by
    apply rx_sorted_interval_eq_range _ _ _ hpw
    intro x
    constructor
    · intro hx
      obtain ⟨e, he, hee⟩ := List.mem_map.mp hx
      have h1 := (hc3 e he).1
      have h2 := (hc3 e he).2.1
      omega
    · rintro ⟨h1, h2⟩
      exact hcov x h1 h2
  have hloglen : log.length = mo - r.min := by
    have := congrArg List.length hrange
    rw [List.length_map, List.length_range'] at this
    exact this
  have hmospan : stop2 = none → mo = span s r1.height := by
    intro hst
    have hfT := hc9a.mp hst
    rcases Nat.lt_or_ge mo (span s r1.height) with hlt | hge
    · exfalso
      have hnn := (rx_full_iff s hs r1.height T' hWF').mp hfT mo hlt
      have hun := hc4 mo (by omega) (by omega) (hnotin mo (le_refl mo))
      exact hnn (hun.trans (hdt mo hbm.1 hlt))
    · omega
  have hsent : stop2 = none → cIntShl1 (r1.height * r1.shift) = mo := by
    intro hst
    have hmo := hmospan hst
    have hsk : s * r1.height ≤ 30 := by
      have h1 : span s r1.height ≤ 2 ^ 30 := by omega
      have h2 : (2 : Nat) ^ (s * r1.height) ≤ 2 ^ 30 := h1
      exact (Nat.pow_le_pow_iff_right (by omega)).mp h2
    rw [h1sh]
    have hcm : r1.height * s = s * r1.height := Nat.mul_comm _ _
    show (if (r1.height * s) % 32 ≤ 30 then 2 ^ ((r1.height * s) % 32)
      else 2 ^ 64 - 2 ^ 31) = mo
    have hmod : (r1.height * s) % 32 = r1.height * s :=
      Nat.mod_eq_of_lt (by omega)
    rw [hmod, if_pos (by omega), hmo]
    show 2 ^ (r1.height * s) = 2 ^ (s * r1.height)
    rw [hcm]
  have hr3min : r3e.min = mo := by
    rw [hr3e]
    by_cases hst : stop2 = none
    · rw [hst]
      show cIntShl1 (r1.height * r1.shift) = mo
      exact hsent hst
    · obtain ⟨p2, hp2⟩ := Option.ne_none_iff_exists'.mp hst
      rw [hp2]
      rfl
  have hr3f : r3e.rnode = some T' ∧ r3e.shift = r1.shift ∧
      r3e.mask = r1.mask ∧ r3e.height = r1.height ∧
      r3e.stores_size = r1.stores_size := by
    rw [hr3e]
    by_cases hst : stop2 = none
    · rw [hst]
      exact ⟨rfl, rfl, rfl, rfl, rfl⟩
    · obtain ⟨p2, hp2⟩ := Option.ne_none_iff_exists'.mp hst
      rw [hp2]
      exact ⟨rfl, rfl, rfl, rfl, rfl⟩
  have hlk3 : ∀ q, sradix_tree_lookup r3e q =
      (if q >>> (s * r1.height) ≠ 0 then none
       else lookupGo s (2 ^ s - 1) r1.height T' q) := by
    intro q
    simp only [sradix_tree_lookup]
    rw [hr3f.1]
    simp only []
    rw [hr3f.2.1, hr3f.2.2.1, hr3f.2.2.2.1, h1sh, h1mk]
  have hmosp : mo ≤ span s r1.height := by omega
  refine ⟨?_, ?_, ?_, ?_, ?_, ?_, ?_⟩
  · refine ⟨⟨?_, ?_, ?_, ?_, ?_⟩, ?_, ?_, ?_⟩
    · rw [hr3f.2.1, h1sh]
      exact hs
    · rw [hr3f.2.2.2.2, hr3f.2.1, h1ss, h1sh]
    · rw [hr3f.2.2.1, hr3f.2.2.2.2, h1mk, h1ss]
    · intro t ht
      rw [hr3f.1] at ht
      injection ht with ht2
      rw [← ht2, hr3f.2.2.2.1, hr3f.2.2.2.2, h1ss]
      exact ⟨h1h, hWF'⟩
    · intro p hp
      rw [hr3min] at hp
      rw [hlk3 p, if_neg (not_not_intro
        ((rx_shr_zero_iff s r1.height p).mpr (by omega)))]
      exact hc5 p (by omega) hp
    · intro q hq
      rw [hr3min] at hq
      rw [hlk3 q]
      rcases Nat.lt_or_ge q (span s r1.height) with hlt | hge
      · rw [if_neg (not_not_intro
          ((rx_shr_zero_iff s r1.height q).mpr hlt))]
        rw [hc4 q (by omega) (by omega) (hnotin q hq)]
        exact hdt q (by omega) hlt
      · rw [if_pos (fun h0 => absurd
          ((rx_shr_zero_iff s r1.height q).mp h0) (by omega))]
    · rw [hr3min, hr3f.2.1, hr3f.2.2.2.1, h1sh]
      exact hmosp
    · intro hcon
      rw [hr3f.1] at hcon
      exact absurd hcon (by simp)
  · rw [hr3f.2.1, h1sh]
  · intro p2 hp2
    obtain ⟨hmolt, hPT, hnfT⟩ := hc9b p2 hp2
    refine ⟨T', hr3f.1, Or.inr (Or.inr ⟨?_, ?_⟩)⟩
    · rw [hr3f.2.1, h1sh, hr3f.2.2.2.1, hr3min]
      exact hPT
    · rw [hr3f.2.2.2.2, h1ss]
      exact hnfT
  · rw [hr3min]
    omega
  · rw [hrange, hloglen]
  · intro e he
    obtain ⟨h1, h2, _, h4⟩ := hc3 e he
    rw [hlk3 e.1, if_neg (not_not_intro
      ((rx_shr_zero_iff s r1.height e.1).mpr (by omega)))]
    exact h4
  · intro q hq
    rw [hlk3 q, ← hpres q]
    simp only [sradix_tree_lookup]
    rw [hrn1]
    simp only []
    rw [h1sh, h1mk]
    rcases Nat.lt_or_ge q (span s r1.height) with hlt | hge
    · have hn := not_not_intro ((rx_shr_zero_iff s r1.height q).mpr hlt)
      rw [if_neg hn, if_neg hn]
      apply hc4 q (by omega) (by omega)
      rcases hq with hq | hq
      · intro hin
        obtain ⟨e, he, hee⟩ := List.mem_map.mp hin
        have := (hc3 e he).1
        omega
      · exact hnotin q (by omega)
    · have hp : q >>> (s * r1.height) ≠ 0 := fun h0 => absurd
        ((rx_shr_zero_iff s r1.height q).mp h0) (by omega)
      rw [if_pos hp, if_pos hp]

theorem rx_PathTo_len {α : Type} (s index : Nat) :
    ∀ (p : List Nat) (h : Nat) (t : SN α),
      WFn (2 ^ s) h t → PathTo s h t p index → p.length + 1 ≤ h := by
  intro p
  induction p with
  | nil =>
    intro h t hWF _
    match h with
    | 0 => exact absurd hWF (by simp [WFn])
    | g + 1 => simp
  | cons d p2 ihp =>
    intro h t hWF hpath
    match h, t with
    | 0, t => exact absurd hWF (by simp [WFn])
    | 1, .leaf _ _ _ => exact absurd hpath (by simp [PathTo])
    | 1, .node _ _ _ _ => exact absurd hWF (by simp [WFn])
    | g + 2, .leaf _ _ _ => exact absurd hWF (by simp [WFn])
    | g + 2, .node nh c f kids =>
      obtain ⟨hdd, ch, hchd, hpath'⟩ :
          d = (index >>> ((g + 1) * s)) &&& (2 ^ s - 1) ∧
          ∃ ch, kids.getD d none = some ch ∧
            PathTo s (g + 1) ch p2 index := hpath
      obtain ⟨hnh, hlen, hcC, hfC, hkids⟩ : nh = g + 2 ∧
          kids.length = 2 ^ s ∧
          c = kids.countP Option.isSome ∧
          f = (kids.countP fun o => o.elim false (sradix_node_full (2 ^ s))) ∧
          ∀ o ∈ kids, ∀ ch, o = some ch → WFn (2 ^ s) (g + 1) ch := hWF
      have hdlen : d < kids.length := by
        rcases Nat.lt_or_ge d kids.length with hlt | hge
        · exact hlt
        · rw [List.getD_eq_default _ _ hge] at hchd
          exact absurd hchd (by simp)
      have hchmem : kids.getD d none ∈ kids := by
        rw [List.getD_eq_getElem kids none hdlen]
        exact List.getElem_mem _
      rw [hchd] at hchmem
      have := ihp (g + 1) ch (hkids _ hchmem ch rfl) hpath'
      simp only [List.length_cons]
      omega

theorem rx_enterPass_spec {α : Type} (s : Nat) (hs : 1 ≤ s) (r : SRoot α)
    (np : Option (List Nat)) (pend : List α)
    (hD : DenseR r) (hNP : NodeOk r np) (hsh : r.shift = s)
    (hcap : r.min + pend.length ≤ 2 ^ 30) :
    DenseR (enterPass r np pend).root ∧
    (enterPass r np pend).root.shift = s ∧
    NodeOk (enterPass r np pend).root (enterPass r np pend).stop ∧
    (enterPass r np pend).root.min =
      r.min + (enterPass r np pend).log.length ∧
    (enterPass r np pend).log.map Prod.fst =
      List.range' r.min (enterPass r np pend).log.length ∧
    (∀ e ∈ (enterPass r np pend).log,
      sradix_tree_lookup (enterPass r np pend).root e.1 = some e.2) ∧
    (∀ q, q < r.min ∨ r.min + (enterPass r np pend).log.length ≤ q →
      sradix_tree_lookup (enterPass r np pend).root q =
        sradix_tree_lookup r q) ∧
    (enterPass r np pend).rest =
      pend.drop (enterPass r np pend).log.length ∧
    (enterPass r np pend).log.length ≤ pend.length ∧
    (pend ≠ [] → (enterPass r np pend).log ≠ []) := by
  obtain ⟨⟨hWshift, hWss, hWmk, hWrt, hWmininv⟩, hdens, hminle, hemp⟩ := id hD
  have hss2 : r.stores_size = 2 ^ s := by rw [hWss, hsh]
  have hmk2 : r.mask = 2 ^ s - 1 := by rw [hWmk, hss2]
  by_cases hne : (np.isNone || (r.min >>> (r.shift * r.height) != 0) ||
      (match r.rnode with
       | none => true
       | some t => sradix_node_full r.stores_size t)) = true
  · obtain ⟨e1, e2, e3, e4, e5, ⟨T0, hrnE, hWT0, hnfor⟩, e7, e8⟩ :=
      rx_extend_spec s hs r r.min hsh hss2 hmk2
        (fun t ht => hWrt t ht |>.imp id (fun hw => by rwa [hss2] at hw))
        hemp (fun t ht => by rw [← hsh]; exact hminle)
    have hnf0 : sradix_node_full (2 ^ s) T0 = false := by
      rcases Bool.eq_false_or_eq_true (sradix_node_full (2 ^ s) T0) with
        hfl | hfl
      · exfalso
        have hlk := (rx_full_iff s hs _ T0 hWT0).mp hfl r.min e7
        apply hlk
        have hd := hdens r.min (le_refl _)
        rw [← e8 r.min] at hd
        simp only [sradix_tree_lookup] at hd
        rw [hrnE] at hd
        simp only [] at hd
        rw [e1, e3] at hd
        rw [if_neg (not_not_intro
          ((rx_shr_zero_iff s _ r.min).mpr e7))] at hd
        exact hd
      · exact hfl
    have hbelow : ∀ q,
        r.min / span s (sradix_tree_extend r r.min).height *
          span s (sradix_tree_extend r r.min).height ≤ q → q < r.min →
        lookupGo s (2 ^ s - 1) (sradix_tree_extend r r.min).height T0 q ≠
          none := by
      intro q _ hq2 hcon
      apply hWmininv q hq2
      rw [← e8 q]
      simp only [sradix_tree_lookup]
      rw [hrnE]
      simp only []
      rw [e1, e3]
      rw [if_neg (not_not_intro
        ((rx_shr_zero_iff s _ q).mpr (by omega)))]
      exact hcon
    rcases hout : enterAt s (2 ^ s) (2 ^ s - 1)
        (sradix_tree_extend r r.min).height T0 r.min pend with
      ⟨T', mo, log, rest, stop'⟩
    obtain ⟨aWF, abm, a3, a4, a5, a6, a7, a8, ⟨a9a, a9b⟩, a10⟩ :=
      rx_enterAt_spec s hs (sradix_tree_extend r r.min).height T0 r.min pend
        T' mo log rest stop' hout hWT0 hnf0 hbelow
    have hhf : T0.heightF = (sradix_tree_extend r r.min).height :=
      rx_heightF_eq (2 ^ s) _ T0 hWT0
    have hkey : enterPass r np pend = ⟨(if stop'.isNone then
        { sradix_tree_extend r r.min with rnode := some T'
                                          min := cIntShl1
                                            ((sradix_tree_extend r r.min).height *
                                              (sradix_tree_extend r r.min).shift) }
      else { sradix_tree_extend r r.min with rnode := some T'
                                             min := mo }), log, rest, stop'⟩ := by
      simp only [enterPass]
      rw [if_pos hne, if_pos hne, hrnE]
      simp only []
      rw [show subtreeAt T0 ([] : List Nat) = T0 from rfl]
      rw [hhf, e1, e2, e3, hout]
      rfl
    obtain ⟨P1, P2, P3, P4, P5, P6, P7⟩ :=
      rx_pass_post s hs r pend (sradix_tree_extend r r.min) T0 T' mo log
        stop' hD hsh hcap e1 e2 e3 e5 hrnE e8 e7 aWF abm a3 a4 a5 a6.2 a8
        a9a a9b _ rfl
    rw [hkey]
    exact ⟨P1, P2, P3, P4, P5, P6, P7, a6.1, a6.2, a7⟩
  · have hnef := Bool.of_not_eq_true hne
    rw [Bool.or_eq_false_iff, Bool.or_eq_false_iff] at hnef
    obtain ⟨⟨hA, hB⟩, hC⟩ := hnef
    have hminlt : r.min < span s r.height := by
      have hB0 : r.min >>> (r.shift * r.height) = 0 := by simpa using hB
      rw [hsh] at hB0
      exact (rx_shr_zero_iff s r.height r.min).mp hB0
    obtain ⟨p, hnp⟩ : ∃ p, np = some p := by
      cases hnpv : np with
      | none => rw [hnpv] at hA; exact absurd hA (by simp)
      | some p => exact ⟨p, rfl⟩
    have hCN : r.rnode ≠ none := by
      intro h0
      rw [h0] at hC
      simp only [] at hC
      exact absurd hC (by simp)
    obtain ⟨t2, hrn⟩ : ∃ t2, r.rnode = some t2 :=
      Option.ne_none_iff_exists'.mp hCN
    · obtain ⟨t2x, hrt2, hdisj⟩ := hNP p hnp
      rw [hrn] at hrt2
      injection hrt2 with ht2e
      subst ht2e
      obtain ⟨hPT, hnfsub⟩ :
          PathTo r.shift r.height t2 p r.min ∧
          sradix_node_full r.stores_size (subtreeAt t2 p) = false := by
        have hCfull : sradix_node_full r.stores_size t2 = false := by
          rw [hrn] at hC
          simpa using hC
        rcases hdisj with hfl | hoor | hok
        · rw [hCfull] at hfl
          exact absurd hfl (by simp)
        · rw [hsh] at hoor
          omega
        · exact hok
      obtain ⟨hh1, hWFt0⟩ := hWrt t2 hrn
      have hWFt : WFn (2 ^ s) r.height t2 := by rwa [hss2] at hWFt0
      rw [hsh] at hPT
      rw [hss2] at hnfsub
      have hplen := rx_PathTo_len s r.min p r.height t2 hWFt hPT
      have hg0 : r.height = (r.height - p.length) + p.length := by omega
      have hWFa : WFn (2 ^ s) (r.height - p.length) (subtreeAt t2 p) :=
        rx_subtree_WF s (r.height - p.length) r.min p r.height t2 hg0 hWFt
          hPT
      have hhf : (subtreeAt t2 p).heightF = r.height - p.length :=
        rx_heightF_eq (2 ^ s) _ _ hWFa
      have hbelowRoot : ∀ q,
          r.min / span s r.height * span s r.height ≤ q → q < r.min →
          lookupGo s (2 ^ s - 1) r.height t2 q ≠ none := by
        intro q _ hq2 hcon
        apply hWmininv q hq2
        simp only [sradix_tree_lookup]
        rw [hrn]
        simp only []
        rw [hsh, hmk2]
        rw [if_neg (not_not_intro
          ((rx_shr_zero_iff s r.height q).mpr (by omega)))]
        exact hcon
      have hbelowSub : ∀ q,
          r.min / span s (r.height - p.length) *
            span s (r.height - p.length) ≤ q → q < r.min →
          lookupGo s (2 ^ s - 1) (r.height - p.length) (subtreeAt t2 p) q ≠
            none := by
        intro q hq1 hq2
        rw [← rx_PathTo_lookup s hs (r.height - p.length) r.min p r.height
          t2 hg0 hWFt hPT q hq1 (by
            have h1 := rx_lt_base_add (span s (r.height - p.length)) r.min
              (rx_span_pos s (r.height - p.length))
            omega)]
        exact hbelowRoot q (by
          rw [rx_div_span_zero s r.height r.min hminlt, Nat.zero_mul]
          exact Nat.zero_le q) hq2
      rcases hout : enterAt s (2 ^ s) (2 ^ s - 1) (r.height - p.length)
          (subtreeAt t2 p) r.min pend with ⟨T'sub, mo, log, rest, stopsub⟩
      obtain ⟨aWF, abm, a3, a4, a5, a6, a7, a8, ⟨a9a, a9b⟩, a10⟩ :=
        rx_enterAt_spec s hs (r.height - p.length) (subtreeAt t2 p) r.min
          pend T'sub mo log rest stopsub hout hWFa hnfsub hbelowSub
      rcases hreb : rebuildAt (2 ^ s) t2 p T'sub stopsub with ⟨T', stop2⟩
      obtain ⟨RWF, Rbm, R3, R4, R5, R9a, R9b⟩ :=
        rx_rebuildAt_spec s hs (r.height - p.length) r.min mo pend T'sub log
          rest stopsub aWF abm a6 a7 a8 a9a a9b a10 p r.height t2 T' stop2
          hreb hg0 hWFt hPT hnfsub hbelowRoot a3 a4 a5
      have hkey : enterPass r np pend = ⟨(if stop2.isNone then
          { r with rnode := some T'
                   min := cIntShl1 (r.height * r.shift) }
        else { r with rnode := some T'
                      min := mo }), log, rest, stop2⟩ := by
        simp only [enterPass]
        rw [if_neg hne, if_neg hne, hrn]
        simp only []
        rw [hnp]
        rw [show (some p).getD ([] : List Nat) = p from rfl]
        rw [hhf, hsh, hss2, hmk2, hout]
        simp only []
        rw [hreb]
      obtain ⟨P1, P2, P3, P4, P5, P6, P7⟩ :=
        rx_pass_post s hs r pend r t2 T' mo log stop2 hD hsh hcap hsh hss2
          hmk2 hh1 hrn (fun q => rfl) hminlt RWF Rbm R3 R4 R5 a6.2 a8 R9a
          R9b _ rfl
      rw [hkey]
      exact ⟨P1, P2, P3, P4, P5, P6, P7, a6.1, a6.2, a7⟩

theorem rx_enterLoop_spec {α : Type} (s : Nat) (hs : 1 ≤ s) :
    ∀ (fuel : Nat) (r : SRoot α) (np : Option (List Nat)) (pend : List α),
      DenseR r → NodeOk r np → r.shift = s →
      r.min + pend.length ≤ 2 ^ 30 →
      pend.length + 1 ≤ fuel →
      DenseR (enterLoop fuel r np pend).1 ∧
      (enterLoop fuel r np pend).1.shift = s ∧
      (enterLoop fuel r np pend).1.min =
        r.min + (enterLoop fuel r np pend).2.length ∧
      (enterLoop fuel r np pend).2.length = pend.length ∧
      (enterLoop fuel r np pend).2.map Prod.fst =
        List.range' r.min pend.length ∧
      (∀ e ∈ (enterLoop fuel r np pend).2,
        sradix_tree_lookup (enterLoop fuel r np pend).1 e.1 = some e.2) ∧
      (∀ q, q < r.min ∨ r.min + pend.length ≤ q →
        sradix_tree_lookup (enterLoop fuel r np pend).1 q =
          sradix_tree_lookup r q) := by
  intro fuel
  induction fuel with
  | zero =>
    intro r np pend _ _ _ _ hfu
    exact absurd hfu (by omega)
  | succ fuel ihf =>
    intro r np pend hD hNP hsh hcap hfu
    obtain ⟨Q1, Q2, Q3, Q4, Q5, Q6, Q7, Q8, Q9, Q10⟩ :=
      rx_enterPass_spec s hs r np pend hD hNP hsh hcap
    by_cases hre : (enterPass r np pend).rest.isEmpty = true
    · have hkey : enterLoop (fuel + 1) r np pend =
          ((enterPass r np pend).root, (enterPass r np pend).log) := by
        simp only [enterLoop]
        rw [if_pos hre]
      have hrnil : (enterPass r np pend).rest = [] :=
        List.isEmpty_iff.mp hre
      have hlen : (enterPass r np pend).log.length = pend.length := by
        rw [hrnil] at Q8
        have := List.drop_eq_nil_iff.mp Q8.symm
        omega
      rw [hkey]
      exact ⟨Q1, Q2, by rw [hlen] at Q4 ⊢; exact Q4, hlen,
        by rw [← hlen]; exact Q5, Q6, fun q hq => Q7 q (by omega)⟩
    · have hrne : (enterPass r np pend).rest ≠ [] := by
        intro h0
        apply hre
        rw [h0]
        rfl
      have hpne : pend ≠ [] := by
        intro h0
        apply hrne
        rw [Q8, h0]
        exact List.drop_nil
      have hlne := Q10 hpne
      have hl1 : 1 ≤ (enterPass r np pend).log.length := by
        rcases hl : (enterPass r np pend).log with _ | ⟨e, l2⟩
        · exact absurd hl hlne
        · simp
      have hrlen : (enterPass r np pend).rest.length =
          pend.length - (enterPass r np pend).log.length := by
        rw [Q8, List.length_drop]
      obtain ⟨I1, I2, I3, I4, I5, I6, I7⟩ :=
        ihf (enterPass r np pend).root (enterPass r np pend).stop
          (enterPass r np pend).rest Q1 Q3 Q2
          (by rw [hrlen, Q4]; omega) (by rw [hrlen]; omega)
      have hkey : enterLoop (fuel + 1) r np pend =
          ((enterLoop fuel (enterPass r np pend).root
              (enterPass r np pend).stop (enterPass r np pend).rest).1,
            (enterPass r np pend).log ++
              (enterLoop fuel (enterPass r np pend).root
                (enterPass r np pend).stop (enterPass r np pend).rest).2) := by
        simp only [enterLoop]
        rw [if_neg hre]
      rw [hkey]
      refine ⟨I1, I2, ?_, ?_, ?_, ?_, ?_⟩
      · rw [List.length_append, I3, Q4, I4, hrlen]
        omega
      · rw [List.length_append, I4, hrlen]
        omega
      · rw [List.map_append, Q5, I5, Q4, hrlen]
        have hap := List.range'_append_1 r.min
          (enterPass r np pend).log.length
          (pend.length - (enterPass r np pend).log.length)
        rw [hap]
        congr 1
        omega
      · intro e he
        rcases List.mem_append.mp he with hm | hm
        · have h1 := (Q6 e hm)
          have h2 := Q5
          have hin : e.1 ∈ (enterPass r np pend).log.map Prod.fst :=
            List.mem_map_of_mem Prod.fst hm
          rw [h2] at hin
          have hbnd := List.mem_range'_1.mp hin
          rw [I7 e.1 (Or.inl (by rw [Q4]; omega))]
          exact h1
        · exact I6 e hm
      · intro q hq
        rw [I7 q (by rw [Q4, hrlen]; omega)]
        exact Q7 q (by omega)

theorem rx_PathTo_nil {α : Type} (s h : Nat) (t : SN α) (m : Nat) :
    PathTo s h t [] m := by
  match h, t with
  | 0, .leaf _ _ _ => exact trivial
  | 0, .node _ _ _ _ => exact trivial
  | 1, .leaf _ _ _ => exact trivial
  | 1, .node _ _ _ _ => exact trivial
  | h + 2, .leaf _ _ _ => exact trivial
  | h + 2, .node _ _ _ _ => exact trivial

theorem rx_enter_spec {α : Type} (s : Nat) (hs : 1 ≤ s) (r : SRoot α)
    (items : List α) (hD : DenseR r) (hsh : r.shift = s)
    (hcap : r.min + items.length ≤ 2 ^ 30) :
    DenseR (sradix_tree_enter r items).1 ∧
    (sradix_tree_enter r items).1.shift = s ∧
    (sradix_tree_enter r items).1.min = r.min + items.length ∧
    (sradix_tree_enter r items).2.length = items.length ∧
    (sradix_tree_enter r items).2.map Prod.fst =
      List.range' r.min items.length ∧
    (∀ e ∈ (sradix_tree_enter r items).2,
      sradix_tree_lookup (sradix_tree_enter r items).1 e.1 = some e.2) ∧
    (∀ q, q < r.min ∨ r.min + items.length ≤ q →
      sradix_tree_lookup (sradix_tree_enter r items).1 q =
        sradix_tree_lookup r q) := by
  have hNP : NodeOk r (match r.rnode with
      | none => none
      | some _ => some ([] : List Nat)) := by
    intro p hp
    by_cases hrn : r.rnode = none
    · rw [hrn] at hp
      simp only [] at hp
      exact absurd hp (by simp)
    · obtain ⟨t, hrt⟩ := Option.ne_none_iff_exists'.mp hrn
      rw [hrt] at hp
      simp only [] at hp
      injection hp with hpe
      subst hpe
      refine ⟨t, hrt, ?_⟩
      rcases Bool.eq_false_or_eq_true (sradix_node_full r.stores_size t)
        with hf | hf
      · exact Or.inl hf
      · exact Or.inr (Or.inr ⟨rx_PathTo_nil r.shift r.height t r.min, hf⟩)
  have hkey : sradix_tree_enter r items = enterLoop (items.length + 1) r
      (match r.rnode with
       | none => none
       | some _ => some ([] : List Nat)) items := rfl
  obtain ⟨I1, I2, I3, I4, I5, I6, I7⟩ := rx_enterLoop_spec s hs
    (items.length + 1) r
    (match r.rnode with
     | none => none
     | some _ => some ([] : List Nat)) items hD hNP hsh hcap (le_refl _)
  rw [hkey]
  exact ⟨I1, I2, by rw [I3, I4], I4, I5, I6, I7⟩

theorem rx_init_DenseR (α : Type) (s : Nat) (hs : 1 ≤ s) :
    DenseR (init_sradix_tree_root α s) ∧
    (init_sradix_tree_root α s).shift = s ∧
    (init_sradix_tree_root α s).min = 0 := by
  refine ⟨⟨⟨hs, ?_, rfl, ?_, ?_⟩, ?_, ?_, fun _ => rfl⟩, rfl, rfl⟩
  · show 1 <<< s = 2 ^ s
    rw [Nat.one_shiftLeft]
  · intro t ht
    exact absurd ht (by simp [init_sradix_tree_root])
  · intro p hp
    exact absurd (show p < 0 from hp) (by omega)
  · intro q _
    rfl
  · show (0 : Nat) ≤ span s 0
    exact Nat.zero_le _

theorem rx_runEnters_go {α : Type} (s : Nat) (hs : 1 ≤ s) :
    ∀ (batches : List (List α)) (r : SRoot α) (acc : List (Nat × α)),
      DenseR r → r.shift = s →
      r.min + (batches.map List.length).sum ≤ 2 ^ 30 →
      acc.map Prod.fst = List.range' 0 r.min →
      (∀ e ∈ acc, sradix_tree_lookup r e.1 = some e.2) →
      DenseR (batches.foldl (fun acc2 b =>
        ((sradix_tree_enter acc2.1 b).1,
          acc2.2 ++ (sradix_tree_enter acc2.1 b).2)) (r, acc)).1 ∧
      (batches.foldl (fun acc2 b =>
        ((sradix_tree_enter acc2.1 b).1,
          acc2.2 ++ (sradix_tree_enter acc2.1 b).2)) (r, acc)).1.shift = s ∧
      (batches.foldl (fun acc2 b =>
        ((sradix_tree_enter acc2.1 b).1,
          acc2.2 ++ (sradix_tree_enter acc2.1 b).2)) (r, acc)).1.min =
        r.min + (batches.map List.length).sum ∧
      (batches.foldl (fun acc2 b =>
        ((sradix_tree_enter acc2.1 b).1,
          acc2.2 ++ (sradix_tree_enter acc2.1 b).2)) (r, acc)).2.map
          Prod.fst =
        List.range' 0 (r.min + (batches.map List.length).sum) ∧
      (∀ e ∈ (batches.foldl (fun acc2 b =>
          ((sradix_tree_enter acc2.1 b).1,
            acc2.2 ++ (sradix_tree_enter acc2.1 b).2)) (r, acc)).2,
        sradix_tree_lookup (batches.foldl (fun acc2 b =>
          ((sradix_tree_enter acc2.1 b).1,
            acc2.2 ++ (sradix_tree_enter acc2.1 b).2)) (r, acc)).1 e.1 =
          some e.2) := by
  intro batches
  induction batches with
  | nil =>
    intro r acc hD hsh hcap hacc hlk
    simp only [List.foldl_nil]
    refine ⟨hD, hsh, by simp, by simpa using hacc, hlk⟩
  | cons b bs ihb =>
    intro r acc hD hsh hcap hacc hlk
    simp only [List.foldl_cons]
    have hcapb : r.min + b.length ≤ 2 ^ 30 := by
      simp only [List.map_cons, List.sum_cons] at hcap
      omega
    obtain ⟨E1, E2, E3, E4, E5, E6, E7⟩ :=
      rx_enter_spec s hs r b hD hsh hcapb
    have hacc2 : (acc ++ (sradix_tree_enter r b).2).map Prod.fst =
        List.range' 0 (sradix_tree_enter r b).1.min := by
      rw [List.map_append, hacc, E5, E3]
      have hap := List.range'_append_1 0 r.min b.length
      rw [show (0 : Nat) + r.min = r.min from by omega] at hap
      rw [hap]
      congr 1
      omega
    have hlk2 : ∀ e ∈ acc ++ (sradix_tree_enter r b).2,
        sradix_tree_lookup (sradix_tree_enter r b).1 e.1 = some e.2 := by
      intro e he
      rcases List.mem_append.mp he with hm | hm
      · have hin : e.1 ∈ acc.map Prod.fst := List.mem_map_of_mem Prod.fst hm
        rw [hacc] at hin
        have hbnd := List.mem_range'_1.mp hin
        rw [E7 e.1 (Or.inl (by omega))]
        exact hlk e hm
      · exact E6 e hm
    have hcap2 : (sradix_tree_enter r b).1.min +
        (bs.map List.length).sum ≤ 2 ^ 30 := by
      rw [E3]
      simp only [List.map_cons, List.sum_cons] at hcap
      omega
    obtain ⟨F1, F2, F3, F4, F5⟩ := ihb (sradix_tree_enter r b).1
      (acc ++ (sradix_tree_enter r b).2) E1 E2 hcap2 hacc2 hlk2
    refine ⟨F1, F2, ?_, ?_, F5⟩
    · rw [F3, E3]
      simp only [List.map_cons, List.sum_cons]
      omega
    · rw [F4, E3]
      simp only [List.map_cons, List.sum_cons]
      congr 1
      omega

/-- Claim C1: for every sequence of bulk insertions via `enter` into a sparse
radix tree, every index that received an item looks up to exactly the item
placed there, and every index never assigned (beyond the assigned range, or
in an empty tree) looks up to "not found"; the assigned indices are exactly
`0, 1, …, total−1`.  (The concrete scenario with `shift = 2` and five items
is checked in the accompanying witness.) -/
theorem radix_enter_lookup_consistency (α : Type) (s : Nat) (hs : 1 ≤ s)
    (batches : List (List α))
    (hcap : (batches.map List.length).sum ≤ 2 ^ 30) :
    ((runEnters α s batches).2.map Prod.fst =
      List.range' 0 (batches.map List.length).sum) ∧
    (∀ e ∈ (runEnters α s batches).2,
      sradix_tree_lookup (runEnters α s batches).1 e.1 = some e.2) ∧
    (∀ i, i ∉ (runEnters α s batches).2.map Prod.fst →
      sradix_tree_lookup (runEnters α s batches).1 i = none) := by
  obtain ⟨hD, hsh, hmin⟩ := rx_init_DenseR α s hs
  have hkey : runEnters α s batches = batches.foldl (fun acc2 b =>
      ((sradix_tree_enter acc2.1 b).1,
        acc2.2 ++ (sradix_tree_enter acc2.1 b).2))
      (init_sradix_tree_root α s, []) := rfl
  obtain ⟨F1, F2, F3, F4, F5⟩ := rx_runEnters_go s hs batches
    (init_sradix_tree_root α s) [] hD hsh (by rw [hmin]; omega)
    (by rw [hmin]; simp) (by intro e he; exact absurd he (List.not_mem_nil e))
  rw [hkey]
  refine ⟨?_, F5, ?_⟩
  · rw [F4, hmin, Nat.zero_add]
  · intro i hni
    rw [F4] at hni
    have hge : (batches.map List.length).sum ≤ i := by
      by_contra hlt
      exact hni (List.mem_range'_1.mpr ⟨Nat.zero_le i, by omega⟩)
    exact F1.2.1 i (by rw [F3, hmin]; omega)

theorem radix_enter_lookup_consistency_witness :
    ((1 ≤ 2 ∧
      ((([[10, 20, 30, 40, 50]] : List (List Nat)).map List.length).sum ≤
        2 ^ 30)) ∧
     (∀ e ∈ (runEnters Nat 2 [[10, 20, 30, 40, 50]]).2,
       sradix_tree_lookup (runEnters Nat 2 [[10, 20, 30, 40, 50]]).1 e.1 =
         some e.2)) ∧
    (runEnters Nat 2 [[10, 20, 30, 40, 50]]).1.height = 2 ∧
    sradix_tree_lookup (runEnters Nat 2 [[10, 20, 30, 40, 50]]).1 0 =
      some 10 ∧
    sradix_tree_lookup (runEnters Nat 2 [[10, 20, 30, 40, 50]]).1 4 =
      some 50 ∧
    sradix_tree_lookup (runEnters Nat 2 [[10, 20, 30, 40, 50]]).1 5 = none ∧
    sradix_tree_lookup (runEnters Nat 2 [[10, 20, 30, 40, 50], [60]]).1 5 =
      some 60 :=
  ⟨⟨⟨by decide, by decide⟩,
    (radix_enter_lookup_consistency Nat 2 (by decide) [[10, 20, 30, 40, 50]]
      (by decide)).2.1⟩,
   by decide, by decide, by decide, by decide, by decide⟩

theorem rx_countP_zero_getD {α : Type} (l : List (Option α)) (m : Nat)
    (h : l.countP Option.isSome = 0) : l.getD m none = none := by
  by_cases hm : m < l.length
  · rw [List.getD_eq_getElem l none hm]
    have := (List.countP_eq_zero.mp h) _ (List.getElem_mem hm)
    simpa using this
  · exact List.getD_eq_default _ _ (by omega)

theorem rx_all_none_getD {α : Type} (l : List (Option α)) (m : Nat)
    (h : ∀ a ∈ l, a = none) : l.getD m none = none := by
  by_cases hm : m < l.length
  · rw [List.getD_eq_getElem l none hm]
    exact h _ (List.getElem_mem hm)
  · exact List.getD_eq_default _ _ (by omega)

theorem rx_countP_one_unique {α : Type} :
    ∀ (l : List (Option α)) (i j : Nat), i ≠ j →
      l.getD i none ≠ none → l.countP Option.isSome = 1 →
      l.getD j none = none := by
  intro l
  induction l with
  | nil => intro i j _ hi _; exact absurd rfl hi
  | cons a t ih =>
    intro i j hne hi hc
    rw [List.countP_cons] at hc
    cases j with
    | zero =>
      cases i with
      | zero => exact absurd rfl hne
      | succ m =>
        rw [List.getD_cons_succ] at hi
        have hpos : 0 < t.countP Option.isSome := by
          by_contra h0
          exact hi (rx_countP_zero_getD t m (by omega))
        cases a with
        | none => rw [List.getD_cons_zero]
        | some x =>
          exfalso
          simp at hc
          have h0 : t.countP Option.isSome = 0 :=
            List.countP_eq_zero.mpr (fun b hb => by rw [hc b hb]; simp)
          omega
    | succ k =>
      cases i with
      | zero =>
        rw [List.getD_cons_zero] at hi
        rw [List.getD_cons_succ]
        cases a with
        | none => exact absurd rfl hi
        | some x =>
          simp at hc
          exact rx_all_none_getD t k hc
      | succ m =>
        rw [List.getD_cons_succ] at hi ⊢
        cases a with
        | none =>
          simp at hc
          exact ih m k (by omega) hi hc
        | some x =>
          simp at hc
          exact absurd hi (fun hcon => hcon (rx_all_none_getD t m hc))

theorem rx_fulls_le_count {α : Type} (ss : Nat) (kids : List (Option (SN α))) :
    (kids.countP fun o => o.elim false (sradix_node_full ss)) ≤
      kids.countP Option.isSome :=
  List.countP_mono_left (fun a _ hp => by
    cases a with
    | none => exact absurd hp (by simp)
    | some ch => simp)

theorem rx_mem_of_getD {α : Type} (l : List (Option α)) (i : Nat) (ch : α)
    (h : l.getD i none = some ch) : some ch ∈ l := by
  by_cases hi : i < l.length
  · rw [List.getD_eq_getElem l none hi] at h
    rw [← h]
    exact List.getElem_mem hi
  · rw [List.getD_eq_default _ _ (by omega)] at h
    cases h

theorem rx_getD_lt_length {α : Type} (l : List (Option α)) (i : Nat) (ch : α)
    (h : l.getD i none = some ch) : i < l.length := by
  by_contra hi
  rw [List.getD_eq_default _ _ (by omega)] at h
  cases h

theorem rx_mod_span_decomp (s h x : Nat) :
    x % span s (h + 2) =
      x % span s (h + 1) + span s (h + 1) * (x / span s (h + 1) % 2 ^ s) := by
  rw [rx_span_succ]
  exact Nat.mod_mul

theorem rx_deleteAt_spec {α : Type} (s : Nat) (hs : 1 ≤ s) :
    ∀ (h : Nat) (t : SN α) (index : Nat),
      WFn (2 ^ s) h t →
      lookupGo s (2 ^ s - 1) h t index ≠ none →
      ((deleteAt s (2 ^ s) (2 ^ s - 1) h t index).2.1.length =
        emptiedChainLen s (2 ^ s) (2 ^ s - 1) h t index) ∧
      ((deleteAt s (2 ^ s) (2 ^ s - 1) h t index).1 = none →
        (deleteAt s (2 ^ s) (2 ^ s - 1) h t index).2.1.length = h ∧
        sradix_node_full (2 ^ s) t = false ∧
        (∀ q, q % span s h ≠ index % span s h →
          lookupGo s (2 ^ s - 1) h t q = none)) ∧
      (∀ t', (deleteAt s (2 ^ s) (2 ^ s - 1) h t index).1 = some t' →
        WFn (2 ^ s) h t' ∧
        (deleteAt s (2 ^ s) (2 ^ s - 1) h t index).2.1.length < h ∧
        lookupGo s (2 ^ s - 1) h t' index = none ∧
        (∀ q, q % span s h ≠ index % span s h →
          lookupGo s (2 ^ s - 1) h t' q = lookupGo s (2 ^ s - 1) h t q) ∧
        ((deleteAt s (2 ^ s) (2 ^ s - 1) h t index).2.2 = true →
          sradix_node_full (2 ^ s) t = true ∧
          sradix_node_full (2 ^ s) t' = false) ∧
        ((deleteAt s (2 ^ s) (2 ^ s - 1) h t index).2.2 = false →
          sradix_node_full (2 ^ s) t' = sradix_node_full (2 ^ s) t) ∧
        (Inhab h t → Inhab h t') ∧
        ((deleteAt s (2 ^ s) (2 ^ s - 1) h t index).2.1 = [] →
          ∀ nh0 c0 f0 kids0, t = SN.node nh0 c0 f0 kids0 →
            ∃ nh2 f2 kids2, t' = SN.node nh2 c0 f2 kids2 ∧
              ∀ j, (kids2.getD j none = none ↔
                kids0.getD j none = none))) := by
  intro h
  induction h using Nat.strong_induction_on with
  | _ h IH =>
    match h with
    | 0 => intro t index hW _; exact hW.elim
    | 1 =>
      intro t index hW hpres
      match t with
      | .node _ _ _ _ => exact hW.elim
      | .leaf c f items =>
        obtain ⟨hlen, hcnt, hf0⟩ := hW
        rw [rx_lookupGo_leaf] at hpres
        have hss2 : 2 ≤ 2 ^ s := rx_two_le_pow s hs
        have hc1 : 1 ≤ c := by
          rw [hcnt]
          by_contra h0
          exact hpres (rx_countP_zero_getD items _ (by omega))
        have hcle : c ≤ 2 ^ s := by
          rw [hcnt, ← hlen]
          exact items.countP_le_length Option.isSome
        have hidx : index &&& (2 ^ s - 1) = index % 2 ^ s := rx_and_mask index s
        have hilt : index % 2 ^ s < items.length := by
          rw [hlen]
          exact Nat.mod_lt _ (by omega)
        by_cases hcz : c - 1 = 0
        · have hkey : deleteAt s (2 ^ s) (2 ^ s - 1) 1 (SN.leaf c f items)
              index = (none, [SN.leaf 0 f items], false) := by
            simp only [deleteAt]
            rw [if_pos hcz]
          refine ⟨?_, ?_, ?_⟩
          · rw [hkey]
            simp only [emptiedChainLen]
            rw [if_pos (by omega : c = 1)]
            rfl
          · intro _
            refine ⟨by rw [hkey]; rfl, ?_, ?_⟩
            · show (f == 2 ^ s || c == 2 ^ s) = false
              have e1 : (f == 2 ^ s) = false :=
                beq_eq_false_iff_ne.mpr (by omega)
              have e2 : (c == 2 ^ s) = false :=
                beq_eq_false_iff_ne.mpr (by omega)
              rw [e1, e2]
              rfl
            · intro q hq
              rw [rx_lookupGo_leaf]
              rw [rx_span_one] at hq
              exact rx_countP_one_unique items (index % 2 ^ s) (q % 2 ^ s)
                (Ne.symm hq) hpres (by omega)
          · intro t' ht'
            rw [hkey] at ht'
            exact Option.noConfusion ht'
        · have hkey : deleteAt s (2 ^ s) (2 ^ s - 1) 1 (SN.leaf c f items)
              index = (some (SN.leaf (c - 1) f
                (items.set (index &&& (2 ^ s - 1)) none)), [],
                c - 1 == 2 ^ s - 1) := by
            simp only [deleteAt]
            rw [if_neg hcz]
          obtain ⟨y, hy⟩ := Option.ne_none_iff_exists'.mp hpres
          have hcount : (items.set (index % 2 ^ s) none).countP
              Option.isSome = c - 1 := by
            have h1 := rx_countP_set_add Option.isSome items (index % 2 ^ s)
              none hilt
            rw [hy] at h1
            simp at h1
            omega
          refine ⟨?_, ?_, ?_⟩
          · rw [hkey]
            simp only [emptiedChainLen]
            rw [if_neg (by omega : ¬ c = 1)]
            rfl
          · intro habs
            rw [hkey] at habs
            exact Option.noConfusion habs
          · intro t' ht'
            rw [hkey] at ht'
            injection ht' with hte
            subst hte
            rw [hidx]
            refine ⟨⟨by rw [List.length_set]; exact hlen, hcount.symm, hf0⟩,
              by rw [hkey]; simp, ?_, ?_, ?_, ?_, ?_, ?_⟩
            · rw [rx_lookupGo_leaf]
              exact rx_getD_set_self items _ none hilt
            · intro q hq
              rw [rx_span_one] at hq
              rw [rx_lookupGo_leaf, rx_lookupGo_leaf]
              exact rx_getD_set_ne items _ _ none (Ne.symm hq)
            · intro hfl
              rw [hkey] at hfl
              have hfeq : c = 2 ^ s := by
                have := beq_iff_eq.mp hfl
                omega
              constructor
              · show (f == 2 ^ s || c == 2 ^ s) = true
                rw [hfeq]
                simp
              · show (f == 2 ^ s || c - 1 == 2 ^ s) = false
                have e1 : (f == 2 ^ s) = false :=
                  beq_eq_false_iff_ne.mpr (by omega)
                have e2 : (c - 1 == 2 ^ s) = false :=
                  beq_eq_false_iff_ne.mpr (by omega)
                rw [e1, e2]
                rfl
            · intro hfl
              rw [hkey] at hfl
              have hne : c ≠ 2 ^ s := by
                have := beq_eq_false_iff_ne.mp hfl
                omega
              show (f == 2 ^ s || c - 1 == 2 ^ s) =
                (f == 2 ^ s || c == 2 ^ s)
              have e1 : (c - 1 == 2 ^ s) = false :=
                beq_eq_false_iff_ne.mpr (by omega)
              have e2 : (c == 2 ^ s) = false :=
                beq_eq_false_iff_ne.mpr (by omega)
              rw [e1, e2]
            · intro _
              show 1 ≤ c - 1
              omega
            · intro _ nh0 c0 f0 kids0 habs
              exact SN.noConfusion habs
    | h + 2 =>
      intro t index hW hpres
      match t with
      | .leaf _ _ _ => exact hW.elim
      | .node nh c f kids =>
        obtain ⟨hnh, hlen, hcnt, hful, hkWF⟩ := hW
        have hss2 : 2 ≤ 2 ^ s := rx_two_le_pow s hs
        have hd : (index >>> ((h + 1) * s)) &&& (2 ^ s - 1) =
            index / span s (h + 1) % 2 ^ s := rx_digit_eq s h index
        rw [rx_lookupGo_node] at hpres
        cases hch : kids.getD (index / span s (h + 1) % 2 ^ s) none with
        | none =>
          rw [hch] at hpres
          exact absurd rfl hpres
        | some ch =>
          rw [hch] at hpres
          have hchWF : WFn (2 ^ s) (h + 1) ch :=
            hkWF _ (rx_mem_of_getD _ _ _ hch) ch rfl
          have hpres' : lookupGo s (2 ^ s - 1) (h + 1) ch index ≠ none := hpres
          obtain ⟨S1, S2, S3⟩ := IH (h + 1) (by omega) ch index hchWF hpres'
          have hdlen : index / span s (h + 1) % 2 ^ s < kids.length := by
            rw [hlen]
            exact Nat.mod_lt _ (by omega)
          have hcpos : 1 ≤ c := by
            rw [hcnt]
            exact List.countP_pos_iff.mpr
              ⟨some ch, rx_mem_of_getD _ _ _ hch, by simp⟩
          have hfle : f ≤ c := by
            rw [hful, hcnt]
            exact rx_fulls_le_count _ _
          have hfcle : f ≤ 2 ^ s := by
            rw [hful, ← hlen]
            exact kids.countP_le_length _
          have hECL : emptiedChainLen s (2 ^ s) (2 ^ s - 1) (h + 2)
              (SN.node nh c f kids) index =
              (if emptiedChainLen s (2 ^ s) (2 ^ s - 1) (h + 1) ch index =
                  h + 1 ∧ c = 1
               then h + 2
               else emptiedChainLen s (2 ^ s) (2 ^ s - 1) (h + 1) ch
                 index) := by
            simp only [emptiedChainLen]
            rw [hd, hch]
          have hdel : deleteAt s (2 ^ s) (2 ^ s - 1) (h + 2)
              (SN.node nh c f kids) index =
              (match (deleteAt s (2 ^ s) (2 ^ s - 1) (h + 1) ch index).1 with
               | none =>
                 if c - 1 = 0 then
                   (none,
                    (deleteAt s (2 ^ s) (2 ^ s - 1) (h + 1) ch index).2.1 ++
                      [SN.node nh 0 f kids], false)
                 else
                   (some (SN.node nh (c - 1) f
                      (kids.set (index / span s (h + 1) % 2 ^ s) none)),
                    (deleteAt s (2 ^ s) (2 ^ s - 1) (h + 1) ch index).2.1,
                    false)
               | some ch' =>
                 (some (SN.node nh c
                    (if (deleteAt s (2 ^ s) (2 ^ s - 1) (h + 1) ch
                        index).2.2 then f - 1 else f)
                    (kids.set (index / span s (h + 1) % 2 ^ s) (some ch'))),
                  (deleteAt s (2 ^ s) (2 ^ s - 1) (h + 1) ch index).2.1,
                  (deleteAt s (2 ^ s) (2 ^ s - 1) (h + 1) ch index).2.2 &&
                    ((if (deleteAt s (2 ^ s) (2 ^ s - 1) (h + 1) ch
                        index).2.2 then f - 1 else f) == 2 ^ s - 1))) := by
            simp only [deleteAt]
            rw [hd, hch]
          have hmodarg : ∀ q, q % span s (h + 2) ≠ index % span s (h + 2) →
              q / span s (h + 1) % 2 ^ s = index / span s (h + 1) % 2 ^ s →
              q % span s (h + 1) ≠ index % span s (h + 1) := by
            intro q hq hdq heq
            exact hq (by rw [rx_mod_span_decomp, rx_mod_span_decomp, heq,
              hdq])
          cases hsub : (deleteAt s (2 ^ s) (2 ^ s - 1) (h + 1) ch index).1
            with
          | none =>
            obtain ⟨N1, N2, N3⟩ := S2 hsub
            by_cases hcz : c - 1 = 0
            · have hc1 : c = 1 := by omega
              have hres : deleteAt s (2 ^ s) (2 ^ s - 1) (h + 2)
                  (SN.node nh c f kids) index =
                  (none,
                   (deleteAt s (2 ^ s) (2 ^ s - 1) (h + 1) ch index).2.1 ++
                     [SN.node nh 0 f kids], false) := by
                rw [hdel, hsub]
                simp only []
                rw [if_pos hcz]
              have honly : ∀ q, q % span s (h + 2) ≠ index % span s (h + 2) →
                  lookupGo s (2 ^ s - 1) (h + 2) (SN.node nh c f kids) q =
                    none := by
                intro q hq
                rw [rx_lookupGo_node]
                by_cases hdq : q / span s (h + 1) % 2 ^ s =
                    index / span s (h + 1) % 2 ^ s
                · rw [hdq, hch]
                  exact N3 q (hmodarg q hq hdq)
                · have hnone : kids.getD (q / span s (h + 1) % 2 ^ s) none =
                      none :=
                    rx_countP_one_unique kids _ _ (Ne.symm hdq)
                      (by rw [hch]; exact Option.some_ne_none ch) (by omega)
                  rw [hnone]
              refine ⟨?_, ?_, ?_⟩
              · rw [hres, hECL]
                rw [if_pos ⟨by rw [← S1]; exact N1, hc1⟩]
                rw [List.length_append, N1]
                rfl
              · intro _
                refine ⟨?_, ?_, honly⟩
                · rw [hres]
                  rw [List.length_append, N1]
                  rfl
                · show (f == 2 ^ s || (nh == 1 && c == 2 ^ s)) = false
                  have e1 : (f == 2 ^ s) = false :=
                    beq_eq_false_iff_ne.mpr (by omega)
                  have e2 : (nh == 1) = false :=
                    beq_eq_false_iff_ne.mpr (by omega)
                  rw [e1, e2]
                  rfl
              · intro t' ht'
                rw [hres] at ht'
                exact Option.noConfusion ht'
            · have hres : deleteAt s (2 ^ s) (2 ^ s - 1) (h + 2)
                  (SN.node nh c f kids) index =
                  (some (SN.node nh (c - 1) f
                     (kids.set (index / span s (h + 1) % 2 ^ s) none)),
                   (deleteAt s (2 ^ s) (2 ^ s - 1) (h + 1) ch index).2.1,
                   false) := by
                rw [hdel, hsub]
                simp only []
                rw [if_neg hcz]
              refine ⟨?_, ?_, ?_⟩
              · rw [hres, hECL]
                rw [if_neg (fun hand => absurd hand.2 (by omega))]
                exact S1
              · intro habs
                rw [hres] at habs
                exact Option.noConfusion habs
              · intro t' ht'
                rw [hres] at ht'
                injection ht' with hte
                subst hte
                have hcount : (kids.set (index / span s (h + 1) % 2 ^ s)
                    none).countP Option.isSome = c - 1 := by
                  have h1 := rx_countP_set_add Option.isSome kids
                    (index / span s (h + 1) % 2 ^ s) none hdlen
                  rw [hch] at h1
                  simp at h1
                  omega
                have hfull2 : (kids.set (index / span s (h + 1) % 2 ^ s)
                    none).countP
                      (fun o => o.elim false (sradix_node_full (2 ^ s))) =
                    f := by
                  have h2 := rx_countP_set_add
                    (fun o => o.elim false (sradix_node_full (2 ^ s))) kids
                    (index / span s (h + 1) % 2 ^ s) none hdlen
                  rw [hch] at h2
                  simp [N2] at h2
                  omega
                refine ⟨⟨hnh, by rw [List.length_set]; exact hlen,
                  hcount.symm, hfull2.symm, ?_⟩, ?_, ?_, ?_, ?_, ?_, ?_, ?_⟩
                · intro o ho ch2 hoch2
                  rcases List.mem_or_eq_of_mem_set ho with hmem | heq
                  · exact hkWF o hmem ch2 hoch2
                  · rw [heq] at hoch2
                    exact Option.noConfusion hoch2
                · rw [hres, N1]
                  omega
                · rw [rx_lookupGo_node]
                  rw [rx_getD_set_self kids _ none hdlen]
                · intro q hq
                  rw [rx_lookupGo_node, rx_lookupGo_node]
                  by_cases hdq : q / span s (h + 1) % 2 ^ s =
                      index / span s (h + 1) % 2 ^ s
                  · rw [hdq]
                    rw [rx_getD_set_self kids _ none hdlen, hch]
                    exact (N3 q (hmodarg q hq hdq)).symm
                  · rw [rx_getD_set_ne kids _ _ none (Ne.symm hdq)]
                · intro hfl
                  rw [hres] at hfl
                  exact Bool.noConfusion hfl
                · intro _
                  show (f == 2 ^ s || (nh == 1 && c - 1 == 2 ^ s)) =
                    (f == 2 ^ s || (nh == 1 && c == 2 ^ s))
                  have e2 : (nh == 1) = false :=
                    beq_eq_false_iff_ne.mpr (by omega)
                  rw [e2]
                  simp only [Bool.false_and]
                · intro hI
                  obtain ⟨hIc, hIk⟩ := hI
                  refine ⟨by omega, ?_⟩
                  intro o ho ch2 hoch2
                  rcases List.mem_or_eq_of_mem_set ho with hmem | heq
                  · exact hIk o hmem ch2 hoch2
                  · rw [heq] at hoch2
                    exact Option.noConfusion hoch2
                · intro hemp
                  rw [hres] at hemp
                  exfalso
                  have hle := congrArg List.length hemp
                  rw [N1] at hle
                  simp at hle
          | some ch' =>
            obtain ⟨W', hlenlt, hlk', hunch', hflT, hflF, hInh, hShp⟩ := S3 ch' hsub
            have hres : deleteAt s (2 ^ s) (2 ^ s - 1) (h + 2)
                (SN.node nh c f kids) index =
                (some (SN.node nh c
                   (if (deleteAt s (2 ^ s) (2 ^ s - 1) (h + 1) ch
                       index).2.2 then f - 1 else f)
                   (kids.set (index / span s (h + 1) % 2 ^ s) (some ch'))),
                 (deleteAt s (2 ^ s) (2 ^ s - 1) (h + 1) ch index).2.1,
                 (deleteAt s (2 ^ s) (2 ^ s - 1) (h + 1) ch index).2.2 &&
                   ((if (deleteAt s (2 ^ s) (2 ^ s - 1) (h + 1) ch
                       index).2.2 then f - 1 else f) == 2 ^ s - 1)) := by
              rw [hdel, hsub]
            refine ⟨?_, ?_, ?_⟩
            · rw [hres, hECL]
              have hne1 : emptiedChainLen s (2 ^ s) (2 ^ s - 1) (h + 1) ch
                  index ≠ h + 1 := by
                rw [← S1]
                omega
              have hnand : ¬(emptiedChainLen s (2 ^ s) (2 ^ s - 1)
                  (h + 1) ch index = h + 1 ∧ c = 1) := fun hand =>
                hne1 hand.1
              rw [if_neg hnand]
              exact S1
            · intro habs
              rw [hres] at habs
              exact Option.noConfusion habs
            · intro t' ht'
              rw [hres] at ht'
              injection ht' with hte
              subst hte
              have hcount : (kids.set (index / span s (h + 1) % 2 ^ s)
                  (some ch')).countP Option.isSome = c :=
                (rx_countP_set_some_some kids _ ch' ch hdlen hch).trans
                  hcnt.symm
              refine ⟨?_, ?_, ?_, ?_, ?_, ?_, ?_, ?_⟩
              · refine ⟨hnh, by rw [List.length_set]; exact hlen,
                  hcount.symm, ?_, ?_⟩
                · have h2 := rx_countP_set_add
                    (fun o => o.elim false (sradix_node_full (2 ^ s))) kids
                    (index / span s (h + 1) % 2 ^ s) (some ch') hdlen
                  rw [hch] at h2
                  simp only [Option.elim_some] at h2
                  cases hflag : (deleteAt s (2 ^ s) (2 ^ s - 1) (h + 1) ch
                      index).2.2 with
                  | true =>
                    obtain ⟨hfc, hfc'⟩ := hflT hflag
                    simp only [hfc, hfc'] at h2
                    simp at h2
                    have hfpos : 0 < kids.countP
                        (fun o => o.elim false (sradix_node_full (2 ^ s))) :=
                      List.countP_pos_iff.mpr ⟨some ch,
                        rx_mem_of_getD _ _ _ hch, by simpa using hfc⟩
                    show f - 1 = (kids.set (index / span s (h + 1) % 2 ^ s)
                      (some ch')).countP
                        (fun o => o.elim false (sradix_node_full (2 ^ s)))
                    omega
                  | false =>
                    have hff := hflF hflag
                    simp only [hff] at h2
                    show f = (kids.set (index / span s (h + 1) % 2 ^ s)
                      (some ch')).countP
                        (fun o => o.elim false (sradix_node_full (2 ^ s)))
                    rcases Bool.eq_false_or_eq_true
                        (sradix_node_full (2 ^ s) ch) with hfc | hfc
                    · simp only [hfc] at h2
                      simp at h2
                      omega
                    · simp only [hfc] at h2
                      simp at h2
                      omega
                · intro o ho ch2 hoch2
                  rcases List.mem_or_eq_of_mem_set ho with hmem | heq
                  · exact hkWF o hmem ch2 hoch2
                  · rw [heq] at hoch2
                    injection hoch2 with he2
                    rw [← he2]
                    exact W'
              · rw [hres]
                show (deleteAt s (2 ^ s) (2 ^ s - 1) (h + 1) ch
                  index).2.1.length < h + 2
                omega
              · rw [rx_lookupGo_node]
                rw [rx_getD_set_self kids _ (some ch') hdlen]
                exact hlk'
              · intro q hq
                rw [rx_lookupGo_node, rx_lookupGo_node]
                by_cases hdq : q / span s (h + 1) % 2 ^ s =
                    index / span s (h + 1) % 2 ^ s
                · rw [hdq]
                  rw [rx_getD_set_self kids _ (some ch') hdlen, hch]
                  exact hunch' q (hmodarg q hq hdq)
                · rw [rx_getD_set_ne kids _ _ (some ch') (Ne.symm hdq)]
              · intro hfl
                rw [hres] at hfl
                obtain ⟨h1f, h2f⟩ := Bool.and_eq_true_iff.mp hfl
                obtain ⟨hfc, hfc'⟩ := hflT h1f
                rw [h1f] at h2f
                have h2f2 : (f - 1 == 2 ^ s - 1) = true := h2f
                have hfm : f - 1 = 2 ^ s - 1 := beq_iff_eq.mp h2f2
                have hfpos : 0 < kids.countP
                    (fun o => o.elim false (sradix_node_full (2 ^ s))) :=
                  List.countP_pos_iff.mpr ⟨some ch,
                    rx_mem_of_getD _ _ _ hch, by simpa using hfc⟩
                have hfeq : f = 2 ^ s := by omega
                constructor
                · show (f == 2 ^ s || (nh == 1 && c == 2 ^ s)) = true
                  rw [hfeq]
                  simp
                · show ((if (deleteAt s (2 ^ s) (2 ^ s - 1) (h + 1) ch
                      index).2.2 then f - 1 else f) == 2 ^ s ||
                    (nh == 1 && c == 2 ^ s)) = false
                  rw [h1f]
                  show ((f - 1 == 2 ^ s) || (nh == 1 && c == 2 ^ s)) = false
                  have e1 : (f - 1 == 2 ^ s) = false :=
                    beq_eq_false_iff_ne.mpr (by omega)
                  have e2 : (nh == 1) = false :=
                    beq_eq_false_iff_ne.mpr (by omega)
                  rw [e1, e2]
                  rfl
              · intro hfl
                rw [hres] at hfl
                cases h1f : (deleteAt s (2 ^ s) (2 ^ s - 1) (h + 1) ch
                    index).2.2 with
                | true =>
                  rw [h1f] at hfl
                  have hfm : f - 1 ≠ 2 ^ s - 1 :=
                    beq_eq_false_iff_ne.mp (by simpa using hfl)
                  obtain ⟨hfc, hfc'⟩ := hflT h1f
                  have hfpos : 0 < kids.countP
                      (fun o => o.elim false (sradix_node_full (2 ^ s))) :=
                    List.countP_pos_iff.mpr ⟨some ch,
                      rx_mem_of_getD _ _ _ hch, by simpa using hfc⟩
                  show ((f - 1 == 2 ^ s) || (nh == 1 && c == 2 ^ s)) =
                    (f == 2 ^ s || (nh == 1 && c == 2 ^ s))
                  have e1 : (f - 1 == 2 ^ s) = false :=
                    beq_eq_false_iff_ne.mpr (by omega)
                  have e2 : (f == 2 ^ s) = false :=
                    beq_eq_false_iff_ne.mpr (by omega)
                  rw [e1, e2]
                | false =>
                  show ((f == 2 ^ s) || (nh == 1 && c == 2 ^ s)) =
                    (f == 2 ^ s || (nh == 1 && c == 2 ^ s))
                  rfl
              · intro hI
                obtain ⟨hIc, hIk⟩ := hI
                refine ⟨hIc, ?_⟩
                intro o ho ch2 hoch2
                rcases List.mem_or_eq_of_mem_set ho with hmem | heq
                · exact hIk o hmem ch2 hoch2
                · rw [heq] at hoch2
                  injection hoch2 with he2
                  rw [← he2]
                  exact hInh (hIk _ (rx_mem_of_getD _ _ _ hch) ch rfl)
              · intro _ nh0 c0 f0 kids0 hteq
                injection hteq with e1 e2 e3 e4
                refine ⟨nh, (if (deleteAt s (2 ^ s) (2 ^ s - 1) (h + 1) ch
                    index).2.2 = true then f - 1 else f),
                  kids.set (index / span s (h + 1) % 2 ^ s) (some ch'),
                  by rw [← e2], ?_⟩
                intro j
                subst e4
                by_cases hj : j = index / span s (h + 1) % 2 ^ s
                · subst hj
                  rw [rx_getD_set_self kids _ (some ch') hdlen, hch]
                  simp
                · rw [rx_getD_set_ne kids _ _ (some ch')
                    (fun he => hj he.symm)]

theorem rx_blocked_intro {α : Type} (r : SRoot α)
    (h : ∀ nh c f kids, r.rnode = some (SN.node nh c f kids) →
      r.height ≤ 1 ∨ c ≠ 1 ∨ kids.getD 0 none = none) :
    shrinkBlocked r := by
  unfold shrinkBlocked
  match hr : r.rnode with
  | none => exact trivial
  | some (SN.leaf c f items) => exact trivial
  | some (SN.node nh c f kids) => exact h nh c f kids hr

theorem rx_blocked_elim {α : Type} (r : SRoot α) (nh c f : Nat)
    (kids : List (Option (SN α))) (hB : shrinkBlocked r)
    (hr : r.rnode = some (SN.node nh c f kids)) :
    r.height ≤ 1 ∨ c ≠ 1 ∨ kids.getD 0 none = none := by
  unfold shrinkBlocked at hB
  rw [hr] at hB
  exact hB

theorem rx_shrinkLoop_spec {α : Type} :
    ∀ (n : Nat) (r : SRoot α), WFR r →
      WFR (shrinkLoop n r) ∧
      (shrinkLoop n r).shift = r.shift ∧
      (shrinkLoop n r).stores_size = r.stores_size ∧
      (shrinkLoop n r).mask = r.mask ∧
      (shrinkLoop n r).min = r.min ∧
      (∀ q, sradix_tree_lookup (shrinkLoop n r) q =
        sradix_tree_lookup r q) ∧
      (rootInhab r → rootInhab (shrinkLoop n r)) ∧
      (r.height ≤ n → shrinkBlocked (shrinkLoop n r)) ∧
      (r.rnode ≠ none → (shrinkLoop n r).rnode ≠ none) := by
  intro n
  induction n with
  | zero =>
    intro r hW
    refine ⟨hW, rfl, rfl, rfl, rfl, fun q => rfl, id, ?_, fun hx => hx⟩
    intro hle
    apply rx_blocked_intro
    intro nh c f kids hr
    exact absurd (hW.2.2.2.1 _ hr).1 (by omega)
  | succ n ih =>
    intro r hW
    by_cases h1 : r.height ≤ 1
    · have hkey : shrinkLoop (n + 1) r = r := by
        simp only [shrinkLoop]
        rw [if_pos h1]
      rw [hkey]
      refine ⟨hW, rfl, rfl, rfl, rfl, fun q => rfl, id, ?_, fun hx => hx⟩
      intro _
      apply rx_blocked_intro
      intro nh c f kids hr
      exact Or.inl h1
    · cases hr : r.rnode with
      | none =>
        have hkey : shrinkLoop (n + 1) r = r := by
          simp only [shrinkLoop]
          rw [if_neg h1, hr]
        rw [hkey]
        refine ⟨hW, rfl, rfl, rfl, rfl, fun q => rfl, id, ?_, fun hx => absurd rfl hx⟩
        intro _
        apply rx_blocked_intro
        intro nh c f kids hr2
        rw [hr] at hr2
        exact Option.noConfusion hr2
      | some t =>
        obtain ⟨hhge, hWn⟩ := hW.2.2.2.1 t hr
        obtain ⟨hh, hhh⟩ : ∃ hh, r.height = hh + 2 := ⟨r.height - 2, by omega⟩
        match t with
        | .leaf c0 f0 items =>
          rw [hhh] at hWn
          exact hWn.elim
        | .node nh c f kids =>
          rw [hhh] at hWn
          obtain ⟨hnh, hlen, hcnt, hful, hkWF⟩ := hWn
          by_cases hc1 : c ≠ 1
          · have hkey : shrinkLoop (n + 1) r = r := by
              simp only [shrinkLoop]
              rw [if_neg h1, hr]
              simp only []
              rw [if_pos hc1]
            rw [hkey]
            refine ⟨hW, rfl, rfl, rfl, rfl, fun q => rfl, id, ?_, fun hx => by rw [hr]; exact fun habs => Option.noConfusion habs⟩
            intro _
            apply rx_blocked_intro
            intro nh2 c2 f2 kids2 hr2
            rw [hr] at hr2
            injection hr2 with ht
            injection ht with e1 e2 e3 e4
            exact Or.inr (Or.inl (by omega))
          · cases hk0 : kids.getD 0 none with
            | none =>
              have hkey : shrinkLoop (n + 1) r = r := by
                simp only [shrinkLoop]
                rw [if_neg h1, hr]
                simp only []
                rw [if_neg hc1, hk0]
              rw [hkey]
              refine ⟨hW, rfl, rfl, rfl, rfl, fun q => rfl, id, ?_, fun hx => by rw [hr]; exact fun habs => Option.noConfusion habs⟩
              intro _
              apply rx_blocked_intro
              intro nh2 c2 f2 kids2 hr2
              rw [hr] at hr2
              injection hr2 with ht
              injection ht with e1 e2 e3 e4
              refine Or.inr (Or.inr ?_)
              rw [← e4]
              exact hk0
            | some child =>
              have hc : c = 1 := by omega
              have hkey : shrinkLoop (n + 1) r = shrinkLoop n
                  { r with rnode := some child, height := r.height - 1 } := by
                simp only [shrinkLoop]
                rw [if_neg h1, hr]
                simp only []
                rw [if_neg hc1, hk0]
              have hsp : r.stores_size = 2 ^ r.shift := hW.2.1
              have hmk : r.mask = 2 ^ r.shift - 1 := by
                rw [hW.2.2.1, hsp]
              have hs1 : 1 ≤ r.shift := hW.1
              have hss2 : 2 ≤ 2 ^ r.shift := rx_two_le_pow _ hs1
              have hchildWF : WFn (2 ^ r.shift) (hh + 1) child := by
                rw [← hsp]
                exact hkWF _ (rx_mem_of_getD _ _ _ hk0) child rfl
              have hcnt1 : kids.countP Option.isSome = 1 := by omega
              have hlook : ∀ q, sradix_tree_lookup
                  { r with rnode := some child, height := r.height - 1 } q =
                  sradix_tree_lookup r q := by
                intro q
                have hL : sradix_tree_lookup r q =
                    (if q / span r.shift (hh + 2) ≠ 0 then none
                     else lookupGo r.shift (2 ^ r.shift - 1) (hh + 2)
                       (SN.node nh c f kids) q) := by
                  simp only [sradix_tree_lookup]
                  rw [hr, hhh, hmk, rx_shr]
                  rfl
                have hR : sradix_tree_lookup
                    { r with rnode := some child, height := r.height - 1 } q =
                    (if q / span r.shift (hh + 1) ≠ 0 then none
                     else lookupGo r.shift (2 ^ r.shift - 1) (hh + 1)
                       child q) := by
                  simp only [sradix_tree_lookup]
                  rw [hhh, hmk, rx_shr]
                  rfl
                rw [hL, hR]
                by_cases hq1 : q < span r.shift (hh + 1)
                · have hg1 : q / span r.shift (hh + 1) = 0 :=
                    Nat.div_eq_of_lt hq1
                  have hg2 : q / span r.shift (hh + 2) = 0 :=
                    Nat.div_eq_of_lt
                      (lt_trans hq1 (rx_span_mono r.shift (hh + 1) hs1))
                  rw [if_neg (by omega), if_neg (by omega)]
                  rw [rx_lookupGo_node, hg1]
                  rw [Nat.zero_mod, hk0]
                · by_cases hq2 : q < span r.shift (hh + 2)
                  · have hg2 : q / span r.shift (hh + 2) = 0 :=
                      Nat.div_eq_of_lt hq2
                    have hdpos : 1 ≤ q / span r.shift (hh + 1) :=
                      (Nat.one_le_div_iff (rx_span_pos _ _)).mpr
                        (by omega)
                    rw [if_pos (by omega), if_neg (by omega)]
                    rw [rx_lookupGo_node]
                    have hdlt : q / span r.shift (hh + 1) < 2 ^ r.shift :=
                      rx_digit_lt r.shift hh q hq2
                    rw [Nat.mod_eq_of_lt hdlt]
                    have hnone : kids.getD (q / span r.shift (hh + 1))
                        none = none :=
                      rx_countP_one_unique kids 0 _ (by omega)
                        (by rw [hk0]; exact Option.some_ne_none child)
                        hcnt1
                    rw [hnone]
                  · have hd1 : 1 ≤ q / span r.shift (hh + 1) :=
                      (Nat.one_le_div_iff (rx_span_pos _ _)).mpr
                        (le_trans (le_of_lt (rx_span_mono r.shift (hh + 1)
                          hs1)) (by
                            have he : span r.shift (hh + 1 + 1) =
                              span r.shift (hh + 2) := rfl
                            omega))
                    have hd2 : 1 ≤ q / span r.shift (hh + 2) :=
                      (Nat.one_le_div_iff (rx_span_pos _ _)).mpr (by omega)
                    rw [if_pos (by omega), if_pos (by omega)]
              have hW1 : WFR { r with rnode := some child, height := r.height - 1 } := by
                refine ⟨hW.1, hW.2.1, hW.2.2.1, ?_, ?_⟩
                · intro t' ht'
                  injection ht' with hte
                  rw [← hte]
                  constructor
                  · show 1 ≤ r.height - 1
                    omega
                  · show WFn r.stores_size (r.height - 1) child
                    rw [hsp, hhh]
                    exact hchildWF
                · intro p hp
                  rw [hlook p]
                  exact hW.2.2.2.2 p hp
              obtain ⟨I1, I2, I3, I4, I5, I6, I7, I8, I9⟩ := ih _ hW1
              rw [hkey]
              refine ⟨I1, I2, I3, I4, I5,
                fun q => (I6 q).trans (hlook q), ?_, ?_, ?_⟩
              · intro hI
                apply I7
                show Inhab (r.height - 1) child
                unfold rootInhab at hI
                rw [hr] at hI
                rw [hhh] at hI
                rw [hhh]
                exact hI.2 _ (rx_mem_of_getD _ _ _ hk0) child rfl
              · intro hle
                apply I8
                show r.height - 1 ≤ n
                omega
              · intro _
                exact I9 (fun habs => Option.noConfusion habs)

theorem rx_Inhab_lookup {α : Type} (s : Nat) (hs : 1 ≤ s) :
    ∀ (h : Nat) (t : SN α), WFn (2 ^ s) h t → Inhab h t →
      ∃ i, i < span s h ∧ lookupGo s (2 ^ s - 1) h t i ≠ none := by
  intro h
  induction h using Nat.strong_induction_on with
  | _ h IH =>
    match h with
    | 0 => intro t hW _; exact hW.elim
    | 1 =>
      intro t hW hI
      match t with
      | .node _ _ _ _ => exact hW.elim
      | .leaf c f items =>
        obtain ⟨hlen, hcnt, hf0⟩ := hW
        have hc1 : 1 ≤ c := hI
        have hpos : 0 < items.countP Option.isSome := by omega
        obtain ⟨a, ha, hsa⟩ := List.countP_pos_iff.mp hpos
        obtain ⟨i0, hi0, hget⟩ := List.mem_iff_getElem.mp ha
        refine ⟨i0, by rw [rx_span_one]; omega, ?_⟩
        rw [rx_lookupGo_leaf]
        rw [Nat.mod_eq_of_lt (by rw [← hlen]; exact hi0)]
        rw [List.getD_eq_getElem items none hi0, hget]
        exact Option.isSome_iff_ne_none.mp hsa
    | h + 2 =>
      intro t hW hI
      match t with
      | .leaf _ _ _ => exact hW.elim
      | .node nh c f kids =>
        obtain ⟨hnh, hlen, hcnt, hful, hkWF⟩ := hW
        obtain ⟨hc1, hIk⟩ := hI
        have hpos : 0 < kids.countP Option.isSome := by omega
        obtain ⟨a, ha, hsa⟩ := List.countP_pos_iff.mp hpos
        obtain ⟨d, hd, hget⟩ := List.mem_iff_getElem.mp ha
        obtain ⟨ch, hchx⟩ := Option.isSome_iff_exists.mp hsa
        have hgd : kids.getD d none = some ch := by
          rw [List.getD_eq_getElem kids none hd, hget, hchx]
        have hWch : WFn (2 ^ s) (h + 1) ch :=
          hkWF _ (rx_mem_of_getD _ _ _ hgd) ch rfl
        have hIch : Inhab (h + 1) ch :=
          hIk _ (rx_mem_of_getD _ _ _ hgd) ch rfl
        obtain ⟨i0, hi0lt, hi0⟩ := IH (h + 1) (by omega) ch hWch hIch
        have hdlt : d < 2 ^ s := by rw [← hlen]; exact hd
        have hsp := rx_span_pos s (h + 1)
        refine ⟨d * span s (h + 1) + i0, ?_, ?_⟩
        · have hmul : (d + 1) * span s (h + 1) ≤ 2 ^ s * span s (h + 1) :=
            Nat.mul_le_mul_right _ (by omega)
          have heq : span s (h + 2) = span s (h + 1) * 2 ^ s :=
            rx_span_succ s (h + 1)
          have hcomm : span s (h + 1) * 2 ^ s = 2 ^ s * span s (h + 1) :=
            Nat.mul_comm _ _
          have hsucc : (d + 1) * span s (h + 1) =
              d * span s (h + 1) + span s (h + 1) := by ring
          omega
        · rw [rx_lookupGo_node]
          have hdig : (d * span s (h + 1) + i0) / span s (h + 1) % 2 ^ s =
              d := by
            rw [rx_mul_add_div d _ i0 hsp hi0lt]
            exact Nat.mod_eq_of_lt hdlt
          rw [hdig, hgd]
          show lookupGo s (2 ^ s - 1) (h + 1) ch
            (d * span s (h + 1) + i0) ≠ none
          rw [rx_lookupGo_mod s (h + 1) ch]
          rw [rx_mul_add_mod d _ i0 hi0lt]
          exact hi0

theorem rx_two_some_high {α : Type} (l : List (Option α))
    (h2 : 2 ≤ l.countP Option.isSome) :
    ∃ j, 1 ≤ j ∧ j < l.length ∧ l.getD j none ≠ none := by
  match l with
  | [] => simp at h2
  | a :: t =>
    rw [List.countP_cons] at h2
    have hpos : 0 < t.countP Option.isSome := by
      have : (if Option.isSome a then 1 else 0) ≤ 1 := by
        by_cases hx : (Option.isSome a : Bool) = true
        · simp [hx]
        · simp [hx]
      omega
    obtain ⟨b, hb, hsb⟩ := List.countP_pos_iff.mp hpos
    obtain ⟨m, hm, hbe⟩ := List.mem_iff_getElem.mp hb
    refine ⟨m + 1, by omega, by simp; omega, ?_⟩
    rw [List.getD_cons_succ]
    rw [List.getD_eq_getElem t none hm, hbe]
    exact Option.isSome_iff_ne_none.mp hsb

theorem rx_blocked_minimal {α : Type} (r : SRoot α) (hW : WFR r)
    (hI : rootInhab r) (hB : shrinkBlocked r) (hne : r.rnode ≠ none) :
    heightMinimal r := by
  by_cases h1 : r.height ≤ 1
  · exact Or.inl h1
  · obtain ⟨t, hr⟩ := Option.ne_none_iff_exists'.mp hne
    obtain ⟨hge, hWn⟩ := hW.2.2.2.1 t hr
    obtain ⟨hh, hhh⟩ : ∃ hh, r.height = hh + 2 := ⟨r.height - 2, by omega⟩
    have hs1 : 1 ≤ r.shift := hW.1
    have hsp : r.stores_size = 2 ^ r.shift := hW.2.1
    have hmk : r.mask = 2 ^ r.shift - 1 := by rw [hW.2.2.1, hsp]
    match t, hWn, hr with
    | .leaf c0 f0 items, hWn, hr =>
      rw [hhh] at hWn
      exact hWn.elim
    | .node nh c f kids, hWn, hr =>
      rw [hhh, hsp] at hWn
      obtain ⟨hnh, hlen, hcnt, hful, hkWF⟩ := hWn
      have hIk : Inhab (hh + 2) (SN.node nh c f kids) := by
        unfold rootInhab at hI
        rw [hr, hhh] at hI
        exact hI
      obtain ⟨hc1, hIkk⟩ := hIk
      have hdig : ∃ d, 1 ≤ d ∧ d < kids.length ∧
          kids.getD d none ≠ none := by
        rcases rx_blocked_elim r nh c f kids hB hr with hle | hcne | hk0
        · omega
        · apply rx_two_some_high
          omega
        · have hpos : 0 < kids.countP Option.isSome := by omega
          obtain ⟨a, ha, hsa⟩ := List.countP_pos_iff.mp hpos
          obtain ⟨d, hd, hget⟩ := List.mem_iff_getElem.mp ha
          refine ⟨d, ?_, hd, ?_⟩
          · rcases Nat.eq_zero_or_pos d with hd0 | hd0
            · subst hd0
              rw [List.getD_eq_getElem kids none hd, hget] at hk0
              rw [hk0] at hsa
              simp at hsa
            · omega
          · rw [List.getD_eq_getElem kids none hd, hget]
            exact Option.isSome_iff_ne_none.mp hsa
      obtain ⟨d, hd1, hdlen, hdsome⟩ := hdig
      obtain ⟨ch, hgd⟩ := Option.ne_none_iff_exists'.mp hdsome
      have hWch : WFn (2 ^ r.shift) (hh + 1) ch :=
        hkWF _ (rx_mem_of_getD _ _ _ hgd) ch rfl
      have hIch : Inhab (hh + 1) ch :=
        hIkk _ (rx_mem_of_getD _ _ _ hgd) ch rfl
      obtain ⟨i0, hi0lt, hi0⟩ := rx_Inhab_lookup r.shift hs1 (hh + 1) ch
        hWch hIch
      have hdlt : d < 2 ^ r.shift := by rw [← hlen]; exact hdlen
      have hspp := rx_span_pos r.shift (hh + 1)
      refine Or.inr ⟨d * span r.shift (hh + 1) + i0, ?_, ?_⟩
      · have hbound : d * span r.shift (hh + 1) + i0 <
            span r.shift (hh + 2) := by
          have hmul : (d + 1) * span r.shift (hh + 1) ≤
              2 ^ r.shift * span r.shift (hh + 1) :=
            Nat.mul_le_mul_right _ (by omega)
          have heq : span r.shift (hh + 2) =
              span r.shift (hh + 1) * 2 ^ r.shift :=
            rx_span_succ r.shift (hh + 1)
          have hcomm : span r.shift (hh + 1) * 2 ^ r.shift =
              2 ^ r.shift * span r.shift (hh + 1) :=
            Nat.mul_comm _ _
          have hsucc : (d + 1) * span r.shift (hh + 1) =
              d * span r.shift (hh + 1) + span r.shift (hh + 1) := by ring
          omega
        have hLu : sradix_tree_lookup r (d * span r.shift (hh + 1) + i0) =
            (if (d * span r.shift (hh + 1) + i0) / span r.shift (hh + 2) ≠ 0
             then none
             else lookupGo r.shift (2 ^ r.shift - 1) (hh + 2)
               (SN.node nh c f kids)
               (d * span r.shift (hh + 1) + i0)) := by
          simp only [sradix_tree_lookup]
          rw [hr, hhh, hmk, rx_shr]
          rfl
        rw [hLu]
        rw [if_neg (by
          have hz : (d * span r.shift (hh + 1) + i0) /
              span r.shift (hh + 2) = 0 := Nat.div_eq_of_lt hbound
          omega)]
        rw [rx_lookupGo_node]
        have hdig2 : (d * span r.shift (hh + 1) + i0) /
            span r.shift (hh + 1) % 2 ^ r.shift = d := by
          rw [rx_mul_add_div d _ i0 hspp hi0lt]
          exact Nat.mod_eq_of_lt hdlt
        rw [hdig2, hgd]
        show lookupGo r.shift (2 ^ r.shift - 1) (hh + 1) ch
          (d * span r.shift (hh + 1) + i0) ≠ none
        rw [rx_lookupGo_mod r.shift (hh + 1) ch]
        rw [rx_mul_add_mod d _ i0 hi0lt]
        exact hi0
      · rw [hhh]
        have : span r.shift (hh + 2 - 1) = span r.shift (hh + 1) := rfl
        rw [this]
        have : span r.shift (hh + 1) ≤ d * span r.shift (hh + 1) :=
          Nat.le_mul_of_pos_left _ (by omega)
        omega

theorem rx_shrinkLoop_min {α : Type} :
    ∀ (n : Nat) (r : SRoot α) (m : Nat),
      shrinkLoop n { r with min := m } =
        { shrinkLoop n r with min := m } := by
  intro n
  induction n with
  | zero => intro r m; rfl
  | succ n ih =>
    intro r m
    by_cases h1 : r.height ≤ 1
    · have hkL : shrinkLoop (n + 1) { r with min := m } =
          { r with min := m } := by
        simp only [shrinkLoop]
        rw [if_pos h1]
      have hkR : shrinkLoop (n + 1) r = r := by
        simp only [shrinkLoop]
        rw [if_pos h1]
      rw [hkL, hkR]
    · by_cases hrn : r.rnode = none
      · have hkL : shrinkLoop (n + 1) { r with min := m } =
            { r with min := m } := by
          simp only [shrinkLoop]
          rw [if_neg h1, hrn]
        have hkR : shrinkLoop (n + 1) r = r := by
          simp only [shrinkLoop]
          rw [if_neg h1, hrn]
        rw [hkL, hkR]
      · obtain ⟨t, hr⟩ := Option.ne_none_iff_exists'.mp hrn
        rcases t with ⟨c0, f0, items⟩ | ⟨nh, c, f, kids⟩
        · have hkL : shrinkLoop (n + 1) { r with min := m } =
              { r with min := m } := by
            simp only [shrinkLoop]
            rw [if_neg h1, hr]
          have hkR : shrinkLoop (n + 1) r = r := by
            simp only [shrinkLoop]
            rw [if_neg h1, hr]
          rw [hkL, hkR]
        · by_cases hc : c ≠ 1
          · have hkL : shrinkLoop (n + 1) { r with min := m } =
                { r with min := m } := by
              simp only [shrinkLoop]
              rw [if_neg h1, hr]
              simp only []
              rw [if_pos hc]
            have hkR : shrinkLoop (n + 1) r = r := by
              simp only [shrinkLoop]
              rw [if_neg h1, hr]
              simp only []
              rw [if_pos hc]
            rw [hkL, hkR]
          · by_cases hk : kids.getD 0 none = none
            · have hkL : shrinkLoop (n + 1) { r with min := m } =
                  { r with min := m } := by
                simp only [shrinkLoop]
                rw [if_neg h1, hr]
                simp only []
                rw [if_neg hc, hk]
              have hkR : shrinkLoop (n + 1) r = r := by
                simp only [shrinkLoop]
                rw [if_neg h1, hr]
                simp only []
                rw [if_neg hc, hk]
              rw [hkL, hkR]
            · obtain ⟨child, hkc⟩ := Option.ne_none_iff_exists'.mp hk
              have hkL : shrinkLoop (n + 1) { r with min := m } =
                  shrinkLoop n { r with rnode := some child, height := r.height - 1, min := m } := by
                simp only [shrinkLoop]
                rw [if_neg h1, hr]
                simp only []
                rw [if_neg hc, hkc]
              have hkR : shrinkLoop (n + 1) r =
                  shrinkLoop n { r with rnode := some child, height := r.height - 1 } := by
                simp only [shrinkLoop]
                rw [if_neg h1, hr]
                simp only []
                rw [if_neg hc, hkc]
              rw [hkL, hkR]
              exact ih { r with rnode := some child, height := r.height - 1 } m

theorem rx_delete_spec {α : Type} (r : SRoot α) (index : Nat) (v : α)
    (hW : WFR r) (hv : sradix_tree_lookup r index = some v) :
    WFR (sradix_tree_delete_from_leaf r index).1 ∧
    sradix_tree_lookup (sradix_tree_delete_from_leaf r index).1 index =
      none ∧
    (∀ q, q ≠ index →
      sradix_tree_lookup (sradix_tree_delete_from_leaf r index).1 q =
        sradix_tree_lookup r q) ∧
    (∀ t0, r.rnode = some t0 →
      (sradix_tree_delete_from_leaf r index).2.length =
        emptiedChainLen r.shift r.stores_size r.mask r.height t0 index) ∧
    (rootInhab r → rootInhab (sradix_tree_delete_from_leaf r index).1) ∧
    (rootInhab r → shrinkBlocked r →
      shrinkBlocked (sradix_tree_delete_from_leaf r index).1) ∧
    (rootInhab r → shrinkBlocked r →
      (sradix_tree_delete_from_leaf r index).1.rnode = none ∨
        heightMinimal (sradix_tree_delete_from_leaf r index).1) := by
  have hs1 : 1 ≤ r.shift := hW.1
  have hsp : r.stores_size = 2 ^ r.shift := hW.2.1
  have hmask : r.mask = 2 ^ r.shift - 1 := by rw [hW.2.2.1, hsp]
  by_cases hrn : r.rnode = none
  · exfalso
    simp only [sradix_tree_lookup] at hv
    rw [hrn] at hv
    exact Option.noConfusion hv
  obtain ⟨t, hrt⟩ := Option.ne_none_iff_exists'.mp hrn
  obtain ⟨hge, hWn0⟩ := hW.2.2.2.1 t hrt
  have hWn : WFn (2 ^ r.shift) r.height t := by rw [← hsp]; exact hWn0
  have hshrq : ∀ q0 : Nat, q0 >>> (r.shift * r.height) =
      q0 / span r.shift r.height := fun q0 => rx_shr q0 _
  have hLr : ∀ q0, sradix_tree_lookup r q0 =
      (if q0 / span r.shift r.height ≠ 0 then none
       else lookupGo r.shift (2 ^ r.shift - 1) r.height t q0) := by
    intro q0
    simp only [sradix_tree_lookup]
    rw [hrt, hmask, hshrq]
  rw [hLr index] at hv
  have hspanpos := rx_span_pos r.shift r.height
  have hidx : index < span r.shift r.height := by
    by_cases hg : index / span r.shift r.height ≠ 0
    · rw [if_pos hg] at hv
      exact Option.noConfusion hv
    · exact (Nat.div_eq_zero_iff hspanpos).mp (not_not.mp hg)
  have hguard : ¬(index / span r.shift r.height ≠ 0) := by
    rw [Nat.div_eq_of_lt hidx]
    exact fun h => h rfl
  rw [if_neg hguard] at hv
  have hpres : lookupGo r.shift (2 ^ r.shift - 1) r.height t index ≠
      none := by
    rw [hv]
    exact Option.some_ne_none v
  obtain ⟨S1, S2, S3⟩ := rx_deleteAt_spec r.shift hs1 r.height t index hWn
    hpres
  have hD : deleteAt r.shift r.stores_size r.mask r.height t index =
      deleteAt r.shift (2 ^ r.shift) (2 ^ r.shift - 1) r.height t index := by
    rw [hsp, hmask]
  have hmodne : ∀ q, q ≠ index → q < span r.shift r.height →
      q % span r.shift r.height ≠ index % span r.shift r.height := by
    intro q hne hlt
    rw [Nat.mod_eq_of_lt hlt, Nat.mod_eq_of_lt hidx]
    exact hne
  cases hdl : (deleteAt r.shift (2 ^ r.shift) (2 ^ r.shift - 1) r.height t
      index).1 with
  | none =>
    obtain ⟨N1, N2, N3⟩ := S2 hdl
    have hres : sradix_tree_delete_from_leaf r index =
        (if r.min > index
         then { r with rnode := none, min := index }
         else { r with rnode := none },
         (deleteAt r.shift (2 ^ r.shift) (2 ^ r.shift - 1) r.height t
           index).2.1) := by
      simp only [sradix_tree_delete_from_leaf]
      rw [hrt]
      simp only []
      rw [hD, hdl]
    have hlookN : ∀ q0, sradix_tree_lookup
        (sradix_tree_delete_from_leaf r index).1 q0 = none := by
      intro q0
      rw [hres]
      by_cases hmin : r.min > index
      · rw [if_pos hmin]
        rfl
      · rw [if_neg hmin]
        rfl
    have honlyN : ∀ q, q ≠ index → sradix_tree_lookup r q = none := by
      intro q hne
      rw [hLr q]
      by_cases hq : q < span r.shift r.height
      · rw [if_neg (by rw [Nat.div_eq_of_lt hq]; exact fun h => h rfl)]
        exact N3 q (hmodne q hne hq)
      · rw [if_pos (by
          have h1 : 1 ≤ q / span r.shift r.height :=
            (Nat.one_le_div_iff hspanpos).mpr (by omega)
          omega)]
    refine ⟨?_, hlookN index, ?_, ?_, ?_, ?_, ?_⟩
    · rw [hres]
      by_cases hmin : r.min > index
      · rw [if_pos hmin]
        refine ⟨hs1, hsp, hW.2.2.1, ?_, ?_⟩
        · intro t0 habs
          exact Option.noConfusion habs
        · intro p hp
          exfalso
          have hp2 : p < index := hp
          have hplt : p < r.min := by omega
          exact absurd (honlyN p (by omega)) (hW.2.2.2.2 p hplt)
      · rw [if_neg hmin]
        refine ⟨hs1, hsp, hW.2.2.1, ?_, ?_⟩
        · intro t0 habs
          exact Option.noConfusion habs
        · intro p hp
          exfalso
          have hp2 : p < r.min := hp
          exact absurd (honlyN p (by omega)) (hW.2.2.2.2 p hp2)
    · intro q hne
      rw [hlookN q, honlyN q hne]
    · intro t0 hrt0
      rw [hres]
      rw [hrt] at hrt0
      injection hrt0 with hte
      subst hte
      show (deleteAt r.shift (2 ^ r.shift) (2 ^ r.shift - 1) r.height t
        index).2.1.length =
        emptiedChainLen r.shift r.stores_size r.mask r.height t index
      rw [hsp, hmask]
      exact S1
    · intro _
      rw [hres]
      by_cases hmin : r.min > index
      · rw [if_pos hmin]
        exact trivial
      · rw [if_neg hmin]
        exact trivial
    · intro _ _
      rw [hres]
      by_cases hmin : r.min > index
      · rw [if_pos hmin]
        exact rx_blocked_intro _ (fun nh2 c2 f2 kids2 habs =>
          Option.noConfusion habs)
      · rw [if_neg hmin]
        exact rx_blocked_intro _ (fun nh2 c2 f2 kids2 habs =>
          Option.noConfusion habs)
    · intro _ _
      left
      rw [hres]
      by_cases hmin : r.min > index
      · rw [if_pos hmin]
      · rw [if_neg hmin]
  | some t' =>
    obtain ⟨W', hlenlt, hlk', hunch', hfT, hfF, hInh', hShp⟩ := S3 t' hdl
    have hlkr2 : ∀ q0, sradix_tree_lookup { r with rnode := some t', min := if r.min > index then index else r.min } q0 =
        (if q0 / span r.shift r.height ≠ 0 then none
         else lookupGo r.shift (2 ^ r.shift - 1) r.height t' q0) := by
      intro q0
      simp only [sradix_tree_lookup]
      rw [hmask, hshrq]
    have hunchR : ∀ q, q ≠ index →
        sradix_tree_lookup { r with rnode := some t', min := if r.min > index then index else r.min } q =
          sradix_tree_lookup r q := by
      intro q hne
      rw [hlkr2 q, hLr q]
      by_cases hq : q < span r.shift r.height
      · rw [if_neg (by rw [Nat.div_eq_of_lt hq]; exact fun h => h rfl),
          if_neg (by rw [Nat.div_eq_of_lt hq]; exact fun h => h rfl)]
        exact hunch' q (hmodne q hne hq)
      · rw [if_pos (by
            have h1 : 1 ≤ q / span r.shift r.height :=
              (Nat.one_le_div_iff hspanpos).mpr (by omega)
            omega),
          if_pos (by
            have h1 : 1 ≤ q / span r.shift r.height :=
              (Nat.one_le_div_iff hspanpos).mpr (by omega)
            omega)]
    have hlkidx : sradix_tree_lookup { r with rnode := some t', min := if r.min > index then index else r.min } index = none := by
      rw [hlkr2 index]
      rw [if_neg hguard]
      exact hlk'
    have hWR2M : WFR { r with rnode := some t', min := if r.min > index then index else r.min } := by
      refine ⟨hs1, hsp, hW.2.2.1, ?_, ?_⟩
      · intro t0 h0
        injection h0 with hte
        subst hte
        refine ⟨hge, ?_⟩
        show WFn r.stores_size r.height t'
        rw [hsp]
        exact W'
      · intro p hp
        have hple : p < r.min ∧ p ≠ index := by
          by_cases hmin : r.min > index
          · rw [if_pos hmin] at hp
            have hp2 : p < index := hp
            exact ⟨by omega, by omega⟩
          · rw [if_neg hmin] at hp
            have hp2 : p < r.min := hp
            exact ⟨hp2, by omega⟩
        rw [hunchR p hple.2]
        exact hW.2.2.2.2 p hple.1
    have hInhR : rootInhab r → rootInhab { r with rnode := some t', min := if r.min > index then index else r.min } := by
      intro hI
      show Inhab r.height t'
      apply hInh'
      unfold rootInhab at hI
      rw [hrt] at hI
      exact hI
    by_cases hemp : (deleteAt r.shift (2 ^ r.shift) (2 ^ r.shift - 1)
        r.height t index).2.1.isEmpty = true
    · have hempT : (deleteAt r.shift (2 ^ r.shift) (2 ^ r.shift - 1)
          r.height t index).2.1 = [] := by
        rcases hl : (deleteAt r.shift (2 ^ r.shift) (2 ^ r.shift - 1)
            r.height t index).2.1 with _ | ⟨a, l⟩
        · rfl
        · rw [hl] at hemp
          simp at hemp
      have hBlk2 : shrinkBlocked r → shrinkBlocked { r with rnode := some t', min := if r.min > index then index else r.min } := by
        intro hB
        apply rx_blocked_intro
        intro nh2 c2 f2 kids2 hr2
        injection hr2 with hte2
        by_cases hh1 : r.height ≤ 1
        · exact Or.inl hh1
        · obtain ⟨hh, hhh⟩ : ∃ hh, r.height = hh + 2 :=
            ⟨r.height - 2, by omega⟩
        
          rcases t with ⟨c0, f0, items0⟩ | ⟨nh0, c0, f0, kids0⟩
          · rw [hhh] at hWn
            exact hWn.elim
          · obtain ⟨nh3, f3, kids3, hteq, hiff⟩ :=
              hShp hempT nh0 c0 f0 kids0 rfl
            rw [hteq] at hte2
            injection hte2 with e1 e2 e3 e4
            rcases rx_blocked_elim r nh0 c0 f0 kids0 hB hrt with
              hx | hx | hx
            · exact Or.inl hx
            · exact Or.inr (Or.inl (by omega))
            · refine Or.inr (Or.inr ?_)
              rw [← e4]
              exact (hiff 0).mpr hx
      have hres : sradix_tree_delete_from_leaf r index =
          ({ r with rnode := some t', min := if r.min > index then index else r.min },
           (deleteAt r.shift (2 ^ r.shift) (2 ^ r.shift - 1) r.height t
             index).2.1) := by
        simp only [sradix_tree_delete_from_leaf]
        rw [hrt]
        simp only []
        rw [hD, hdl, hemp]
        simp only [if_true]
        by_cases hmin : r.min > index
        · rw [if_pos hmin, if_pos hmin]
        · rw [if_neg hmin, if_neg hmin]
      refine ⟨?_, ?_, ?_, ?_, ?_, ?_, ?_⟩
      · rw [hres]
        exact hWR2M
      · rw [hres]
        exact hlkidx
      · intro q hne
        rw [hres]
        exact hunchR q hne
      · intro t0 hrt0
        rw [hres]
        rw [hrt] at hrt0
        injection hrt0 with hte
        subst hte
        show (deleteAt r.shift (2 ^ r.shift) (2 ^ r.shift - 1) r.height t
          index).2.1.length =
          emptiedChainLen r.shift r.stores_size r.mask r.height t index
        rw [hsp, hmask]
        exact S1
      · intro hI
        rw [hres]
        exact hInhR hI
      · intro hI hB
        rw [hres]
        exact hBlk2 hB
      · intro hI hB
        right
        rw [hres]
        exact rx_blocked_minimal _ hWR2M (hInhR hI) (hBlk2 hB)
          (fun habs => Option.noConfusion habs)
    · have hempF : (deleteAt r.shift (2 ^ r.shift) (2 ^ r.shift - 1)
          r.height t index).2.1.isEmpty = false := Bool.eq_false_iff.mpr hemp
      have hres : sradix_tree_delete_from_leaf r index =
          (if (sradix_tree_shrink { r with rnode := some t' }).min > index
           then { sradix_tree_shrink { r with rnode := some t' } with min := index }
           else sradix_tree_shrink { r with rnode := some t' },
           (deleteAt r.shift (2 ^ r.shift) (2 ^ r.shift - 1) r.height t
             index).2.1) := by
        simp only [sradix_tree_delete_from_leaf]
        rw [hrt]
        simp only []
        rw [hD, hdl, hempF]
        simp only [Bool.false_eq_true, if_false]
      obtain ⟨J1, J2, J3, J4, J5, J6, J7, J8, J9⟩ :=
        rx_shrinkLoop_spec r.height { r with rnode := some t', min := if r.min > index then index else r.min } hWR2M
      have hshr2 : sradix_tree_shrink { r with rnode := some t' } =
          { shrinkLoop r.height { r with rnode := some t', min := if r.min > index then index else r.min } with min := r.min } :=
        rx_shrinkLoop_min r.height { r with rnode := some t', min := if r.min > index then index else r.min } r.min
      have hr3 : (sradix_tree_delete_from_leaf r index).1 =
          shrinkLoop r.height { r with rnode := some t', min := if r.min > index then index else r.min } := by
        rw [hres]
        show (if (sradix_tree_shrink { r with rnode := some t' }).min >
            index
          then { sradix_tree_shrink { r with rnode := some t' } with min := index }
          else sradix_tree_shrink { r with rnode := some t' }) = _
        rw [hshr2]
        by_cases hmin : r.min > index
        · rw [if_pos hmin]
          have hWmin : (shrinkLoop r.height { r with rnode := some t', min := if r.min > index then index else r.min }).min =
              index := by
            rw [J5]
            show (if r.min > index then index else r.min) = index
            rw [if_pos hmin]
          have heta : { shrinkLoop r.height { r with rnode := some t', min := if r.min > index then index else r.min } with min := (shrinkLoop r.height { r with rnode := some t', min := if r.min > index then index else r.min }).min } =
              shrinkLoop r.height { r with rnode := some t', min := if r.min > index then index else r.min } := rfl
          rw [hWmin] at heta
          exact heta
        · rw [if_neg hmin]
          have hWmin : (shrinkLoop r.height { r with rnode := some t', min := if r.min > index then index else r.min }).min =
              r.min := by
            rw [J5]
            show (if r.min > index then index else r.min) = r.min
            rw [if_neg hmin]
          have heta : { shrinkLoop r.height { r with rnode := some t', min := if r.min > index then index else r.min } with min := (shrinkLoop r.height { r with rnode := some t', min := if r.min > index then index else r.min }).min } =
              shrinkLoop r.height { r with rnode := some t', min := if r.min > index then index else r.min } := rfl
          rw [hWmin] at heta
          exact heta
      refine ⟨?_, ?_, ?_, ?_, ?_, ?_, ?_⟩
      · rw [hr3]
        exact J1
      · rw [hr3, J6 index]
        exact hlkidx
      · intro q hne
        rw [hr3, J6 q]
        exact hunchR q hne
      · intro t0 hrt0
        rw [hres]
        rw [hrt] at hrt0
        injection hrt0 with hte
        subst hte
        show (deleteAt r.shift (2 ^ r.shift) (2 ^ r.shift - 1) r.height t
          index).2.1.length =
          emptiedChainLen r.shift r.stores_size r.mask r.height t index
        rw [hsp, hmask]
        exact S1
      · intro hI
        rw [hr3]
        exact J7 (hInhR hI)
      · intro hI hB
        rw [hr3]
        exact J8 (le_refl _)
      · intro hI hB
        right
        rw [hr3]
        exact rx_blocked_minimal _ J1 (J7 (hInhR hI)) (J8 (le_refl _))
          (J9 (fun habs => Option.noConfusion habs))

theorem rx_c5root_facts : WFR c5root ∧ rootInhab c5root ∧
    shrinkBlocked c5root ∧ sradix_tree_lookup c5root 0 = some 7 := by
  refine ⟨⟨by decide, by decide, by decide, ?_, ?_⟩, ?_, ?_, by decide⟩
  · intro t ht
    injection ht with hte
    subst hte
    exact ⟨by decide, by decide, by decide, rfl⟩
  · intro p hp
    have hp0 : p = 0 := by
      have : p < 1 := hp
      omega
    subst hp0
    decide
  · show 1 ≤ 1
    exact le_refl 1
  · exact trivial

theorem rx_WFn_fieldsAccurate {α : Type} (ss : Nat) :
    ∀ (h : Nat) (t : SN α), WFn ss h t → fieldsAccurate ss h t := by
  intro h
  induction h using Nat.strong_induction_on with
  | _ h IH =>
    match h with
    | 0 => intro t hW; exact hW.elim
    | 1 =>
      intro t hW
      match t with
      | .leaf c f items => exact ⟨hW.2.1, hW.2.2⟩
      | .node _ _ _ _ => exact hW.elim
    | h + 2 =>
      intro t hW
      match t with
      | .leaf _ _ _ => exact hW.elim
      | .node nh c f kids =>
        obtain ⟨_, _, hc, hf, hk⟩ := hW
        exact ⟨hc, hf, fun o ho ch hoch => IH (h + 1) (by omega) ch
          (hk o ho ch hoch)⟩

theorem rx_WFR_fields {α : Type} (r : SRoot α) (hW : WFR r) :
    rootFieldsAccurate r := by
  unfold rootFieldsAccurate
  match hr : r.rnode with
  | none => exact trivial
  | some t =>
    exact rx_WFn_fieldsAccurate r.stores_size r.height t (hW.2.2.2.1 t hr).2

/-- Claim C5: deleting a previously inserted item by its index makes a
subsequent lookup of that index return "not found" while every other index
is unchanged; the `root->free` log holds exactly the emptied chain (the
nodes from the leaf up to, but excluding, the first ancestor whose count
does not reach zero); and afterwards the tree is either empty or of
semantically minimal height (the shrink loop has replaced the root by its
single slot-0 child as often as possible). -/
theorem radix_delete_correct (α : Type) (r : SRoot α) (index : Nat) (v : α)
    (hW : WFR r) (hI : rootInhab r) (hB : shrinkBlocked r)
    (hv : sradix_tree_lookup r index = some v) :
    sradix_tree_lookup (sradix_tree_delete_from_leaf r index).1 index =
      none ∧
    (∀ q, q ≠ index →
      sradix_tree_lookup (sradix_tree_delete_from_leaf r index).1 q =
        sradix_tree_lookup r q) ∧
    (∀ t0, r.rnode = some t0 →
      (sradix_tree_delete_from_leaf r index).2.length =
        emptiedChainLen r.shift r.stores_size r.mask r.height t0 index) ∧
    ((sradix_tree_delete_from_leaf r index).1.rnode = none ∨
      heightMinimal (sradix_tree_delete_from_leaf r index).1) := by
  obtain ⟨D1, D2, D3, D4, D5, D6, D7⟩ := rx_delete_spec r index v hW hv
  exact ⟨D2, D3, D4, D7 hI hB⟩

theorem radix_delete_correct_witness :
    (sradix_tree_lookup c5root 0 = some 7) ∧
    sradix_tree_lookup (sradix_tree_delete_from_leaf c5root 0).1 0 = none ∧
    (∀ t0, c5root.rnode = some t0 →
      (sradix_tree_delete_from_leaf c5root 0).2.length =
        emptiedChainLen c5root.shift c5root.stores_size c5root.mask
          c5root.height t0 0) ∧
    ((sradix_tree_delete_from_leaf c5root 0).1.rnode = none ∨
      heightMinimal (sradix_tree_delete_from_leaf c5root 0).1) := by
  obtain ⟨hW, hI, hB, hv⟩ := rx_c5root_facts
  obtain ⟨P1, P2, P3, P4⟩ := radix_delete_correct Nat c5root 0 7 hW hI hB hv
  exact ⟨hv, P1, P3, P4⟩

/-- Claim C3: between operations every node's `count` equals the number of
non-null direct slots and every node's `fulls` equals the number of
completely full immediate children, where "completely full" is
`fulls == stores_size` (non-leaf) or `count == stores_size` (leaf); the
accuracy of these fields is part of well-formedness and is preserved by
`enter` (dense regime, no overflow) and by `delete`. -/
theorem radix_fulls_count_invariant (α : Type) (s : Nat) (hs : 1 ≤ s)
    (r : SRoot α) (items : List α) (hD : DenseR r) (hsh : r.shift = s)
    (hcap : r.min + items.length ≤ 2 ^ 30)
    (rd : SRoot α) (index : Nat) (v : α) (hWd : WFR rd)
    (hvd : sradix_tree_lookup rd index = some v) :
    rootFieldsAccurate r ∧
    rootFieldsAccurate (sradix_tree_enter r items).1 ∧
    rootFieldsAccurate (sradix_tree_delete_from_leaf rd index).1 := by
  refine ⟨rx_WFR_fields r hD.1, ?_, ?_⟩
  · exact rx_WFR_fields _ ((rx_enter_spec s hs r items hD hsh hcap).1).1
  · exact rx_WFR_fields _ (rx_delete_spec rd index v hWd hvd).1

theorem radix_fulls_count_invariant_witness :
    (1 ≤ 2 ∧
     (init_sradix_tree_root Nat 2).min + ([4, 5, 6] : List Nat).length ≤
       2 ^ 30 ∧
     sradix_tree_lookup c5root 0 = some 7) ∧
    rootFieldsAccurate
      (sradix_tree_enter (init_sradix_tree_root Nat 2) [4, 5, 6]).1 ∧
    rootFieldsAccurate (sradix_tree_delete_from_leaf c5root 0).1 := by
  have h := radix_fulls_count_invariant Nat 2 (by decide)
    (init_sradix_tree_root Nat 2) [4, 5, 6]
    (rx_init_DenseR Nat 2 (by decide)).1 rfl (by decide)
    c5root 0 7 rx_c5root_facts.1 rx_c5root_facts.2.2.2
  exact ⟨⟨by decide, by decide, rx_c5root_facts.2.2.2⟩, h.2.1, h.2.2⟩
